import Mathlib

/-!
# URDF property tree

A shallow embedding of `urdf_editor/src/urdf_property_tree.cpp`: the widget that keeps a
`urdf::ModelInterface` (links and joints) and a tree of `QTreeWidgetItem`s in step under
add, remove and reparent.

* Tree items live in an arena (`List QTreeWidgetItem`); an item pointer is its index, a null
  pointer is `none`.
* `urdf::Link` objects are never written by this file, so a `LinkSharedPtr` is embedded as the
  (finite) value it points to.  `urdf::Joint` objects are written through pointers
  (`parent_link_name`), so a `JointSharedPtr` is an index into the store `memory`.
* A function returns `none` where the C++ dereferences a null pointer or erases `end()`,
  and where a fuelled recursion runs out of fuel.
-/

namespace urdf

/-- The `urdf::Joint` fields the property tree reads and writes. -/
structure Joint where
  name : String
  parent_link_name : String
  child_link_name : String
deriving DecidableEq

/-- The `urdf::Link` fields the property tree reads: its name, its child joints (pointers into
the joint store) and its child links. -/
inductive Link where
  | mk (name : String) (child_joints : List Nat) (child_links : List Link)

/-- Field `name` of a link. -/
def Link.name : Link → String
  | .mk n _ _ => n

/-- Field `child_joints` of a link. -/
def Link.child_joints : Link → List Nat
  | .mk _ js _ => js

/-- Field `child_links` of a link. -/
def Link.child_links : Link → List Link
  | .mk _ _ ls => ls

/-- The `urdf::ModelInterface` members used by the tree: the two `std::map`s, as association
lists with one entry per key, and the root link pointer. -/
structure ModelInterface where
  links_ : List (String × Link)
  joints_ : List (String × Nat)
  root_link_ : Option Link

/-- Method `ModelInterface::getRoot`. -/
def ModelInterface.getRoot (m : ModelInterface) : Option Link := m.root_link_

/-- Method `ModelInterface::getLink(name, link)`: the map entry, or a null pointer. -/
def ModelInterface.getLink (m : ModelInterface) (name : String) : Option Link :=
  m.links_.lookup name

/-- The freshly constructed `urdf::ModelInterface`. -/
def ModelInterface.empty : ModelInterface :=
  { links_ := [], joints_ := [], root_link_ := none }

end urdf

namespace urdf_editor

/-- Item type tags: `QTreeWidgetItem::Type` and the enum of `URDFPropertyTree`. -/
inductive ItemType where
  | Plain
  | LinkRoot
  | JointRoot
  | Link
  | Joint
deriving DecidableEq

/-- Signals the widget emits on structural edits. -/
inductive Signal where
  | linkAddition
  | jointAddition
  | linkDeletion
  | jointDeletion
deriving DecidableEq

/-- Values of `QAbstractItemView::DropIndicatorPosition`. -/
inductive DropIndicatorPosition where
  | OnItem
  | AboveItem
  | BelowItem
  | OnViewport
deriving DecidableEq

/-- One `QTreeWidgetItem`, with the members of its subclasses `URDFPropertyTreeLinkItem`
(`link`, `assigned_joint`) and `URDFPropertyTreeJointItem` (`joint`). -/
structure QTreeWidgetItem where
  type : ItemType
  text : String
  par : Option Nat
  children : List Nat
  expanded : Bool
  link : Option urdf.Link
  assigned_joint : Option Nat
  joint : Option Nat

/-- The widget state: the item arena, the three fixed items, the model, the joint store, the
name lists and name-to-item maps, the emitted signals and the enabled flags of the actions. -/
structure URDFPropertyTree where
  items : List QTreeWidgetItem
  root_ : Nat
  link_root_ : Nat
  joint_root_ : Nat
  drag_item_ : Option Nat
  model_ : urdf.ModelInterface
  memory : List urdf.Joint
  link_names_ : List String
  joint_names_ : List String
  links_ : List (String × Nat)
  joints_ : List (String × Nat)
  emitted : List Signal
  add_enabled : Bool
  remove_enabled : Bool
  expand_enabled : Bool
  collapse_enabled : Bool

/-! ## Qt containers -/

/-- Decimal digits of `n`, most significant first (`QString::number` for a non-negative int). -/
def decimalDigits : Nat → Nat → List Char
  | 0, _ => []
  | fuel + 1, n =>
    if n < 10 then [Nat.digitChar n]
    else decimalDigits fuel (n / 10) ++ [Nat.digitChar (n % 10)]

/-- Function `QString::number(i)`. -/
def number (i : Nat) : String := String.mk (decimalDigits (i + 1) i)

/-- Method `QMap::insert`: the value of an existing key is replaced. -/
def qmapInsert (m : List (String × Nat)) (k : String) (v : Nat) : List (String × Nat) :=
  (k, v) :: m.filter (fun e => e.1 != k)

/-- Method `QMap::remove`. -/
def qmapRemove (m : List (String × Nat)) (k : String) : List (String × Nat) :=
  m.filter (fun e => e.1 != k)

/-- Method `std::map::insert`: an existing key keeps its value. -/
def stdInsert {α : Type} (m : List (String × α)) (k : String) (v : α) : List (String × α) :=
  if (m.lookup k).isSome then m else m ++ [(k, v)]

/-- Call `m.erase(m.find(k))`; erasing `end()` is undefined. -/
def stdErase {α : Type} (m : List (String × α)) (k : String) : Option (List (String × α)) :=
  if (m.lookup k).isSome then some (m.filter (fun e => e.1 != k)) else none

/-! ## `QTreeWidgetItem` operations on the arena -/

/-- Children of item `id` (empty for a pointer outside the arena). -/
def childrenOf (items : List QTreeWidgetItem) (id : Nat) : List Nat :=
  match items[id]? with
  | some it => it.children
  | none => []

/-- Method `QTreeWidgetItem::childCount`. -/
def childCount (items : List QTreeWidgetItem) (id : Nat) : Nat :=
  (childrenOf items id).length

/-- Method `QTreeWidgetItem::child(i)`. -/
def child (items : List QTreeWidgetItem) (id i : Nat) : Option Nat :=
  (childrenOf items id)[i]?

/-- Method `QTreeWidgetItem::parent`. -/
def parentOf (items : List QTreeWidgetItem) (id : Nat) : Option Nat :=
  match items[id]? with
  | some it => it.par
  | none => none

/-- Method `QTreeWidgetItem::indexOfChild`; `none` stands for `-1`. -/
def indexOfChild (items : List QTreeWidgetItem) (parent c : Nat) : Option Nat :=
  let cs := childrenOf items parent
  if cs.indexOf c < cs.length then some (cs.indexOf c) else none

/-- Method `QTreeWidgetItem::takeChild(index)`: removes the child at `index`, clears its
parent pointer and returns it; returns null when the index is out of range. -/
def takeChild (items : List QTreeWidgetItem) (parent : Nat) (index : Option Nat) :
    Option Nat × List QTreeWidgetItem :=
  match index with
  | none => (none, items)
  | some i =>
    match (childrenOf items parent)[i]? with
    | none => (none, items)
    | some c =>
      (some c,
        (items.modify (fun it => { it with children := it.children.eraseIdx i }) parent).modify
          (fun it => { it with par := none }) c)

/-- Method `QTreeWidgetItem::addChild(child)`: appends `child` and sets its parent pointer;
nothing happens for a null child or a child that already has a parent. -/
def addChild (items : List QTreeWidgetItem) (parent : Nat) (c : Option Nat) :
    List QTreeWidgetItem :=
  match c with
  | none => items
  | some c =>
    match items[c]? with
    | none => items
    | some ci =>
      if ci.par.isSome then items
      else
        (items.modify (fun it => { it with children := it.children ++ [c] }) parent).modify
          (fun it => { it with par := some parent }) c

/-- Method `QTreeWidgetItem::removeChild(child)`: `takeChild(children.indexOf(child))`. -/
def removeChild (items : List QTreeWidgetItem) (parent c : Nat) : List QTreeWidgetItem :=
  (takeChild items parent (indexOfChild items parent c)).2

/-- Method `QTreeWidgetItem::setExpanded`. -/
def setExpanded (items : List QTreeWidgetItem) (id : Nat) (e : Bool) : List QTreeWidgetItem :=
  items.modify (fun it => { it with expanded := e }) id

/-- A new item of the given type and text, with no parent and no children. -/
def newItem (ty : ItemType) (text : String) : QTreeWidgetItem :=
  { type := ty, text := text, par := none, children := [], expanded := false,
    link := none, assigned_joint := none, joint := none }

/-! ## The property tree -/

namespace URDFPropertyTree

/-- Emit a signal. -/
def emit (t : URDFPropertyTree) (s : Signal) : URDFPropertyTree :=
  { t with emitted := t.emitted ++ [s] }

/-- Type of the item behind a pointer; `none` for a null pointer (the C++ dereferences it). -/
def typeOf (t : URDFPropertyTree) (p : Option Nat) : Option ItemType :=
  match p with
  | none => none
  | some id => (t.items[id]?).map (fun it => it.type)

/-- Function `isJoint(item)`. -/
def isJoint (t : URDFPropertyTree) (p : Option Nat) : Option Bool :=
  (typeOf t p).map (fun ty => decide (ty = ItemType.Joint))

/-- Function `isLink(item)`. -/
def isLink (t : URDFPropertyTree) (p : Option Nat) : Option Bool :=
  (typeOf t p).map (fun ty => decide (ty = ItemType.Link))

/-- Function `isJointRoot(item)`. -/
def isJointRoot (t : URDFPropertyTree) (p : Option Nat) : Option Bool :=
  (typeOf t p).map (fun ty => decide (ty = ItemType.JointRoot))

/-- Function `isLinkRoot(item)`. -/
def isLinkRoot (t : URDFPropertyTree) (p : Option Nat) : Option Bool :=
  (typeOf t p).map (fun ty => decide (ty = ItemType.LinkRoot))

/-- Function `asLinkTreeItem(item)`: the item when it is a link item, null otherwise (the outer
`none` is the dereference of a null `item`). -/
def asLinkTreeItem (t : URDFPropertyTree) (p : Option Nat) : Option (Option Nat) :=
  (isLink t p).map (fun b => if b then p else none)

/-- Function `asJointTreeItem(item)`. -/
def asJointTreeItem (t : URDFPropertyTree) (p : Option Nat) : Option (Option Nat) :=
  (isJoint t p).map (fun b => if b then p else none)

/-- Function `initialize()`: creates `root_`, `link_root_` and `joint_root_`. -/
def initializeItems (t : URDFPropertyTree) : URDFPropertyTree :=
  let r := t.items.length
  let items0 := t.items ++ [{ newItem ItemType.Plain "RobotModel" with expanded := true }]
  let lr := items0.length
  let items1 := addChild (items0 ++ [newItem ItemType.LinkRoot "Links"]) r (some lr)
  let jr := items1.length
  let items2 := addChild (items1 ++ [newItem ItemType.JointRoot "Joints"]) r (some jr)
  { t with items := items2, root_ := r, link_root_ := lr, joint_root_ := jr }

/-- The constructor: an empty model and the three fixed items. -/
def new : URDFPropertyTree :=
  initializeItems
    { items := [], root_ := 0, link_root_ := 0, joint_root_ := 0, drag_item_ := none,
      model_ := urdf.ModelInterface.empty, memory := [], link_names_ := [], joint_names_ := [],
      links_ := [], joints_ := [], emitted := [],
      add_enabled := true, remove_enabled := true, expand_enabled := true,
      collapse_enabled := true }

/-- The loop of `clear()` on one group item:
`while (node->childCount() > 0) node->removeChild(node->child(0));`. -/
def clearLoop : Nat → Nat → List QTreeWidgetItem → List QTreeWidgetItem
  | 0, _, items => items
  | fuel + 1, node, items =>
    match child items node 0 with
    | some c => clearLoop fuel node (removeChild items node c)
    | none => items

/-- Function `clear()`. -/
def clear (t : URDFPropertyTree) : URDFPropertyTree :=
  let items1 := clearLoop (childCount t.items t.link_root_) t.link_root_ t.items
  let items2 := clearLoop (childCount items1 t.joint_root_) t.joint_root_ items1
  { t with items := items2, link_names_ := [], joint_names_ := [], links_ := [], joints_ := [] }

/-- The loop of `getValidName`: `do i += 1; name = prefix + number(i); while (contains(name))`. -/
def getValidNameLoop (pfx : String) (current_names : List String) : Nat → Nat → Option String
  | 0, _ => none
  | fuel + 1, i =>
    if current_names.contains (pfx ++ number (i + 1)) then
      getValidNameLoop pfx current_names fuel (i + 1)
    else some (pfx ++ number (i + 1))

/-- Function `getValidName(prefix, current_names)`; the counter is a C `int`, which cannot
overflow here because a `QStringList` holds fewer than `2^31 - 1` names. -/
def getValidName (pfx : String) (current_names : List String) : Option String :=
  getValidNameLoop pfx current_names (current_names.length + 1) 0

/-- The model statements of `addModelLink()`: `links_.insert(make_pair(name, new_link))`, then
`if (links_.size() == 1) root_link_ = new_link`. -/
def insertModelLink (m : urdf.ModelInterface) (name : String) (new_link : urdf.Link) :
    urdf.ModelInterface :=
  if (stdInsert m.links_ name new_link).length = 1 then
    { links_ := stdInsert m.links_ name new_link, joints_ := m.joints_,
      root_link_ := some new_link }
  else { m with links_ := stdInsert m.links_ name new_link }

/-- Function `addModelLink()`. -/
def addModelLink (t : URDFPropertyTree) : Option (urdf.Link × URDFPropertyTree) :=
  match getValidName "link_" t.link_names_ with
  | none => none
  | some name =>
    some (urdf.Link.mk name [] [],
      { t with model_ := insertModelLink t.model_ name (urdf.Link.mk name [] []) })

/-- Function `addLinkTreeItem(parent, link)`. -/
def addLinkTreeItem (parent : Nat) (link : urdf.Link) (t : URDFPropertyTree) :
    Option (Nat × URDFPropertyTree) :=
  match t.items[parent]? with
  | none => none
  | some _ =>
    let item := t.items.length
    let items1 := t.items ++ [{ newItem ItemType.Link link.name with link := some link }]
    let items2 := setExpanded (addChild items1 parent (some item)) parent true
    some (item, { t with items := items2, links_ := qmapInsert t.links_ link.name item,
                         link_names_ := t.link_names_ ++ [link.name] })

/-- Function `removeModelLink(link)`. -/
def removeModelLink (link : urdf.Link) (t : URDFPropertyTree) : Option URDFPropertyTree :=
  match stdErase t.model_.links_ link.name with
  | none => none
  | some ls => some { t with model_ := { t.model_ with links_ := ls } }

/-- The loop of `moveTreeChildren`:
`for (int i = 0; i < parent->childCount(); i++) new_parent->addChild(parent->takeChild(i));`. -/
def moveTreeChildrenLoop : Nat → Nat → Nat → Nat → List QTreeWidgetItem → List QTreeWidgetItem
  | 0, _, _, _, items => items
  | fuel + 1, i, parent, new_parent, items =>
    if i < childCount items parent then
      let r := takeChild items parent (some i)
      moveTreeChildrenLoop fuel (i + 1) parent new_parent (addChild r.2 new_parent r.1)
    else items

/-- Function `moveTreeChildren(parent, new_parent)`; the loop ends within `childCount` rounds
because `i` grows and the child count never does. -/
def moveTreeChildren (parent new_parent : Nat) (items : List QTreeWidgetItem) :
    List QTreeWidgetItem :=
  moveTreeChildrenLoop (childCount items parent) 0 parent new_parent items

/-- Function `removeLinkTreeItem(item)`. -/
def removeLinkTreeItem (item : Nat) (t : URDFPropertyTree) : Option URDFPropertyTree :=
  match asLinkTreeItem t (some item) with
  | some (some link) =>
    match t.items[link]? with
    | none => none
    | some li =>
      match li.link with
      | none => none
      | some data =>
        let links1 := qmapRemove t.links_ data.name
        let names1 := t.link_names_.erase data.name
        match li.par with
        | none => none
        | some parent =>
          let items1 := moveTreeChildren item parent t.items
          let items2 := removeChild items1 parent item
          some { t with items := items2, links_ := links1, link_names_ := names1 }
  | _ => none

/-- Function `addModelJoint(child_link_name)`. -/
def addModelJoint (child_link_name : String) (t : URDFPropertyTree) :
    Option (Nat × URDFPropertyTree) :=
  match getValidName "joint_" t.joint_names_ with
  | none => none
  | some name =>
    let new_joint := t.memory.length
    let memory1 := t.memory ++
      [{ name := name, parent_link_name := "", child_link_name := child_link_name }]
    some (new_joint,
      { t with memory := memory1,
               model_ := { t.model_ with joints_ := stdInsert t.model_.joints_ name new_joint } })

/-- Write `parent_link_name` of the joint object behind pointer `j`. -/
def writeParentLinkName (memory : List urdf.Joint) (j : Nat) (name : String) : List urdf.Joint :=
  memory.modify (fun o => { o with parent_link_name := name }) j

/-- Function `addJointTreeItem(parent, joint)`. -/
def addJointTreeItem (parent : Option Nat) (joint : Nat) (t : URDFPropertyTree) :
    Option (Nat × URDFPropertyTree) :=
  match isJointRoot t parent, parent with
  | some isRoot, some p =>
    let parentName : Option String :=
      if isRoot then (t.model_.getRoot).map (fun r => r.name)
      else
        match asJointTreeItem t parent with
        | some (some pj) =>
          match t.items[pj]? with
          | some pit =>
            match pit.joint with
            | some pd => (t.memory[pd]?).map (fun o => o.child_link_name)
            | none => none
          | none => none
        | _ => none
    match parentName, t.memory[joint]? with
    | some pn, some jd =>
      let memory1 := writeParentLinkName t.memory joint pn
      let item := t.items.length
      let items1 := t.items ++ [{ newItem ItemType.Joint jd.name with joint := some joint }]
      let items2 := setExpanded (addChild items1 p (some item)) p true
      some (item, { t with items := items2, memory := memory1,
                           joints_ := qmapInsert t.joints_ jd.name item,
                           joint_names_ := t.joint_names_ ++ [jd.name] })
    | _, _ => none
  | _, _ => none

/-- Function `removeModelJoint(joint)`. -/
def removeModelJoint (joint : Nat) (t : URDFPropertyTree) : Option URDFPropertyTree :=
  match t.memory[joint]? with
  | none => none
  | some jd =>
    match stdErase t.model_.joints_ jd.name with
    | none => none
    | some js => some { t with model_ := { t.model_ with joints_ := js } }

/-- Method `assignJoint` of a link item. -/
def assignJoint (items : List QTreeWidgetItem) (link : Nat) (joint : Nat) :
    List QTreeWidgetItem :=
  items.modify (fun it => { it with assigned_joint := some joint }) link

/-- Slot `on_jointParentLinkChanged(joint)`. -/
def on_jointParentLinkChanged (joint : Nat) (t : URDFPropertyTree) : Option URDFPropertyTree :=
  match t.items[joint]? with
  | none => none
  | some ji =>
    match ji.joint with
    | none => none
    | some jp =>
      match t.memory[jp]? with
      | none => none
      | some jd =>
        match t.links_.lookup jd.parent_link_name, t.links_.lookup jd.child_link_name with
        | some parent_link, some child_link =>
          match t.items[parent_link]? with
          | none => none
          | some pli =>
            let newParent : Nat :=
              match pli.assigned_joint with
              | some aj => aj
              | none => t.joint_root_
            match ji.par with
            | none => none
            | some jpar =>
              let r1 := takeChild t.items jpar (indexOfChild t.items jpar joint)
              let items1 := addChild r1.2 newParent r1.1
              match parentOf items1 child_link with
              | none => none
              | some cpar =>
                let r2 := takeChild items1 cpar (indexOfChild items1 cpar child_link)
                let items2 := addChild r2.2 parent_link r2.1
                some { t with items := items2 }
        | _, _ => none

/-- Modelled from the spec: `JointProperty::setParentLinkName` is not in the sources shown.
The spec has the reparent operation "triggered by drag/drop or direct edit of a joint's
parent-link field", and `addJointTreeItem` connects the item's `parentLinkChanged` signal to
`on_jointParentLinkChanged`: the setter writes the joint's `parent_link_name` and the slot runs
on the joint item. -/
def setParentLinkName (joint : Nat) (name : String) (t : URDFPropertyTree) :
    Option URDFPropertyTree :=
  match t.items[joint]? with
  | none => none
  | some ji =>
    match ji.joint with
    | none => none
    | some jp =>
      on_jointParentLinkChanged joint { t with memory := writeParentLinkName t.memory jp name }

/-- The loop of `removeJointTreeItem`:
`for (int i = 0; i < item->childCount(); i++)
   asJointTreeItem(item->child(i))->getPropertyData()->setParentLinkName(newParentName);`. -/
def reparentChildrenLoop : Nat → Nat → Nat → String → URDFPropertyTree → Option URDFPropertyTree
  | 0, _, _, _, _ => none
  | fuel + 1, i, item, newParentName, t =>
    if i < childCount t.items item then
      match asJointTreeItem t (child t.items item i) with
      | some (some c) =>
        match setParentLinkName c newParentName t with
        | none => none
        | some t1 => reparentChildrenLoop fuel (i + 1) item newParentName t1
      | _ => none
    else some t

/-- Function `removeJointTreeItem(item)`. -/
def removeJointTreeItem (item : Option Nat) (t : URDFPropertyTree) : Option URDFPropertyTree :=
  match asJointTreeItem t item with
  | some (some joint) =>
    match t.items[joint]? with
    | none => none
    | some ji =>
      match ji.joint with
      | none => none
      | some jp =>
        match t.memory[jp]? with
        | none => none
        | some jd =>
          let links1 := qmapRemove t.links_ jd.name
          let jnames1 := t.joint_names_.erase jd.name
          let newParentName : Option String :=
            if t.link_names_.contains jd.parent_link_name then some jd.parent_link_name
            else (t.model_.getRoot).map (fun r => r.name)
          match newParentName with
          | none => none
          | some npn =>
            let t1 := { t with links_ := links1, joint_names_ := jnames1 }
            match reparentChildrenLoop (childCount t1.items joint + 1) 0 joint npn t1 with
            | none => none
            | some t2 =>
              match ji.par with
              | none => none
              | some parent => some { t2 with items := removeChild t2.items parent joint }
  | _ => none

/-- Slot `on_itemPressed(item, column)`. -/
def on_itemPressed (item : Nat) (t : URDFPropertyTree) : URDFPropertyTree :=
  { t with drag_item_ := some item }

/-- Slot `on_addActionTriggered()`, with the selected item `sel`. -/
def on_addActionTriggered (sel : Nat) (t : URDFPropertyTree) : Option URDFPropertyTree :=
  match addModelLink t with
  | none => none
  | some (link, t1) =>
    match addLinkTreeItem sel link t1 with
    | none => none
    | some (new_link, t2) =>
      let t3 := emit t2 Signal.linkAddition
      let selParent := parentOf t3.items sel
      let first : Option Bool :=
        if t3.link_names_.length > 2 then (isLinkRoot t3 selParent).map (fun b => !b)
        else some false
      match first with
      | none => none
      | some true =>
        match asLinkTreeItem t3 (some sel) with
        | some (some sel_link) =>
          match t3.items[sel_link]? with
          | none => none
          | some si =>
            match addModelJoint link.name t3 with
            | none => none
            | some (joint, t4) =>
              match addJointTreeItem si.assigned_joint joint t4 with
              | none => none
              | some (new_joint, t5) =>
                some (emit { t5 with items := assignJoint t5.items new_link new_joint }
                  Signal.jointAddition)
        | _ => none
      | some false =>
        let second : Option Bool :=
          if t3.link_names_.length = 2 then some true else isLinkRoot t3 selParent
        match second with
        | none => none
        | some false => some t3
        | some true =>
          match addModelJoint link.name t3 with
          | none => none
          | some (joint, t4) =>
            match addJointTreeItem (some t4.joint_root_) joint t4 with
            | none => none
            | some (new_joint, t5) =>
              some (emit { t5 with items := assignJoint t5.items new_link new_joint }
                Signal.jointAddition)

/-- Slot `on_removeActionTriggered()`, with the selected item `sel`. -/
def on_removeActionTriggered (sel : Nat) (t : URDFPropertyTree) : Option URDFPropertyTree :=
  match asLinkTreeItem t (some sel) with
  | some (some s) =>
    match t.items[s]? with
    | none => none
    | some si =>
      match si.link with
      | none => none
      | some data =>
        match removeModelLink data t with
        | none => none
        | some t1 =>
          match removeLinkTreeItem s t1 with
          | none => none
          | some t2 =>
            let t3 := emit t2 Signal.linkDeletion
            match (t3.items[s]?).map (fun it => it.assigned_joint) with
            | none => none
            | some none => some t3
            | some (some aj) =>
              match t3.items[aj]? with
              | none => none
              | some aji =>
                match aji.joint with
                | none => none
                | some jp =>
                  match removeModelJoint jp t3 with
                  | none => none
                  | some t4 =>
                    match removeJointTreeItem (some aj) t4 with
                    | none => none
                    | some t5 => some (emit t5 Signal.jointDeletion)
  | _ => none

/-- Slot `on_contextMenuRequested(pos)`, with the selection (`none` when nothing is selected). -/
def on_contextMenuRequested (sel : Option Nat) (t : URDFPropertyTree) : Option URDFPropertyTree :=
  match sel with
  | none => some t
  | some s =>
    match isLinkRoot t (some s), isLink t (some s), isJointRoot t (some s), isJoint t (some s) with
    | some lr, some l, some jr, some j =>
      if (lr && t.link_names_.isEmpty) || l then
        some { t with add_enabled := true, remove_enabled := l, expand_enabled := true,
                      collapse_enabled := true }
      else if jr || j || (lr && !t.link_names_.isEmpty) then
        some { t with add_enabled := false, remove_enabled := false, expand_enabled := true,
                      collapse_enabled := true }
      else some t
    | _, _, _, _ => none

/-- Function `dropEvent(event)`, with the item under the drop position (`none` when the dropped
index is not valid) and the drop indicator position. -/
def dropEvent (item : Option Nat) (dp : DropIndicatorPosition) (t : URDFPropertyTree) :
    Option URDFPropertyTree :=
  match item with
  | none => some t
  | some it =>
    let drop_item : Option (Option Nat) :=
      match dp with
      | DropIndicatorPosition.OnItem => some (some it)
      | DropIndicatorPosition.BelowItem => some (some it)
      | DropIndicatorPosition.AboveItem => some (parentOf t.items it)
      | DropIndicatorPosition.OnViewport => none
    match drop_item with
    | none => none
    | some di =>
      let both : Option Bool :=
        match isLink t t.drag_item_ with
        | none => none
        | some false => some false
        | some true => isLink t di
      match both, di with
      | some false, some d => some { t with items := setExpanded t.items d true }
      | some true, some d =>
        match t.drag_item_, t.items[d]? with
        | some dr, some dit =>
          match (t.items[dr]?).map (fun x => x.assigned_joint) with
          | some (some aj) =>
            match setParentLinkName aj dit.text t with
            | none => none
            | some t1 => some { t1 with items := setExpanded t1.items d true }
          | _ => none
        | _, _ => none
      | _, _ => none

/-- The loop `for (joint_it = child_joints.begin(); ...) f(*joint_it)` over joint pointers. -/
def forJoints (f : Nat → URDFPropertyTree → Option URDFPropertyTree) :
    List Nat → URDFPropertyTree → Option URDFPropertyTree
  | [], t => some t
  | j :: js, t =>
    match f j t with
    | none => none
    | some t1 => forJoints f js t1

mutual
/-- Function `addItemRecursively(link, parent)`. -/
def addItemRecursivelyLink (link : urdf.Link) (parent : Nat) (t : URDFPropertyTree) :
    Option URDFPropertyTree :=
  match link with
  | urdf.Link.mk name cj cl =>
    match addLinkTreeItem parent (urdf.Link.mk name cj cl) t with
    | none => none
    | some r => addItemRecursivelyLinks cl r.1 r.2
/-- The loop over `child_links` in `addItemRecursively(link, parent)`. -/
def addItemRecursivelyLinks (links : List urdf.Link) (parent : Nat) (t : URDFPropertyTree) :
    Option URDFPropertyTree :=
  match links with
  | [] => some t
  | l :: ls =>
    match addItemRecursivelyLink l parent t with
    | none => none
    | some t1 => addItemRecursivelyLinks ls parent t1
end

/-- Function `addItemRecursively(joint, parent)`; the recursion follows the model's link map,
so it is bounded by `fuel`. -/
def addItemRecursivelyJoint : Nat → Nat → Option Nat → URDFPropertyTree → Option URDFPropertyTree
  | 0, _, _, _ => none
  | fuel + 1, joint, parent, t =>
    match t.memory[joint]? with
    | none => none
    | some jd =>
      match t.model_.getLink jd.child_link_name with
      | some child_link =>
        match addJointTreeItem parent joint t with
        | none => none
        | some (item, t1) =>
          match t1.links_.lookup jd.child_link_name with
          | none => none
          | some li =>
            forJoints (fun cj s => addItemRecursivelyJoint fuel cj (some item) s)
              child_link.child_joints { t1 with items := assignJoint t1.items li item }
      | none => some t

/-- Function `populateFromRobotModel()`. -/
def populateFromRobotModel (fuel : Nat) (t : URDFPropertyTree) :
    Option (Bool × URDFPropertyTree) :=
  let t1 := clear t
  match t1.model_.getRoot with
  | none => none
  | some root =>
    match t1.model_.getLink root.name with
    | none => none
    | some rlink =>
      match addItemRecursivelyLink rlink t1.link_root_ t1 with
      | none => none
      | some t2 =>
        match forJoints (fun j s => addItemRecursivelyJoint fuel j (some s.joint_root_) s)
            rlink.child_joints t2 with
        | none => none
        | some t3 => some (true, t3)

/-- Function `loadRobotModel(model)`. -/
def loadRobotModel (fuel : Nat) (model : Option urdf.ModelInterface) (t : URDFPropertyTree) :
    Option (Bool × URDFPropertyTree) :=
  match model with
  | none => some (false, t)
  | some m => populateFromRobotModel fuel { t with model_ := m }

/-! ## Reading the presentation tree back -/

/-- Items met when walking down from `id` along child lists, in preorder, to depth `fuel`. -/
def subtree (items : List QTreeWidgetItem) : Nat → Nat → List Nat
  | 0, _ => []
  | fuel + 1, id => id :: (childrenOf items id).flatMap (subtree items fuel)

/-- Items reachable from `root_`; a path without repetition has at most `items.length` items. -/
def reachable (t : URDFPropertyTree) : List Nat :=
  subtree t.items t.items.length t.root_

/-- Name of the link behind a link item. -/
def linkNameOf (t : URDFPropertyTree) (id : Nat) : Option String :=
  match t.items[id]? with
  | some it => if it.type = ItemType.Link then it.link.map (fun l => l.name) else none
  | none => none

/-- Name of the joint behind a joint item. -/
def jointNameOf (t : URDFPropertyTree) (id : Nat) : Option String :=
  match t.items[id]? with
  | some it =>
    if it.type = ItemType.Joint then
      match it.joint with
      | some j => (t.memory[j]?).map (fun o => o.name)
      | none => none
    else none
  | none => none

/-- Reachable link items. -/
def linkNodes (t : URDFPropertyTree) : List Nat :=
  (reachable t).filter (fun id => (linkNameOf t id).isSome)

/-- Reachable joint items. -/
def jointNodes (t : URDFPropertyTree) : List Nat :=
  (reachable t).filter (fun id => (jointNameOf t id).isSome)

/-- Names of the reachable link items. -/
def linkNodeNames (t : URDFPropertyTree) : List String :=
  (reachable t).filterMap (linkNameOf t)

/-- Names of the reachable joint items. -/
def jointNodeNames (t : URDFPropertyTree) : List String :=
  (reachable t).filterMap (jointNameOf t)

/-- Key set of the model's link map. -/
def modelLinkNames (t : URDFPropertyTree) : List String :=
  t.model_.links_.map (fun e => e.1)

/-- Key set of the model's joint map. -/
def modelJointNames (t : URDFPropertyTree) : List String :=
  t.model_.joints_.map (fun e => e.1)

/-- Run a sequence of slots, stopping at the first one that does not complete. -/
def runAll : List (URDFPropertyTree → Option URDFPropertyTree) → URDFPropertyTree →
    Option URDFPropertyTree
  | [], t => some t
  | f :: fs, t =>
    match f t with
    | none => none
    | some t1 => runAll fs t1

/-! ## Concrete states used below

Item pointers after the constructor: `0` is `root_`, `1` is `link_root_`, `2` is `joint_root_`;
every add pushes the link item and then (when a joint is created) the joint item. -/

/-- Three adds: on the link-group root, on `link_1` (item 3), on `link_2` (item 4).
The chain `link_1 -> link_2 -> link_3` with `joint_1 -> joint_2`. -/
def chainState : Option URDFPropertyTree :=
  runAll [on_addActionTriggered 1, on_addActionTriggered 3, on_addActionTriggered 4] new

/-- Four adds: the chain of `chainState` and a second child `link_4` (item 8, joint item 9)
under `link_2` (item 4). -/
def fanState : Option URDFPropertyTree :=
  runAll [on_addActionTriggered 1, on_addActionTriggered 3, on_addActionTriggered 4,
    on_addActionTriggered 4] new

end URDFPropertyTree

open URDFPropertyTree

/-- Value of a digit string read in base ten. -/
def decodeDigits (cs : List Char) : Nat :=
  cs.foldl (fun a c => 10 * a + (c.toNat - 48)) 0

/-- Names are unique in both pools: the keys of the model maps, the names of the objects they
hold and the recorded name lists agree, and the name lists have no duplicates. -/
def NamesInv (t : URDFPropertyTree) : Prop :=
  modelLinkNames t = t.link_names_ ∧
  t.model_.links_.map (fun e => e.2.name) = t.link_names_ ∧
  modelJointNames t = t.joint_names_ ∧
  t.model_.joints_.map (fun e => (t.memory[e.2]?).map (fun o => o.name)) =
    t.joint_names_.map some ∧
  t.link_names_.Nodup ∧ t.joint_names_.Nodup

/-- The state of `chainState`, as a state. -/
def chainFinal : URDFPropertyTree := chainState.getD new

/-- The state of `fanState`, as a state. -/
def fanFinal : URDFPropertyTree := fanState.getD new

/-- The Add action is offered for the selection: the condition of `on_contextMenuRequested`,
`isLinkRoot(sel) && link_names_.isEmpty() || isLink(sel)`. -/
def addOffered (t : URDFPropertyTree) (sel : Nat) : Bool :=
  match t.items[sel]? with
  | some it =>
    (decide (it.type = ItemType.LinkRoot) && t.link_names_.isEmpty) ||
      decide (it.type = ItemType.Link)
  | none => false

/-- States reached from the constructor state by completed adds on selections for which the
Add action is offered. -/
inductive AddReachable : URDFPropertyTree → Prop where
  | init : AddReachable new
  | step (t t1 : URDFPropertyTree) (sel : Nat) :
      AddReachable t → addOffered t sel = true → on_addActionTriggered sel t = some t1 →
      AddReachable t1

/-- What holds of a link item in a state built by adds: it carries a link whose name is
recorded, and either it sits under the link-group root and is the model's root link, or there
are at least two links and its assigned joint is a joint item whose joint has it as child. -/
def LinkItemOK (t : URDFPropertyTree) (it : QTreeWidgetItem) : Prop :=
  ∃ data p pit, it.link = some data ∧ data.name ∈ t.link_names_ ∧ it.par = some p ∧
    t.items[p]? = some pit ∧
    ((pit.type = ItemType.LinkRoot ∧
        (t.model_.getRoot).map (fun r => r.name) = some data.name) ∨
     (pit.type ≠ ItemType.LinkRoot ∧ 2 ≤ t.link_names_.length ∧
        ∃ aj ajit jp jd, it.assigned_joint = some aj ∧ t.items[aj]? = some ajit ∧
          ajit.type = ItemType.Joint ∧ ajit.joint = some jp ∧ t.memory[jp]? = some jd ∧
          jd.child_link_name = data.name))

/-- Invariant of the states built by adds. -/
def AddInv (t : URDFPropertyTree) : Prop :=
  NamesInv t ∧
  (∃ r lr jr, t.items[t.root_]? = some r ∧ r.type = ItemType.Plain ∧
    t.items[t.link_root_]? = some lr ∧ lr.type = ItemType.LinkRoot ∧ lr.par = some t.root_ ∧
    t.items[t.joint_root_]? = some jr ∧ jr.type = ItemType.JointRoot) ∧
  (∀ (i : Nat) (it : QTreeWidgetItem), t.items[i]? = some it → it.type = ItemType.LinkRoot →
    i = t.link_root_) ∧
  (∀ (i : Nat) (it : QTreeWidgetItem), t.items[i]? = some it → it.type = ItemType.Link →
    LinkItemOK t it)

/-- The outcome of an add on the link item `S` (whose link is named `sname`): one new link named
by `getValidName`, one new joint from `S`'s link to it, the new link item (pointer
`t.items.length`) appended to the children of `S` with the new joint item (the next pointer)
assigned, and the new joint item appended to the children of `jointParent`. -/
def AddedLinkAndJoint (t t1 : URDFPropertyTree) (S : Nat) (sname : String)
    (jointParent : Nat) : Prop :=
  ∃ lname jname,
    getValidName "link_" t.link_names_ = some lname ∧
    getValidName "joint_" t.joint_names_ = some jname ∧
    t1.model_.links_ = t.model_.links_ ++ [(lname, urdf.Link.mk lname [] [])] ∧
    t1.model_.root_link_ = t.model_.root_link_ ∧
    t1.model_.joints_ = t.model_.joints_ ++ [(jname, t.memory.length)] ∧
    t1.memory.length = t.memory.length + 1 ∧
    t1.memory[t.memory.length]? =
      some { name := jname, parent_link_name := sname, child_link_name := lname } ∧
    t1.items.length = t.items.length + 2 ∧
    (∃ L, t1.items[t.items.length]? = some L ∧ L.type = ItemType.Link ∧
      L.link = some (urdf.Link.mk lname [] []) ∧ L.par = some S ∧ L.children = [] ∧
      L.assigned_joint = some (t.items.length + 1)) ∧
    childrenOf t1.items S = childrenOf t.items S ++ [t.items.length] ∧
    (∃ J, t1.items[t.items.length + 1]? = some J ∧ J.type = ItemType.Joint ∧
      J.joint = some t.memory.length ∧ J.par = some jointParent ∧ J.children = []) ∧
    childrenOf t1.items jointParent =
      childrenOf t.items jointParent ++ [t.items.length + 1]

/-- The outcome of the add on the empty link-group root: one link, which is the model's root
link, under the link-group root, and no joint. -/
def AddedFirstLink (t t1 : URDFPropertyTree) : Prop :=
  t1.model_.links_ = [("link_1", urdf.Link.mk "link_1" [] [])] ∧
  t1.model_.root_link_ = some (urdf.Link.mk "link_1" [] []) ∧
  t1.model_.joints_ = t.model_.joints_ ∧ t1.memory = t.memory ∧
  t1.items.length = t.items.length + 1 ∧
  (∃ L, t1.items[t.items.length]? = some L ∧ L.type = ItemType.Link ∧
    L.link = some (urdf.Link.mk "link_1" [] []) ∧ L.par = some t.link_root_ ∧
    L.assigned_joint = none) ∧
  childrenOf t1.items t.link_root_ = childrenOf t.items t.link_root_ ++ [t.items.length]

/-- The item statements shared by `addLinkTreeItem` and `addJointTreeItem`: the new item gets
the next pointer, `parent->addChild(item)`, `parent->setExpanded(true)`. -/
def pushChild (items : List QTreeWidgetItem) (nw : QTreeWidgetItem) (p : Nat) :
    List QTreeWidgetItem :=
  setExpanded (addChild (items ++ [nw]) p (some items.length)) p true

/-- The fields of an item that no tree operation on another item changes. -/
def core (it : QTreeWidgetItem) :
    ItemType × String × Option Nat × Option urdf.Link × Option Nat × Option Nat :=
  (it.type, it.text, it.par, it.link, it.assigned_joint, it.joint)

/-- The state after the link steps of an add on item `S`, when the model already has a link. -/
def afterLinkSteps (t : URDFPropertyTree) (S : Nat) (n : String) : URDFPropertyTree :=
  { t with
    model_ := { t.model_ with links_ := t.model_.links_ ++ [(n, urdf.Link.mk n [] [])] },
    items := pushChild t.items
      { newItem ItemType.Link n with link := some (urdf.Link.mk n [] []) } S,
    links_ := qmapInsert t.links_ n t.items.length,
    link_names_ := t.link_names_ ++ [n],
    emitted := t.emitted ++ [Signal.linkAddition] }

/-- The state after the joint steps of an add, under the joint parent item `par`. -/
def afterJointSteps (t3 : URDFPropertyTree) (new_link par : Nat) (m pn lname : String) :
    URDFPropertyTree :=
  { t3 with
    items := assignJoint (pushChild t3.items
      { newItem ItemType.Joint m with joint := some t3.memory.length } par)
      new_link t3.items.length,
    memory := t3.memory ++ [{ name := m, parent_link_name := pn, child_link_name := lname }],
    model_ := { t3.model_ with joints_ := stdInsert t3.model_.joints_ m t3.memory.length },
    joints_ := qmapInsert t3.joints_ m t3.items.length,
    joint_names_ := t3.joint_names_ ++ [m],
    emitted := t3.emitted ++ [Signal.jointAddition] }

/-- The state after an add on the link-group root of a tree without links. -/
def afterFirstLink (t : URDFPropertyTree) (n : String) : URDFPropertyTree :=
  { t with
    model_ := { links_ := [(n, urdf.Link.mk n [] [])], joints_ := t.model_.joints_,
                root_link_ := some (urdf.Link.mk n [] []) },
    items := pushChild t.items
      { newItem ItemType.Link n with link := some (urdf.Link.mk n [] []) } t.link_root_,
    links_ := qmapInsert t.links_ n t.items.length,
    link_names_ := [n],
    emitted := t.emitted ++ [Signal.linkAddition] }

/-- The state after the first add, on the link-group root. -/
def oneLink : URDFPropertyTree := (on_addActionTriggered 1 new).getD new

/-- The state after the second add, on `link_1` (item 3). -/
def twoLinks : URDFPropertyTree := (on_addActionTriggered 3 oneLink).getD new

mutual
/-- Number of links in a link's hierarchy. -/
def linkSize : urdf.Link → Nat
  | urdf.Link.mk _ _ cl => 1 + linkSizes cl
/-- Number of links in the hierarchies of a list of links. -/
def linkSizes : List urdf.Link → Nat
  | [] => 0
  | c :: cs => linkSize c + linkSizes cs
end

mutual
/-- Names of the links of a hierarchy, parent first, children in order. -/
def linkNames : urdf.Link → List String
  | urdf.Link.mk n _ cl => n :: linkNamesList cl
/-- Names of the links of a list of hierarchies. -/
def linkNamesList : List urdf.Link → List String
  | [] => []
  | c :: cs => linkNames c ++ linkNamesList cs
end

mutual
/-- Joint pointers below a link: each child joint followed by the joints below its child
link. -/
def jointsBelow : urdf.Link → List Nat
  | urdf.Link.mk _ cj cl => jointsBelowList cj cl
/-- Joint pointers of the child joints `cj` paired in order with the child links `cl`. -/
def jointsBelowList : List Nat → List urdf.Link → List Nat
  | j :: js, c :: cs => j :: (jointsBelow c ++ jointsBelowList js cs)
  | _, _ => []
end

mutual
/-- One link of a model whose links and joints form a tree: the model's link map resolves its
name to it, and its child joints pair in order with its child links, each joint naming this
link as parent and the paired link as child and being the model's entry for its own name. -/
def ValidLink (mem : List urdf.Joint) (M : urdf.ModelInterface) : urdf.Link → Prop
  | urdf.Link.mk n cj cl =>
    M.getLink n = some (urdf.Link.mk n cj cl) ∧ ValidChildren mem M n cj cl
/-- The child joints and child links of a valid link named `pname`. -/
def ValidChildren (mem : List urdf.Joint) (M : urdf.ModelInterface) (pname : String) :
    List Nat → List urdf.Link → Prop
  | [], [] => True
  | j :: js, c :: cs =>
    (∃ jd, mem[j]? = some jd ∧ jd.parent_link_name = pname ∧ jd.child_link_name = c.name ∧
      M.joints_.lookup jd.name = some j) ∧
    ValidLink mem M c ∧ ValidChildren mem M pname js cs
  | _, _ => False
end

/-- Names of the joint objects behind a list of pointers. -/
def jointNamesOf (mem : List urdf.Joint) (js : List Nat) : List String :=
  js.filterMap (fun j => (mem[j]?).map (fun o => o.name))

/-- A model whose links and joints form a valid tree: a root link with a valid hierarchy that
holds every link of the link map once, and whose joints are the joints of the joint map, each
once. -/
def ValidModel (mem : List urdf.Joint) (M : urdf.ModelInterface) : Prop :=
  ∃ root, M.root_link_ = some root ∧ ValidLink mem M root ∧
    (linkNames root).Nodup ∧ (linkNames root).Perm (M.links_.map (fun e => e.1)) ∧
    (jointNamesOf mem (jointsBelow root)).Nodup ∧
    (jointNamesOf mem (jointsBelow root)).Perm (M.joints_.map (fun e => e.1))

/-- The three fixed items are in place: `root_` has the two group items as its children, they
are three different items, and they have their types. -/
def Shell (t : URDFPropertyTree) : Prop :=
  t.root_ ≠ t.link_root_ ∧ t.root_ ≠ t.joint_root_ ∧ t.link_root_ ≠ t.joint_root_ ∧
  childrenOf t.items t.root_ = [t.link_root_, t.joint_root_] ∧
  (t.items[t.root_]?).map (fun it => it.type) = some ItemType.Plain ∧
  (t.items[t.link_root_]?).map (fun it => it.type) = some ItemType.LinkRoot ∧
  (t.items[t.joint_root_]?).map (fun it => it.type) = some ItemType.JointRoot

/-- A model of three links and two joints: `base` with the children `arm` (joint `shoulder`)
and `leg` (joint `hip`). -/
def sampleModel : urdf.ModelInterface :=
  { links_ := [("arm", urdf.Link.mk "arm" [] []),
               ("base", urdf.Link.mk "base" [0, 1]
                  [urdf.Link.mk "arm" [] [], urdf.Link.mk "leg" [] []]),
               ("leg", urdf.Link.mk "leg" [] [])],
    joints_ := [("hip", 1), ("shoulder", 0)],
    root_link_ := some (urdf.Link.mk "base" [0, 1]
      [urdf.Link.mk "arm" [] [], urdf.Link.mk "leg" [] []]) }

/-- The joint objects of `sampleModel`. -/
def sampleMemory : List urdf.Joint :=
  [{ name := "shoulder", parent_link_name := "base", child_link_name := "arm" },
   { name := "hip", parent_link_name := "base", child_link_name := "leg" }]

/-- A freshly constructed widget with the joint objects of `sampleModel` in the store. -/
def sampleStart : URDFPropertyTree := { new with memory := sampleMemory }

/-- The fields of an item that decide whether it is a link or joint item and of which link or
joint. -/
def tag (it : QTreeWidgetItem) : ItemType × Option urdf.Link × Option Nat :=
  (it.type, it.link, it.joint)

/-- The arena has grown by `size` items; of the old items only `p` has other children, and all
old items keep their tags. -/
def Grown (t t1 : URDFPropertyTree) (p size : Nat) : Prop :=
  t1.items.length = t.items.length + size ∧
  (∀ i, i < t.items.length → i ≠ p → childrenOf t1.items i = childrenOf t.items i) ∧
  (∀ i, i < t.items.length → (t1.items[i]?).map tag = (t.items[i]?).map tag)

/-- The fields a population step leaves alone. -/
def SameRest (t t1 : URDFPropertyTree) : Prop :=
  t1.model_ = t.model_ ∧ t1.root_ = t.root_ ∧ t1.link_root_ = t.link_root_ ∧
  t1.joint_root_ = t.joint_root_

/-- Outcome of `addItemRecursively(link, p)`: a block of `linkSize link` new link items, met
in pointer order when walking down from the first, which is the new last child of `p`; their
names are the names of the hierarchy and are recorded in `link_names_` and `links_`. -/
def LinkPost (t t1 : URDFPropertyTree) (p : Nat) (l : urdf.Link) : Prop :=
  Grown t t1 p (linkSize l) ∧ SameRest t t1 ∧
  t1.memory = t.memory ∧ t1.joint_names_ = t.joint_names_ ∧
  childrenOf t1.items p = childrenOf t.items p ++ [t.items.length] ∧
  (∀ f, linkSize l ≤ f →
    subtree t1.items f t.items.length = List.range' t.items.length (linkSize l)) ∧
  (List.range' t.items.length (linkSize l)).map (linkNameOf t1) = (linkNames l).map some ∧
  t1.link_names_ = t.link_names_ ++ linkNames l ∧
  (∀ name, (name ∈ linkNames l ∨ (t.links_.lookup name).isSome = true) →
    (t1.links_.lookup name).isSome = true)

/-- Outcome of the loop over `child_links` under the item `p`. -/
def LinksPost (t t1 : URDFPropertyTree) (p : Nat) (cl : List urdf.Link) : Prop :=
  Grown t t1 p (linkSizes cl) ∧ SameRest t t1 ∧
  t1.memory = t.memory ∧ t1.joint_names_ = t.joint_names_ ∧
  (∃ starts, childrenOf t1.items p = childrenOf t.items p ++ starts ∧
    ∀ f, linkSizes cl ≤ f →
      starts.flatMap (subtree t1.items f) = List.range' t.items.length (linkSizes cl)) ∧
  (List.range' t.items.length (linkSizes cl)).map (linkNameOf t1) =
    (linkNamesList cl).map some ∧
  t1.link_names_ = t.link_names_ ++ linkNamesList cl ∧
  (∀ name, (name ∈ linkNamesList cl ∨ (t.links_.lookup name).isSome = true) →
    (t1.links_.lookup name).isSome = true)

/-- The item `par` is a parent under which `addJointTreeItem` writes the parent link name
`pname`: the joint-group root when the model's root link has that name, or a joint item whose
joint has a child link of that name. -/
def ParentOK (t : URDFPropertyTree) (par : Nat) (pname : String) : Prop :=
  ∃ pari, t.items[par]? = some pari ∧
    ((pari.type = ItemType.JointRoot ∧
        ∃ rootl, t.model_.getRoot = some rootl ∧ rootl.name = pname) ∨
     (pari.type = ItemType.Joint ∧
        ∃ pj pjd, pari.joint = some pj ∧ t.memory[pj]? = some pjd ∧
          pjd.child_link_name = pname))

/-- Outcome of `addItemRecursively(joint, par)` for the joints `js` (the joint and what is
below its child link): a block of new joint items, met in pointer order when walking down from
the first, which is the new last child of `par`; their names are recorded in `joint_names_`,
and no joint object is changed. -/
def JointPost (t t1 : URDFPropertyTree) (par : Nat) (js : List Nat) : Prop :=
  Grown t t1 par js.length ∧ SameRest t t1 ∧
  t1.memory = t.memory ∧ t1.link_names_ = t.link_names_ ∧ t1.links_ = t.links_ ∧
  childrenOf t1.items par = childrenOf t.items par ++ [t.items.length] ∧
  (∀ f, js.length ≤ f →
    subtree t1.items f t.items.length = List.range' t.items.length js.length) ∧
  (List.range' t.items.length js.length).map (jointNameOf t1) =
    js.map (fun j => (t.memory[j]?).map (fun o => o.name)) ∧
  t1.joint_names_ = t.joint_names_ ++ jointNamesOf t.memory js ∧
  (∀ i, t.items.length ≤ i → i < t.items.length + js.length → linkNameOf t1 i = none)

/-- Outcome of the loop over `child_joints` under the item `par`. -/
def JointsPost (t t1 : URDFPropertyTree) (par : Nat) (js : List Nat) : Prop :=
  Grown t t1 par js.length ∧ SameRest t t1 ∧
  t1.memory = t.memory ∧ t1.link_names_ = t.link_names_ ∧ t1.links_ = t.links_ ∧
  (∃ starts, childrenOf t1.items par = childrenOf t.items par ++ starts ∧
    ∀ f, js.length ≤ f →
      starts.flatMap (subtree t1.items f) = List.range' t.items.length js.length) ∧
  (List.range' t.items.length js.length).map (jointNameOf t1) =
    js.map (fun j => (t.memory[j]?).map (fun o => o.name)) ∧
  t1.joint_names_ = t.joint_names_ ++ jointNamesOf t.memory js ∧
  (∀ i, t.items.length ≤ i → i < t.items.length + js.length → linkNameOf t1 i = none)


/-- The `k`-th item up from `x` along parent pointers (`x` itself for `k = 0`). -/
def climb (items : List QTreeWidgetItem) : Nat → Nat → Option Nat
  | 0, x => some x
  | k + 1, x =>
    match parentOf items x with
    | some p => climb items k p
    | none => none

/-- Child lists and parent pointers agree: no item is twice in a child list, every child
points back at its parent, and every item with a parent is in that parent's child list (what
`addChild` and `takeChild` maintain). -/
def WF (items : List QTreeWidgetItem) : Prop :=
  (∀ p, p < items.length → (childrenOf items p).Nodup) ∧
  (∀ p, p < items.length → ∀ c ∈ childrenOf items p, parentOf items c = some p) ∧
  (∀ c, c < items.length → ∀ p ∈ (parentOf items c).toList, c ∈ childrenOf items p)

/-- Nothing climbs back to itself from `r`. -/
def NoCycleAt (items : List QTreeWidgetItem) (r : Nat) : Prop :=
  ∀ k, climb items (k + 1) r ≠ some r

/-- Item `c` taken out of its parent `q` and added under `n`: the two calls
`q->takeChild(q->indexOfChild(c))` and `n->addChild(take)` of `on_jointParentLinkChanged`. -/
def moveItem (items : List QTreeWidgetItem) (c q n : Nat) : List QTreeWidgetItem :=
  addChild (takeChild items q (indexOfChild items q c)).2 n
    (takeChild items q (indexOfChild items q c)).1

/-- The three items `on_jointParentLinkChanged(joint)` works with, from its first lines: the
item of the joint's parent link, the item of its child link, and `newParent` (the parent
link's assigned joint, or `joint_root_`). -/
def reparentTarget (joint : Nat) (t : URDFPropertyTree) : Option (Nat × Nat × Nat) :=
  match t.items[joint]? with
  | none => none
  | some ji =>
    match ji.joint with
    | none => none
    | some jp =>
      match t.memory[jp]? with
      | none => none
      | some jd =>
        match t.links_.lookup jd.parent_link_name, t.links_.lookup jd.child_link_name with
        | some parent_link, some child_link =>
          match t.items[parent_link]? with
          | none => none
          | some pli =>
            some (parent_link, child_link,
              match pli.assigned_joint with
              | some aj => aj
              | none => t.joint_root_)
        | _, _ => none

/-- The state of `chainState` after the parent-link field of `joint_1` (item 5, joint 0, whose
child link is `link_2`) is set to `link_2`, before the slot runs. -/
def chainSelfParent : URDFPropertyTree :=
  { chainFinal with memory := writeParentLinkName chainFinal.memory 0 "link_2" }

/-- The state of `chainState` after the parent-link field of `joint_1` (item 5, joint 0) is set
to `link_3`, the link below its child link, before the slot runs. -/
def chainBelowParent : URDFPropertyTree :=
  { chainFinal with memory := writeParentLinkName chainFinal.memory 0 "link_3" }

/-- The state of `fanState` after the parent-link field of `joint_3` (item 9, joint 2, from
`link_2` to `link_4`) is set to `link_3`, before the slot runs. -/
def fanRewired : URDFPropertyTree :=
  { fanFinal with memory := writeParentLinkName fanFinal.memory 2 "link_3" }

/-- Method `getAssignedJoint()` of the link item behind `x`; nothing for an item that is not
a link item. -/
def assignedJointOf (t : URDFPropertyTree) (x : Nat) : Option Nat :=
  (t.items[x]?).bind (fun it => if it.type = ItemType.Link then it.assigned_joint else none)

/-- Pointer to the joint object of the joint item behind `x`; nothing for an item that is not a
joint item. -/
def jointPointerOf (t : URDFPropertyTree) (x : Nat) : Option Nat :=
  (t.items[x]?).bind (fun it => if it.type = ItemType.Joint then it.joint else none)

/-- The tree side of what the states of an editing session have in common: child lists and
parent pointers agree, the root has no parent, the joint-group root, the assigned joints of
reachable link items and the items of the link map (which are link items) are reachable, the
joint items point at joint objects, and the names of the reachable link and joint items are the
recorded names, up to order. -/
def TreeCore (t : URDFPropertyTree) : Prop :=
  WF t.items ∧ parentOf t.items t.root_ = none ∧ t.root_ < t.items.length ∧
  t.joint_root_ ∈ reachable t ∧
  (∀ x ∈ reachable t, ∀ aj ∈ (assignedJointOf t x).toList, aj ∈ reachable t) ∧
  (∀ x ∈ reachable t, ∀ jx ∈ (jointPointerOf t x).toList, jx < t.memory.length) ∧
  (∀ e ∈ t.links_, e.2 ∈ reachable t ∧
    (t.items[e.2]?).map (fun it => it.type) = some ItemType.Link) ∧
  (linkNodeNames t).Perm t.link_names_ ∧ (jointNodeNames t).Perm t.joint_names_

/-- The tree of `s` was rebuilt from a valid model: `loadRobotModel` returned true with `s` on
a widget whose three fixed items are in place, whose child lists and parent pointers agree and
whose root item has no parent, for a model whose links and joints form a valid tree. -/
def LoadedFromValidModel (s : URDFPropertyTree) : Prop :=
  ∃ (s0 : URDFPropertyTree) (M : urdf.ModelInterface) (fuel : Nat),
    Shell s0 ∧ WF s0.items ∧ parentOf s0.items s0.root_ = none ∧
    ValidModel s0.memory M ∧ M.links_.length ≤ fuel ∧
    loadRobotModel fuel (some M) s0 = some (true, s)

/-- The arena of `t1` is the arena of `t` with one new leaf, the last child of `p`; the old
items keep their tags. -/
def Pushed (t t1 : URDFPropertyTree) (p : Nat) : Prop :=
  t1.root_ = t.root_ ∧ t1.items.length = t.items.length + 1 ∧
  (∀ x, childrenOf t1.items x =
    if x = p then childrenOf t.items p ++ [t.items.length] else childrenOf t.items x) ∧
  (∀ x, parentOf t1.items x =
    if x = t.items.length then some p else parentOf t.items x) ∧
  (∀ x, x < t.items.length → (t1.items[x]?).map tag = (t.items[x]?).map tag)

/-- The state after the third add, on `link_2` (item 4). -/
def threeLinks : URDFPropertyTree := (on_addActionTriggered 4 twoLinks).getD new

/-- States reached from `s` by completed removes and by completed adds that leave more than one
link in the model's link map. -/
inductive LinkEdits (s : URDFPropertyTree) : URDFPropertyTree → Prop where
  | start : LinkEdits s s
  | add (t t1 : URDFPropertyTree) (sel : Nat) :
      LinkEdits s t → on_addActionTriggered sel t = some t1 →
      t1.model_.links_.length ≠ 1 → LinkEdits s t1
  | remove (t t1 : URDFPropertyTree) (sel : Nat) :
      LinkEdits s t → on_removeActionTriggered sel t = some t1 → LinkEdits s t1

/-- A model with the single link `base`, its root link, and no joint. -/
def singleModel : urdf.ModelInterface :=
  { links_ := [("base", urdf.Link.mk "base" [] [])], joints_ := [],
    root_link_ := some (urdf.Link.mk "base" [] []) }

/-- The state after three adds and the remove of `link_2` (item 4). -/
def chainCut : URDFPropertyTree := (on_removeActionTriggered 4 threeLinks).getD new

/-- The joint objects of `looseModel`: `ghost` names a child link `phantom` that the model does
not have. -/
def looseMemory : List urdf.Joint :=
  [{ name := "ghost", parent_link_name := "base", child_link_name := "phantom" },
   { name := "hip", parent_link_name := "base", child_link_name := "leg" }]

/-- A model of two links, `base` with the child `leg`, and two joints of `base`: `ghost`, whose
child link does not resolve, and `hip`. -/
def looseModel : urdf.ModelInterface :=
  { links_ := [("base", urdf.Link.mk "base" [0, 1] [urdf.Link.mk "leg" [] []]),
               ("leg", urdf.Link.mk "leg" [] [])],
    joints_ := [("ghost", 0), ("hip", 1)],
    root_link_ := some (urdf.Link.mk "base" [0, 1] [urdf.Link.mk "leg" [] []]) }

/-- A freshly constructed widget holding `looseModel` and its joint objects. -/
def looseStart : URDFPropertyTree := { new with memory := looseMemory, model_ := looseModel }

/-- The widget of `sampleStart` holding `sampleModel` as its model, before population. -/
def sampleHolding : URDFPropertyTree := { sampleStart with model_ := sampleModel }

/-- A model of two links, `base` with the child `arm`, whose joint is also named `arm`. -/
def clashModel : urdf.ModelInterface :=
  { links_ := [("arm", urdf.Link.mk "arm" [] []),
               ("base", urdf.Link.mk "base" [0] [urdf.Link.mk "arm" [] []])],
    joints_ := [("arm", 0)],
    root_link_ := some (urdf.Link.mk "base" [0] [urdf.Link.mk "arm" [] []]) }

/-- The tree rebuilt from `clashModel` in a freshly constructed widget: items 3 (`base`),
4 (link `arm`) and 5 (joint `arm`). -/
def clashLoaded : URDFPropertyTree :=
  ((loadRobotModel 2 (some clashModel)
    { new with memory :=
        [{ name := "arm", parent_link_name := "base", child_link_name := "arm" }] }).map
    (fun r => r.2)).getD new

/-! ## Theorems -/

set_option maxRecDepth 100000

theorem digitChar_value (n : Nat) (h : n < 10) : (Nat.digitChar n).toNat - 48 = n := by
  interval_cases n <;> rfl

theorem decodeDigits_decimalDigits (fuel : Nat) :
    ∀ n, n < fuel → decodeDigits (decimalDigits fuel n) = n := by
  induction fuel with
  | zero => intro n h; omega
  | succ f ih =>
    intro n h
    unfold decimalDigits
    by_cases h10 : n < 10
    · simp [h10, decodeDigits, digitChar_value n h10]
    · have hlt : n / 10 < f := by omega
      have hrec := ih (n / 10) hlt
      have hm : n % 10 < 10 := Nat.mod_lt _ (by decide)
      simp only [h10, if_false, decodeDigits, List.foldl_append, List.foldl_cons, List.foldl_nil]
      unfold decodeDigits at hrec
      rw [hrec, digitChar_value _ hm]
      omega

theorem number_injective : Function.Injective number := by
  intro a b h
  have h1 : decimalDigits (a + 1) a = decimalDigits (b + 1) b := by
    unfold number at h
    exact congrArg String.data h
  have ha := decodeDigits_decimalDigits (a + 1) a (by omega)
  have hb := decodeDigits_decimalDigits (b + 1) b (by omega)
  rw [h1, hb] at ha
  exact ha.symm

theorem append_number_injective (pfx : String) :
    Function.Injective (fun i => pfx ++ number i) := by
  intro a b h
  have h1 : (pfx ++ number a).data = (pfx ++ number b).data := congrArg String.data h
  simp only [String.data_append] at h1
  have h2 := List.append_cancel_left h1
  exact number_injective (String.ext h2)

theorem exists_free_name (pfx : String) (names : List String) :
    ∃ j, 0 < j ∧ j ≤ names.length + 1 ∧ pfx ++ number j ∉ names := by
  by_contra hcon
  push_neg at hcon
  have hnd : ((List.range' 1 (names.length + 1)).map (fun i => pfx ++ number i)).Nodup :=
    (List.nodup_range' 1 (names.length + 1)).map (append_number_injective pfx)
  have hsub : (List.range' 1 (names.length + 1)).map (fun i => pfx ++ number i) ⊆ names := by
    intro x hx
    rcases List.mem_map.1 hx with ⟨i, hi, rfl⟩
    rw [List.mem_range'_1] at hi
    exact hcon i (by omega) (by omega)
  have hlen := (List.subperm_of_subset hnd hsub).length_le
  simp at hlen

theorem getValidNameLoop_spec (pfx : String) (names : List String) (fuel : Nat) :
    ∀ i r, getValidNameLoop pfx names fuel i = some r →
      ∃ j, i < j ∧ r = pfx ++ number j ∧ r ∉ names ∧
        ∀ k, i < k → k < j → pfx ++ number k ∈ names := by
  induction fuel with
  | zero => intro i r h; simp [getValidNameLoop] at h
  | succ f ih =>
    intro i r h
    unfold getValidNameLoop at h
    by_cases hc : names.contains (pfx ++ number (i + 1)) = true
    · rw [if_pos hc] at h
      rcases ih (i + 1) r h with ⟨j, hj, hr, hnot, hmin⟩
      refine ⟨j, by omega, hr, hnot, ?_⟩
      intro k hk1 hk2
      by_cases hk : k = i + 1
      · subst hk; simpa using hc
      · exact hmin k (by omega) hk2
    · rw [if_neg hc] at h
      injection h with h
      subst h
      refine ⟨i + 1, by omega, rfl, by simpa using hc, ?_⟩
      intro k hk1 hk2
      omega

theorem getValidNameLoop_isSome (pfx : String) (names : List String) (fuel : Nat) :
    ∀ i j, i < j → j ≤ i + fuel → pfx ++ number j ∉ names →
      (getValidNameLoop pfx names fuel i).isSome := by
  induction fuel with
  | zero => intro i j h1 h2; omega
  | succ f ih =>
    intro i j h1 h2 hj
    unfold getValidNameLoop
    by_cases hc : names.contains (pfx ++ number (i + 1)) = true
    · rw [if_pos hc]
      have hne : j ≠ i + 1 := by
        rintro rfl
        exact hj (by simpa using hc)
      exact ih (i + 1) j (by omega) (by omega) hj
    · rw [if_neg hc]; rfl

theorem getValidName_spec (pfx : String) (names : List String) :
    ∃ i, 0 < i ∧ getValidName pfx names = some (pfx ++ number i) ∧
      pfx ++ number i ∉ names ∧ ∀ k, 0 < k → k < i → pfx ++ number k ∈ names := by
  rcases exists_free_name pfx names with ⟨j, hj0, hj1, hj2⟩
  have hsome := getValidNameLoop_isSome pfx names (names.length + 1) 0 j hj0 (by omega) hj2
  rcases Option.isSome_iff_exists.1 hsome with ⟨r, hr⟩
  rcases getValidNameLoop_spec pfx names _ 0 r hr with ⟨i, hi, hri, hnot, hmin⟩
  refine ⟨i, hi, ?_, by rw [← hri]; exact hnot, hmin⟩
  unfold getValidName
  rw [hr, hri]

/-- C1: `getValidName(prefix, names)` returns `prefix` followed by the decimal form of the
smallest positive `i` for which that name is not in `names`; the result is not in `names`, and
it is `prefix + "1"` for the empty list. -/
theorem getValidName_smallest_unused (pfx : String) (names : List String) :
    (∃ i, 0 < i ∧ getValidName pfx names = some (pfx ++ number i) ∧
      pfx ++ number i ∉ names ∧ ∀ k, 0 < k → k < i → pfx ++ number k ∈ names) ∧
    getValidName pfx [] = some (pfx ++ "1") :=
  ⟨getValidName_spec pfx names, rfl⟩

/-- C2 (failing input): in `fanState`, `link_2` (item 4) has the children `[6, 8]` and its
parent `link_1` (item 3) has `[4]`.  `moveTreeChildren(4, 3)` takes child `0`, then asks for
child `1` of the one-element list that is left and stops: item 8 stays under item 4. -/
theorem moveTreeChildren_leaves_second_child :
    fanState.map (fun t =>
      (childrenOf t.items 4, childrenOf t.items 3,
       childrenOf (moveTreeChildren 4 3 t.items) 4,
       childrenOf (moveTreeChildren 4 3 t.items) 3)) = some ([6, 8], [4], [8], [4, 6]) := by
  decide

/-- C3 (failing input): removing `link_2` (item 4, children `link_3` and `link_4`) from
`fanState` completes, `link_3` goes up to `link_1`, and `link_4` stays under the detached item:
it is no longer reachable although the model still has it. -/
theorem remove_link_loses_second_child :
    fanState.map linkNodeNames = some ["link_1", "link_2", "link_3", "link_4"] ∧
    (fanState.bind (on_removeActionTriggered 4)).map linkNodeNames =
      some ["link_1", "link_3"] ∧
    (fanState.bind (on_removeActionTriggered 4)).map modelLinkNames =
      some ["link_1", "link_3", "link_4"] ∧
    (fanState.bind (on_removeActionTriggered 4)).map (fun t => childrenOf t.items 3) =
      some [6] ∧
    (fanState.bind (on_removeActionTriggered 4)).map (fun t => parentOf t.items 4) =
      some none ∧
    (fanState.bind (on_removeActionTriggered 4)).map (fun t => parentOf t.items 8) =
      some (some 4) := by
  decide

/-- C8 (failing input): removing `link_2` from `fanState`, where its joint `joint_1` (item 5)
has the child joints `joint_2` (item 7) and `joint_3` (item 9).  `joint_1` is erased and
`joint_2` moves to the joint-group root, but `joint_3` keeps its parent link name `link_2` and
stays under the detached `joint_1` item.  With the single child of `chainState` the removal
does what the claim says. -/
theorem remove_link_loses_second_child_joint :
    ((fanState.bind (on_removeActionTriggered 4)).map modelJointNames =
       some ["joint_2", "joint_3"] ∧
     (fanState.bind (on_removeActionTriggered 4)).map jointNodeNames = some ["joint_2"] ∧
     (fanState.bind (on_removeActionTriggered 4)).map (fun t => childrenOf t.items 2) =
       some [7] ∧
     (fanState.bind (on_removeActionTriggered 4)).map (fun t => parentOf t.items 9) =
       some (some 5) ∧
     (fanState.bind (on_removeActionTriggered 4)).map (fun t => parentOf t.items 5) =
       some none ∧
     (fanState.bind (on_removeActionTriggered 4)).map
         (fun t => t.memory.map (fun j => (j.name, j.parent_link_name))) =
       some [("joint_1", "link_1"), ("joint_2", "link_1"), ("joint_3", "link_2")]) ∧
    ((chainState.bind (on_removeActionTriggered 4)).map modelJointNames = some ["joint_2"] ∧
     (chainState.bind (on_removeActionTriggered 4)).map jointNodeNames = some ["joint_2"] ∧
     (chainState.bind (on_removeActionTriggered 4)).map (fun t => childrenOf t.items 2) =
       some [7] ∧
     (chainState.bind (on_removeActionTriggered 4)).map
         (fun t => t.memory.map (fun j => (j.name, j.parent_link_name, j.child_link_name))) =
       some [("joint_1", "link_1", "link_2"), ("joint_2", "link_1", "link_3")]) := by
  decide

/-- C10 (failing input): in `chainState` remove `link_1` (item 3), then `link_2` (item 4).
After the first removal the model's root link is still the erased `link_1`; in the second,
`joint_1` names the parent `link_1`, which is not in `link_names_`, the fallback substitutes
the root link's name `link_1` again, no link item has that name, and the slot does not
complete. -/
theorem fallback_names_erased_root :
    (chainState.bind (on_removeActionTriggered 3)).map (fun t => t.link_names_) =
      some ["link_2", "link_3"] ∧
    (chainState.bind (on_removeActionTriggered 3)).map modelLinkNames =
      some ["link_2", "link_3"] ∧
    (chainState.bind (on_removeActionTriggered 3)).map
        (fun t => (t.model_.getRoot).map (fun r => r.name)) = some (some "link_1") ∧
    (chainState.bind (on_removeActionTriggered 3)).map
        (fun t => t.memory.map (fun j => (j.name, j.parent_link_name))) =
      some [("joint_1", "link_1"), ("joint_2", "link_2")] ∧
    (chainState.bind (on_removeActionTriggered 3)).map (fun t => t.links_.lookup "link_1") =
      some none ∧
    ((chainState.bind (on_removeActionTriggered 3)).bind
      (on_removeActionTriggered 4)).isNone = true := by
  decide

theorem lookup_isSome_iff {α : Type} (m : List (String × α)) (k : String) :
    (m.lookup k).isSome = true ↔ k ∈ m.map (fun e => e.1) := by
  induction m with
  | nil => simp
  | cons e m ih =>
    rcases e with ⟨a, b⟩
    by_cases hk : k = a
    · subst hk; simp [List.lookup]
    · have hb : (k == a) = false := by simpa using hk
      simp [List.lookup, hb, ih, hk]

theorem stdInsert_fresh {α : Type} (m : List (String × α)) (k : String) (v : α)
    (h : k ∉ m.map (fun e => e.1)) : stdInsert m k v = m ++ [(k, v)] := by
  unfold stdInsert
  have : ¬ ((m.lookup k).isSome = true) := fun hc => h ((lookup_isSome_iff m k).1 hc)
  simp [this]

theorem getValidName_not_mem (pfx : String) (names : List String) (n : String)
    (h : getValidName pfx names = some n) : n ∉ names := by
  rcases getValidNameLoop_spec pfx names _ 0 n h with ⟨_, _, _, hnot, _⟩
  exact hnot

/-- What a completed add does: the link steps, then either no joint, or the joint steps under
the selected link's assigned joint (more than two links, selection not top-level), or the joint
steps under the joint-group root. -/
theorem on_addActionTriggered_steps (sel : Nat) (t t' : URDFPropertyTree)
    (h : on_addActionTriggered sel t = some t') :
    ∃ link t1 new_link t2, addModelLink t = some (link, t1) ∧
      addLinkTreeItem sel link t1 = some (new_link, t2) ∧
      ((t' = emit t2 Signal.linkAddition ∧ t2.link_names_.length ≤ 1 ∧
          isLinkRoot t2 (parentOf t2.items sel) = some false) ∨
       ∃ par joint t4 new_joint t5,
         addModelJoint link.name (emit t2 Signal.linkAddition) = some (joint, t4) ∧
         addJointTreeItem par joint t4 = some (new_joint, t5) ∧
         t' = emit { t5 with items := assignJoint t5.items new_link new_joint }
           Signal.jointAddition ∧
         ((2 < t2.link_names_.length ∧ isLinkRoot t2 (parentOf t2.items sel) = some false ∧
             ∃ si, t2.items[sel]? = some si ∧ si.type = ItemType.Link ∧
               par = si.assigned_joint) ∨
          (par = some t2.joint_root_ ∧
             (t2.link_names_.length = 2 ∨
               isLinkRoot t2 (parentOf t2.items sel) = some true)))) := by
  unfold on_addActionTriggered at h
  split at h
  · contradiction
  · rename_i link t1 h1
    split at h
    · contradiction
    · rename_i new_link t2 h2
      refine ⟨link, t1, new_link, t2, h1, h2, ?_⟩
      simp only at h
      split at h
      · contradiction
      · rename_i hfirst
        split at h
        · rename_i sl hsl
          split at h
          · contradiction
          · rename_i si hsi
            split at h
            · contradiction
            · split at h
              · contradiction
              · rename_i _ joint t4 h4 _ new_joint t5 h5
                injection h with h
                refine Or.inr ⟨_, joint, t4, new_joint, t5, h4, h5, h.symm, Or.inl ?_⟩
                simp only [emit] at hfirst hsl hsi
                by_cases hlen : t2.link_names_.length > 2
                · rw [if_pos hlen] at hfirst
                  have hroot : isLinkRoot t2 (parentOf t2.items sel) = some false := by
                    cases hr : isLinkRoot t2 (parentOf t2.items sel) with
                    | none =>
                      simp only [isLinkRoot, typeOf] at hr hfirst
                      rw [hr] at hfirst; simp at hfirst
                    | some b =>
                      simp only [isLinkRoot, typeOf] at hr hfirst
                      rw [hr] at hfirst; simp at hfirst; subst hfirst; rfl
                  refine ⟨hlen, hroot, si, ?_⟩
                  simp only [asLinkTreeItem, isLink, typeOf, Option.map_map] at hsl
                  cases hs : t2.items[sel]? with
                  | none => rw [hs] at hsl; simp at hsl
                  | some it =>
                    rw [hs] at hsl
                    simp at hsl
                    obtain ⟨hty, hsl⟩ := hsl
                    subst hsl
                    rw [hs] at hsi
                    injection hsi with hsi
                    subst hsi
                    exact ⟨rfl, hty, rfl⟩
                · rw [if_neg hlen] at hfirst; simp at hfirst
        · contradiction
      · rename_i hfirst
        simp only [emit] at hfirst
        split at h
        · contradiction
        · rename_i hsecond
          injection h with h
          simp only [emit] at hsecond
          refine Or.inl ⟨h.symm, ?_, ?_⟩
          · by_contra hc
            by_cases h2 : t2.link_names_.length = 2
            · rw [if_pos h2] at hsecond; simp at hsecond
            · rw [if_neg h2] at hsecond
              have hlen : t2.link_names_.length > 2 := by omega
              rw [if_pos hlen] at hfirst
              simp only [isLinkRoot, typeOf] at hsecond hfirst
              rw [hsecond] at hfirst; simp at hfirst
          · by_cases h2 : t2.link_names_.length = 2
            · rw [if_pos h2] at hsecond; simp at hsecond
            · rw [if_neg h2] at hsecond; exact hsecond
        · rename_i hsecond
          simp only [emit] at hsecond
          split at h
          · contradiction
          · split at h
            · contradiction
            · rename_i _ joint t4 h4 _ new_joint t5 h5
              injection h with h
              have hjr : t4.joint_root_ = t2.joint_root_ := by
                unfold addModelJoint at h4
                split at h4
                · contradiction
                · injection h4 with h4
                  injection h4 with _ h4
                  subst h4
                  rfl
              refine Or.inr ⟨_, joint, t4, new_joint, t5, h4, h5, h.symm, Or.inr ⟨?_, ?_⟩⟩
              · rw [hjr]
              · by_cases h2 : t2.link_names_.length = 2
                · exact Or.inl h2
                · rw [if_neg h2] at hsecond; exact Or.inr hsecond

theorem addModelLink_inv (t t1 : URDFPropertyTree) (l : urdf.Link)
    (h : addModelLink t = some (l, t1)) :
    ∃ n, getValidName "link_" t.link_names_ = some n ∧ l = urdf.Link.mk n [] [] ∧
      t1 = { t with model_ := insertModelLink t.model_ n l } := by
  unfold addModelLink at h
  split at h
  · contradiction
  · rename_i n hn
    injection h with h
    injection h with hl ht
    subst hl
    refine ⟨n, hn, rfl, ?_⟩
    rw [← ht]

theorem addLinkTreeItem_inv (parent : Nat) (link : urdf.Link) (t t2 : URDFPropertyTree)
    (item : Nat) (h : addLinkTreeItem parent link t = some (item, t2)) :
    (∃ pit, t.items[parent]? = some pit) ∧ item = t.items.length ∧
      t2 = { t with
        items := setExpanded (addChild
          (t.items ++ [{ newItem ItemType.Link link.name with link := some link }])
          parent (some t.items.length)) parent true,
        links_ := qmapInsert t.links_ link.name t.items.length,
        link_names_ := t.link_names_ ++ [link.name] } := by
  unfold addLinkTreeItem at h
  split at h
  · contradiction
  · rename_i pit hp
    injection h with h
    injection h with h1 h2
    exact ⟨⟨pit, hp⟩, h1.symm, h2.symm⟩

theorem addModelJoint_inv (c : String) (t t4 : URDFPropertyTree) (j : Nat)
    (h : addModelJoint c t = some (j, t4)) :
    ∃ m, getValidName "joint_" t.joint_names_ = some m ∧ j = t.memory.length ∧
      t4 = { t with
        memory := t.memory ++ [{ name := m, parent_link_name := "", child_link_name := c }],
        model_ := { t.model_ with joints_ := stdInsert t.model_.joints_ m t.memory.length } } := by
  unfold addModelJoint at h
  split at h
  · contradiction
  · rename_i m hm
    injection h with h
    injection h with h1 h2
    exact ⟨m, hm, h1.symm, h2.symm⟩

theorem addJointTreeItem_inv (parent : Option Nat) (joint : Nat) (t t5 : URDFPropertyTree)
    (item : Nat) (h : addJointTreeItem parent joint t = some (item, t5)) :
    ∃ p pn jd, parent = some p ∧ t.memory[joint]? = some jd ∧ item = t.items.length ∧
      t5 = { t with
        items := setExpanded (addChild
          (t.items ++ [{ newItem ItemType.Joint jd.name with joint := some joint }])
          p (some t.items.length)) p true,
        memory := writeParentLinkName t.memory joint pn,
        joints_ := qmapInsert t.joints_ jd.name t.items.length,
        joint_names_ := t.joint_names_ ++ [jd.name] } := by
  unfold addJointTreeItem at h
  split at h
  · simp only at h
    split at h
    · rename_i hjd
      injection h with h
      injection h with h1 h2
      exact ⟨_, _, _, rfl, hjd, h1.symm, h2.symm⟩
    · contradiction
  · contradiction

theorem writeParentLinkName_name (mem : List urdf.Joint) (j i : Nat) (p : String) :
    ((writeParentLinkName mem j p)[i]?).map (fun o => o.name) =
      (mem[i]?).map (fun o => o.name) := by
  unfold writeParentLinkName
  rw [List.getElem?_modify]
  cases mem[i]? with
  | none => rfl
  | some o => by_cases hji : j = i <;> simp [hji]

theorem writeParentLinkName_child (mem : List urdf.Joint) (j i : Nat) (p : String) :
    ((writeParentLinkName mem j p)[i]?).map (fun o => o.child_link_name) =
      (mem[i]?).map (fun o => o.child_link_name) := by
  unfold writeParentLinkName
  rw [List.getElem?_modify]
  cases mem[i]? with
  | none => rfl
  | some o => by_cases hji : j = i <;> simp [hji]

theorem namesInv_add (sel : Nat) (t t' : URDFPropertyTree) (hinv : NamesInv t)
    (h : on_addActionTriggered sel t = some t') : NamesInv t' := by
  obtain ⟨hlk, hlv, hjk, hjv, hln, hjn⟩ := hinv
  obtain ⟨link, t1, new_link, t2, h1, h2, h3⟩ := on_addActionTriggered_steps sel t t' h
  obtain ⟨n, hn, hl, ht1⟩ := addModelLink_inv t t1 link h1
  obtain ⟨_, _, ht2⟩ := addLinkTreeItem_inv sel link t1 t2 new_link h2
  have hfresh : n ∉ t.link_names_ := getValidName_not_mem _ _ _ hn
  have hins : stdInsert t.model_.links_ n link = t.model_.links_ ++ [(n, link)] :=
    stdInsert_fresh _ _ _ (by unfold modelLinkNames at hlk; rw [hlk]; exact hfresh)
  have hname : link.name = n := by rw [hl]; rfl
  have e1 : t2.link_names_ = t.link_names_ ++ [n] := by rw [ht2, ht1, hname]
  have e2 : t2.model_.links_ = t.model_.links_ ++ [(n, link)] := by
    rw [ht2, ht1]; simp only [insertModelLink]; split <;> simp [hins]
  have e3 : t2.model_.joints_ = t.model_.joints_ := by
    rw [ht2, ht1]; simp only [insertModelLink]; split <;> rfl
  have e4 : t2.joint_names_ = t.joint_names_ := by rw [ht2, ht1]
  have e5 : t2.memory = t.memory := by rw [ht2, ht1]
  have hln2 : t2.link_names_.Nodup := by
    rw [e1]; exact List.Nodup.append hln (List.nodup_singleton n) (by simpa using hfresh)
  rcases h3 with ⟨ht', _, _⟩ | ⟨par, joint, t4, new_joint, t5, h4, h5, ht', _⟩
  · subst ht'
    refine ⟨?_, ?_, ?_, ?_, ?_, ?_⟩
    · simp only [modelLinkNames, emit, e1, e2, List.map_append, List.map_cons, List.map_nil]
      unfold modelLinkNames at hlk; rw [hlk]
    · simp only [emit, e1, e2, List.map_append, List.map_cons, List.map_nil, hname]
      rw [hlv]
    · simp only [modelJointNames, emit, e3, e4]; exact hjk
    · simp only [emit, e3, e4, e5]; exact hjv
    · exact hln2
    · simp only [emit, e4]; exact hjn
  · obtain ⟨m, hm, hj, ht4⟩ := addModelJoint_inv _ _ t4 joint h4
    obtain ⟨p, pn, jd, _, hjd, _, ht5⟩ := addJointTreeItem_inv par joint t4 t5 new_joint h5
    simp only [emit] at hm ht4 hj
    rw [e4] at hm
    have hfreshj : m ∉ t.joint_names_ := getValidName_not_mem _ _ _ hm
    have hinsj : stdInsert t.model_.joints_ m t.memory.length =
        t.model_.joints_ ++ [(m, t.memory.length)] :=
      stdInsert_fresh _ _ _ (by unfold modelJointNames at hjk; rw [hjk]; exact hfreshj)
    have hmem4 : t4.memory = t.memory ++
        [{ name := m, parent_link_name := "", child_link_name := link.name }] := by
      rw [ht4, e5]
    have hjd' : jd.name = m := by
      rw [hmem4, hj, e5] at hjd
      simp at hjd
      rw [← hjd]
    subst ht'
    refine ⟨?_, ?_, ?_, ?_, ?_, ?_⟩
    · simp only [modelLinkNames, emit, ht5, ht4, e1, e2, List.map_append, List.map_cons,
        List.map_nil]
      unfold modelLinkNames at hlk; rw [hlk]
    · simp only [emit, ht5, ht4, e1, e2, List.map_append, List.map_cons, List.map_nil, hname]
      rw [hlv]
    · simp only [modelJointNames, emit, ht5, ht4, e3, e4, e5, hinsj, hjd', List.map_append,
        List.map_cons, List.map_nil]
      unfold modelJointNames at hjk; rw [hjk]
    · simp only [emit, ht5, ht4, e3, e4, e5, hinsj, hjd', List.map_append, List.map_cons,
        List.map_nil, writeParentLinkName_name]
      congr 1
      · rw [← hjv]
        apply List.map_congr_left
        intro e he
        have hsome : ((t.memory[e.2]?).map (fun o => o.name)) ∈
            t.joint_names_.map some := by
          rw [← hjv]; exact List.mem_map.2 ⟨e, he, rfl⟩
        have hlt : e.2 < t.memory.length := by
          by_contra hge
          have : t.memory[e.2]? = none := List.getElem?_eq_none (by omega)
          rw [this] at hsome
          simp at hsome
        rw [List.getElem?_append_left hlt]
      · simp
    · simp only [emit, ht5, ht4, e1]; rw [← e1]; exact hln2
    · simp only [emit, ht5, ht4, e4, hjd']
      exact List.Nodup.append hjn (List.nodup_singleton m) (by simpa using hfreshj)

theorem namesInv_new : NamesInv new := by
  refine ⟨rfl, rfl, rfl, rfl, ?_, ?_⟩ <;> exact List.nodup_nil

theorem namesInv_runAll (sels : List Nat) :
    ∀ t t', NamesInv t → runAll (sels.map on_addActionTriggered) t = some t' →
      NamesInv t' := by
  induction sels with
  | nil =>
    intro t t' hinv h
    simp only [List.map_nil, runAll] at h
    injection h with h
    subst h
    exact hinv
  | cons s sels ih =>
    intro t t' hinv h
    simp only [List.map_cons, runAll] at h
    split at h
    · contradiction
    · rename_i t1 h1
      exact ih t1 t' (namesInv_add s t t1 hinv h1) h

theorem eq_some_getD {α : Type} (o : Option α) (d : α) (h : o.isSome = true) :
    o = some (o.getD d) := by
  cases o with
  | none => simp at h
  | some a => rfl

theorem chainState_eq : chainState = some chainFinal :=
  eq_some_getD chainState new (by decide)

theorem fanState_eq : fanState = some fanFinal :=
  eq_some_getD fanState new (by decide)

/-- C6: after any sequence of completed adds from the constructor state, whatever was selected,
the link names and the joint names are each without duplicates; the keys of the model's link
map, the names of the links it holds and `link_names_` are the same list, and likewise for the
joints (so each insertion made a new map entry). -/
theorem add_sequence_names_unique (sels : List Nat) (t : URDFPropertyTree)
    (h : runAll (sels.map on_addActionTriggered) new = some t) :
    t.link_names_.Nodup ∧ t.joint_names_.Nodup ∧
    modelLinkNames t = t.link_names_ ∧
    t.model_.links_.map (fun e => e.2.name) = t.link_names_ ∧
    modelJointNames t = t.joint_names_ ∧
    t.model_.joints_.map (fun e => (t.memory[e.2]?).map (fun o => o.name)) =
      t.joint_names_.map some := by
  obtain ⟨h1, h2, h3, h4, h5, h6⟩ := namesInv_runAll sels new t namesInv_new h
  exact ⟨h5, h6, h1, h2, h3, h4⟩

/-- C6 at the three adds of `chainState`. -/
theorem add_sequence_names_unique_witness :
    runAll ([1, 3, 4].map on_addActionTriggered) new = some chainFinal ∧
    chainFinal.link_names_ = ["link_1", "link_2", "link_3"] ∧
    chainFinal.joint_names_ = ["joint_1", "joint_2"] ∧
    chainFinal.link_names_.Nodup ∧ chainFinal.joint_names_.Nodup ∧
    modelLinkNames chainFinal = chainFinal.link_names_ :=
  ⟨chainState_eq, by decide, by decide,
    (add_sequence_names_unique [1, 3, 4] chainFinal chainState_eq).1,
    (add_sequence_names_unique [1, 3, 4] chainFinal chainState_eq).2.1,
    (add_sequence_names_unique [1, 3, 4] chainFinal chainState_eq).2.2.1⟩

/-! ### Arena lemmas -/

theorem getElem?_modify_field {α : Type} (f : QTreeWidgetItem → α)
    (g : QTreeWidgetItem → QTreeWidgetItem) (hg : ∀ it, f (g it) = f it)
    (items : List QTreeWidgetItem) (k i : Nat) :
    ((items.modify g k)[i]?).map f = (items[i]?).map f := by
  rw [List.getElem?_modify]
  cases items[i]? with
  | none => rfl
  | some it => by_cases hk : k = i <;> simp [hk, hg]

theorem childrenOf_modify (g : QTreeWidgetItem → QTreeWidgetItem)
    (items : List QTreeWidgetItem) (k i : Nat) :
    childrenOf (items.modify g k) i =
      if k = i then
        (match items[i]? with
         | some it => (g it).children
         | none => [])
      else childrenOf items i := by
  unfold childrenOf
  rw [List.getElem?_modify]
  cases items[i]? with
  | none => simp
  | some it => by_cases hk : k = i <;> simp [hk]

theorem parentOf_modify (g : QTreeWidgetItem → QTreeWidgetItem)
    (items : List QTreeWidgetItem) (k i : Nat) :
    parentOf (items.modify g k) i =
      if k = i then
        (match items[i]? with
         | some it => (g it).par
         | none => none)
      else parentOf items i := by
  unfold parentOf
  rw [List.getElem?_modify]
  cases items[i]? with
  | none => simp
  | some it => by_cases hk : k = i <;> simp [hk]

theorem childrenOf_eq_map (items : List QTreeWidgetItem) (i : Nat) :
    childrenOf items i = ((items[i]?).map (fun it => it.children)).getD [] := by
  unfold childrenOf
  cases items[i]? <;> rfl

theorem parentOf_eq_map (items : List QTreeWidgetItem) (i : Nat) :
    parentOf items i = ((items[i]?).map (fun it => it.par)).getD none := by
  unfold parentOf
  cases items[i]? <;> rfl

theorem length_addChild (items : List QTreeWidgetItem) (p : Nat) (c : Option Nat) :
    (addChild items p c).length = items.length := by
  unfold addChild
  split
  · rfl
  · split
    · rfl
    · split <;> simp

theorem length_takeChild (items : List QTreeWidgetItem) (p : Nat) (i : Option Nat) :
    (takeChild items p i).2.length = items.length := by
  unfold takeChild
  split
  · rfl
  · split <;> simp

theorem length_setExpanded (items : List QTreeWidgetItem) (p : Nat) (e : Bool) :
    (setExpanded items p e).length = items.length := by
  simp [setExpanded]

theorem length_assignJoint (items : List QTreeWidgetItem) (l j : Nat) :
    (assignJoint items l j).length = items.length := by
  simp [assignJoint]

/-- The effect of `addChild` on child lists when the child is a parentless item. -/
theorem childrenOf_addChild (items : List QTreeWidgetItem) (p c : Nat) (ci : QTreeWidgetItem)
    (hc : items[c]? = some ci) (hpar : ci.par = none) (x : Nat) :
    childrenOf (addChild items p (some c)) x =
      if x = p then childrenOf items p ++ (if p < items.length then [c] else [])
      else childrenOf items x := by
  unfold addChild
  simp only [hc, hpar, Option.isSome_none, Bool.false_eq_true, if_false]
  rw [childrenOf_modify, childrenOf_modify]
  by_cases hxp : x = p
  · subst hxp
    simp only [if_true]
    by_cases hlt : x < items.length
    · have hx : ∃ xi, items[x]? = some xi := ⟨items[x], List.getElem?_eq_getElem hlt⟩
      obtain ⟨xi, hxi⟩ := hx
      by_cases hcx : c = x
      · subst hcx
        rw [if_pos hlt]
        simp [List.getElem?_modify, hxi, childrenOf]
      · rw [if_pos hlt]
        simp [hcx, hxi, childrenOf]
    · have hx : items[x]? = none := List.getElem?_eq_none (by omega)
      by_cases hcx : c = x
      · subst hcx; simp [hx] at hc
      · simp [hcx, hx, childrenOf, hlt]
  · have hpx : ¬ p = x := fun h => hxp h.symm
    simp only [hpx, if_false, hxp]
    by_cases hcx : c = x
    · subst hcx
      simp [List.getElem?_modify, hc, childrenOf, hpx]
    · simp [hcx]

/-- The effect of `addChild` on parent pointers when the child is a parentless item. -/
theorem parentOf_addChild (items : List QTreeWidgetItem) (p c : Nat) (ci : QTreeWidgetItem)
    (hc : items[c]? = some ci) (hpar : ci.par = none) (x : Nat) :
    parentOf (addChild items p (some c)) x =
      if x = c then some p else parentOf items x := by
  unfold addChild
  simp only [hc, hpar, Option.isSome_none, Bool.false_eq_true, if_false]
  rw [parentOf_modify]
  by_cases hcx : c = x
  · subst hcx
    simp only [if_true]
    rw [List.getElem?_modify, hc]
    by_cases hpc : p = c <;> simp [hpc]
  · have hxc : ¬ x = c := fun h => hcx h.symm
    simp only [hcx, hxc, if_false]
    rw [parentOf_modify]
    by_cases hpx : p = x
    · subst hpx
      simp only [if_true]
      unfold parentOf
      cases items[p]? <;> rfl
    · simp [hpx]

theorem takeChild_field {α : Type} (f : QTreeWidgetItem → α)
    (h1 : ∀ (it : QTreeWidgetItem) cs, f { it with children := cs } = f it)
    (h2 : ∀ (it : QTreeWidgetItem) p, f { it with par := p } = f it)
    (items : List QTreeWidgetItem) (p : Nat) (idx : Option Nat) (i : Nat) :
    (((takeChild items p idx).2)[i]?).map f = (items[i]?).map f := by
  unfold takeChild
  split
  · rfl
  · split
    · rfl
    · simp only
      rw [getElem?_modify_field f _ (fun it => h2 it _),
        getElem?_modify_field f _ (fun it => h1 it _)]

theorem setExpanded_field {α : Type} (f : QTreeWidgetItem → α)
    (h1 : ∀ (it : QTreeWidgetItem) e, f { it with expanded := e } = f it)
    (items : List QTreeWidgetItem) (p : Nat) (e : Bool) (i : Nat) :
    ((setExpanded items p e)[i]?).map f = (items[i]?).map f := by
  unfold setExpanded
  exact getElem?_modify_field f _ (fun it => h1 it _) items p i

theorem assignJoint_field {α : Type} (f : QTreeWidgetItem → α)
    (h1 : ∀ (it : QTreeWidgetItem) a, f { it with assigned_joint := a } = f it)
    (items : List QTreeWidgetItem) (l j : Nat) (i : Nat) :
    ((assignJoint items l j)[i]?).map f = (items[i]?).map f := by
  unfold assignJoint
  exact getElem?_modify_field f _ (fun it => h1 it _) items l i

theorem childrenOf_setExpanded (items : List QTreeWidgetItem) (p : Nat) (e : Bool) (i : Nat) :
    childrenOf (setExpanded items p e) i = childrenOf items i := by
  rw [childrenOf_eq_map, childrenOf_eq_map,
    setExpanded_field (fun it => it.children) (fun _ _ => rfl)]

theorem parentOf_setExpanded (items : List QTreeWidgetItem) (p : Nat) (e : Bool) (i : Nat) :
    parentOf (setExpanded items p e) i = parentOf items i := by
  rw [parentOf_eq_map, parentOf_eq_map,
    setExpanded_field (fun it => it.par) (fun _ _ => rfl)]

theorem childrenOf_assignJoint (items : List QTreeWidgetItem) (l j : Nat) (i : Nat) :
    childrenOf (assignJoint items l j) i = childrenOf items i := by
  rw [childrenOf_eq_map, childrenOf_eq_map,
    assignJoint_field (fun it => it.children) (fun _ _ => rfl)]

theorem childrenOf_append_old (items : List QTreeWidgetItem) (it : QTreeWidgetItem) (i : Nat)
    (h : i ≠ items.length) : childrenOf (items ++ [it]) i = childrenOf items i := by
  unfold childrenOf
  by_cases hlt : i < items.length
  · rw [List.getElem?_append_left hlt]
  · have h1 : items[i]? = none := List.getElem?_eq_none (by omega)
    have h2 : (items ++ [it])[i]? = none := List.getElem?_eq_none (by simp; omega)
    rw [h1, h2]

theorem parentOf_append_old (items : List QTreeWidgetItem) (it : QTreeWidgetItem) (i : Nat)
    (h : i ≠ items.length) : parentOf (items ++ [it]) i = parentOf items i := by
  unfold parentOf
  by_cases hlt : i < items.length
  · rw [List.getElem?_append_left hlt]
  · have h1 : items[i]? = none := List.getElem?_eq_none (by omega)
    have h2 : (items ++ [it])[i]? = none := List.getElem?_eq_none (by simp; omega)
    rw [h1, h2]

theorem getValidName_isSome (pfx : String) (names : List String) :
    ∃ n, getValidName pfx names = some n := by
  obtain ⟨i, _, h, _⟩ := getValidName_spec pfx names
  exact ⟨_, h⟩

theorem pushChild_old {α : Type} (f : QTreeWidgetItem → α)
    (h1 : ∀ (it : QTreeWidgetItem) cs, f { it with children := cs } = f it)
    (h2 : ∀ (it : QTreeWidgetItem) e, f { it with expanded := e } = f it)
    (items : List QTreeWidgetItem) (nw : QTreeWidgetItem) (hn : nw.par = none)
    (p i : Nat) (hi : i < items.length) :
    ((pushChild items nw p)[i]?).map f = (items[i]?).map f := by
  unfold pushChild
  rw [setExpanded_field f h2]
  unfold addChild
  simp only [List.getElem?_concat_length, hn, Option.isSome_none, Bool.false_eq_true, if_false]
  rw [List.getElem?_modify]
  have hne : ¬ items.length = i := by omega
  simp only [hne, if_false]
  have : (fun a : QTreeWidgetItem => a) = id := rfl
  rw [this, id_map, getElem?_modify_field f _ (fun it => h1 it _),
    List.getElem?_append_left hi]

theorem pushChild_new (items : List QTreeWidgetItem) (nw : QTreeWidgetItem)
    (hn : nw.par = none) (p : Nat) (hp : p < items.length) :
    (pushChild items nw p)[items.length]? = some { nw with par := some p } := by
  unfold pushChild setExpanded addChild
  simp only [List.getElem?_concat_length, hn, Option.isSome_none, Bool.false_eq_true, if_false]
  have hne : ¬ p = items.length := by omega
  rw [List.getElem?_modify, List.getElem?_modify, List.getElem?_modify,
    List.getElem?_concat_length]
  simp [hne]

theorem pushChild_length (items : List QTreeWidgetItem) (nw : QTreeWidgetItem) (p : Nat) :
    (pushChild items nw p).length = items.length + 1 := by
  unfold pushChild
  rw [length_setExpanded, length_addChild]; simp

theorem pushChild_children (items : List QTreeWidgetItem) (nw : QTreeWidgetItem)
    (hn : nw.par = none) (p : Nat) (hp : p < items.length) (x : Nat)
    (hx : x ≠ items.length) :
    childrenOf (pushChild items nw p) x =
      if x = p then childrenOf items p ++ [items.length] else childrenOf items x := by
  unfold pushChild
  rw [childrenOf_setExpanded,
    childrenOf_addChild _ p items.length nw (List.getElem?_concat_length _ _) hn]
  have hp' : p < (items ++ [nw]).length := by simp; omega
  have hpne : p ≠ items.length := by omega
  by_cases hxp : x = p
  · subst hxp
    simp only [if_true, hp', childrenOf_append_old items nw x hpne]
  · simp only [hxp, if_false, childrenOf_append_old items nw x hx]

theorem pushChild_core (items : List QTreeWidgetItem) (nw : QTreeWidgetItem)
    (hn : nw.par = none) (p i : Nat) (hi : i < items.length) :
    ((pushChild items nw p)[i]?).map core = (items[i]?).map core :=
  pushChild_old core (fun _ _ => rfl) (fun _ _ => rfl) items nw hn p i hi

theorem assignJoint_other (items : List QTreeWidgetItem) (l j i : Nat) (h : i ≠ l) :
    (assignJoint items l j)[i]? = items[i]? := by
  unfold assignJoint
  rw [List.getElem?_modify]
  have : ¬ l = i := fun e => h e.symm
  simp [this]

theorem assignJoint_self (items : List QTreeWidgetItem) (l j : Nat) (it : QTreeWidgetItem)
    (h : items[l]? = some it) :
    (assignJoint items l j)[l]? = some { it with assigned_joint := some j } := by
  unfold assignJoint
  rw [List.getElem?_modify, h]
  simp

theorem writeParentLinkName_append (mem : List urdf.Joint) (o : urdf.Joint) (p : String) :
    writeParentLinkName (mem ++ [o]) mem.length p =
      mem ++ [{ o with parent_link_name := p }] := by
  unfold writeParentLinkName
  apply List.ext_getElem?
  intro i
  rw [List.getElem?_modify]
  by_cases hi : i < mem.length
  · have hne : ¬ mem.length = i := by omega
    simp [hne, List.getElem?_append_left hi]
  · by_cases hi2 : i = mem.length
    · subst hi2; simp
    · have h1 : (mem ++ [o])[i]? = none := List.getElem?_eq_none (by simp; omega)
      have h2 : (mem ++ [{ o with parent_link_name := p }])[i]? = none :=
        List.getElem?_eq_none (by simp; omega)
      rw [h1, h2]; rfl

theorem addModelLink_some (t : URDFPropertyTree) (n : String)
    (h : getValidName "link_" t.link_names_ = some n) :
    addModelLink t = some (urdf.Link.mk n [] [],
      { t with model_ := insertModelLink t.model_ n (urdf.Link.mk n [] []) }) := by
  unfold addModelLink
  rw [h]

theorem addLinkTreeItem_some (parent : Nat) (link : urdf.Link) (t : URDFPropertyTree)
    (pit : QTreeWidgetItem) (h : t.items[parent]? = some pit) :
    addLinkTreeItem parent link t = some (t.items.length,
      { t with
        items := pushChild t.items
          { newItem ItemType.Link link.name with link := some link } parent,
        links_ := qmapInsert t.links_ link.name t.items.length,
        link_names_ := t.link_names_ ++ [link.name] }) := by
  unfold addLinkTreeItem pushChild
  rw [h]

theorem addModelJoint_some (c : String) (t : URDFPropertyTree) (m : String)
    (h : getValidName "joint_" t.joint_names_ = some m) :
    addModelJoint c t = some (t.memory.length,
      { t with
        memory := t.memory ++ [{ name := m, parent_link_name := "", child_link_name := c }],
        model_ := { t.model_ with joints_ := stdInsert t.model_.joints_ m t.memory.length } }) := by
  unfold addModelJoint
  rw [h]

theorem addJointTreeItem_root (t : URDFPropertyTree) (jr joint : Nat)
    (jri : QTreeWidgetItem) (jd : urdf.Joint) (rootl : urdf.Link)
    (h1 : t.items[jr]? = some jri) (h2 : jri.type = ItemType.JointRoot)
    (h3 : t.model_.getRoot = some rootl) (h4 : t.memory[joint]? = some jd) :
    addJointTreeItem (some jr) joint t = some (t.items.length,
      { t with
        items := pushChild t.items
          { newItem ItemType.Joint jd.name with joint := some joint } jr,
        memory := writeParentLinkName t.memory joint rootl.name,
        joints_ := qmapInsert t.joints_ jd.name t.items.length,
        joint_names_ := t.joint_names_ ++ [jd.name] }) := by
  unfold addJointTreeItem pushChild
  simp [isJointRoot, typeOf, h1, h2, h3, h4]

theorem addJointTreeItem_under (t : URDFPropertyTree) (aj joint pj : Nat)
    (aji : QTreeWidgetItem) (jd pjd : urdf.Joint)
    (h1 : t.items[aj]? = some aji) (h2 : aji.type = ItemType.Joint)
    (h3 : aji.joint = some pj) (h4 : t.memory[pj]? = some pjd)
    (h5 : t.memory[joint]? = some jd) :
    addJointTreeItem (some aj) joint t = some (t.items.length,
      { t with
        items := pushChild t.items
          { newItem ItemType.Joint jd.name with joint := some joint } aj,
        memory := writeParentLinkName t.memory joint pjd.child_link_name,
        joints_ := qmapInsert t.joints_ jd.name t.items.length,
        joint_names_ := t.joint_names_ ++ [jd.name] }) := by
  unfold addJointTreeItem pushChild
  simp [isJointRoot, asJointTreeItem, isJoint, typeOf, h1, h2, h3, h4, h5]

/-- The joint steps of an add, under the parent item `par` that yields the parent link name
`pn`: the joint-group root with the model's root link, or a joint item with its child link. -/
theorem joint_steps (t3 : URDFPropertyTree) (par pj : Nat) (pari : QTreeWidgetItem)
    (rootl : urdf.Link) (pjd : urdf.Joint) (m pn lname : String)
    (hm : getValidName "joint_" t3.joint_names_ = some m)
    (hpar : t3.items[par]? = some pari)
    (hcase : (pari.type = ItemType.JointRoot ∧ t3.model_.getRoot = some rootl ∧
        pn = rootl.name) ∨
      (pari.type = ItemType.Joint ∧ pari.joint = some pj ∧ t3.memory[pj]? = some pjd ∧
        pn = pjd.child_link_name)) :
    ∃ t4, addModelJoint lname t3 = some (t3.memory.length, t4) ∧
      t4.joint_root_ = t3.joint_root_ ∧
      addJointTreeItem (some par) t3.memory.length t4 = some (t3.items.length,
        { t3 with
          items := pushChild t3.items
            { newItem ItemType.Joint m with joint := some t3.memory.length } par,
          memory := t3.memory ++
            [{ name := m, parent_link_name := pn, child_link_name := lname }],
          model_ := { t3.model_ with
            joints_ := stdInsert t3.model_.joints_ m t3.memory.length },
          joints_ := qmapInsert t3.joints_ m t3.items.length,
          joint_names_ := t3.joint_names_ ++ [m] }) := by
  obtain ⟨t4, ht4⟩ : ∃ t4 : URDFPropertyTree, t4 = { t3 with
      memory := t3.memory ++
        [({ name := m, parent_link_name := "", child_link_name := lname } : urdf.Joint)],
      model_ := { t3.model_ with
        joints_ := stdInsert t3.model_.joints_ m t3.memory.length } } := ⟨_, rfl⟩
  have hnew : t4.memory[t3.memory.length]? =
      some { name := m, parent_link_name := "", child_link_name := lname } := by
    rw [ht4]; simp
  refine ⟨t4, by rw [ht4]; exact addModelJoint_some lname t3 m hm, by rw [ht4], ?_⟩
  rcases hcase with ⟨hty, hroot, hpn⟩ | ⟨hty, hj, hmem, hpn⟩
  · rw [addJointTreeItem_root t4 par t3.memory.length pari _ rootl
      (by rw [ht4]; exact hpar) hty (by rw [ht4]; exact hroot) hnew]
    rw [ht4]
    simp only [writeParentLinkName_append, hpn]
  · have hlt : pj < t3.memory.length := (List.getElem?_eq_some.1 hmem).1
    rw [addJointTreeItem_under t4 par t3.memory.length pj pari _ pjd
      (by rw [ht4]; exact hpar) hty hj
      (by rw [ht4]; simp only; rw [List.getElem?_append_left hlt]; exact hmem) hnew]
    rw [ht4]
    simp only [writeParentLinkName_append, hpn]

theorem getElem?_of_map_core (items items' : List QTreeWidgetItem) (i : Nat)
    (it : QTreeWidgetItem) (h : (items'[i]?).map core = (items[i]?).map core)
    (hi : items[i]? = some it) :
    ∃ it', items'[i]? = some it' ∧ it'.type = it.type ∧ it'.text = it.text ∧
      it'.par = it.par ∧ it'.link = it.link ∧ it'.assigned_joint = it.assigned_joint ∧
      it'.joint = it.joint := by
  rw [hi] at h
  cases h' : items'[i]? with
  | none => rw [h'] at h; simp at h
  | some it' =>
    rw [h'] at h
    simp only [Option.map_some', Option.some.injEq, core, Prod.mk.injEq] at h
    exact ⟨it', rfl, h.1, h.2.1, h.2.2.1, h.2.2.2.1, h.2.2.2.2.1, h.2.2.2.2.2⟩

theorem insertModelLink_append (m : urdf.ModelInterface) (n : String) (l : urdf.Link)
    (hfresh : n ∉ m.links_.map (fun e => e.1)) (hne : m.links_ ≠ []) :
    insertModelLink m n l = { m with links_ := m.links_ ++ [(n, l)] } := by
  unfold insertModelLink
  rw [stdInsert_fresh _ _ _ hfresh]
  have : (m.links_ ++ [(n, l)]).length ≠ 1 := by
    cases hm : m.links_ with
    | nil => exact absurd hm hne
    | cons a b => simp
  rw [if_neg this]

theorem on_add_link_eq (t : URDFPropertyTree) (S p par pj : Nat)
    (sit pit pari : QTreeWidgetItem) (rootl : urdf.Link) (pjd : urdf.Joint) (n m pn : String)
    (hS : t.items[S]? = some sit) (hty : sit.type = ItemType.Link) (hpar : sit.par = some p)
    (hp : t.items[p]? = some pit)
    (hn : getValidName "link_" t.link_names_ = some n)
    (hm : getValidName "joint_" t.joint_names_ = some m)
    (hfresh : n ∉ t.model_.links_.map (fun e => e.1)) (hne : t.model_.links_ ≠ [])
    (hpari : t.items[par]? = some pari)
    (hcase : (pit.type = ItemType.LinkRoot ∧ par = t.joint_root_ ∧
        pari.type = ItemType.JointRoot ∧ t.model_.getRoot = some rootl ∧ pn = rootl.name) ∨
      (pit.type ≠ ItemType.LinkRoot ∧ 2 ≤ t.link_names_.length ∧
        sit.assigned_joint = some par ∧ pari.type = ItemType.Joint ∧ pari.joint = some pj ∧
        t.memory[pj]? = some pjd ∧ pn = pjd.child_link_name)) :
    on_addActionTriggered S t =
      some (afterJointSteps (afterLinkSteps t S n) t.items.length par m pn n) := by
  have hSlt : S < t.items.length := (List.getElem?_eq_some.1 hS).1
  have hplt : p < t.items.length := (List.getElem?_eq_some.1 hp).1
  have hparlt : par < t.items.length := (List.getElem?_eq_some.1 hpari).1
  obtain ⟨t1, ht1⟩ : ∃ t1 : URDFPropertyTree,
      t1 = { t with model_ := insertModelLink t.model_ n (urdf.Link.mk n [] []) } := ⟨_, rfl⟩
  have hA : addModelLink t = some (urdf.Link.mk n [] [], t1) := by
    rw [ht1]; exact addModelLink_some t n hn
  have hB := addLinkTreeItem_some S (urdf.Link.mk n [] []) t1 sit (by rw [ht1]; exact hS)
  obtain ⟨t3, ht3⟩ : ∃ t3 : URDFPropertyTree, t3 = afterLinkSteps t S n := ⟨_, rfl⟩
  have hcore : ∀ i, i < t.items.length → (t3.items[i]?).map core = (t.items[i]?).map core := by
    intro i hi
    rw [ht3]
    exact pushChild_core t.items _ rfl S i hi
  obtain ⟨sit3, hS3, hty3, _, hpar3, _, haj3, _⟩ :=
    getElem?_of_map_core _ _ S sit (hcore S hSlt) hS
  obtain ⟨pit3, hp3, hpty3, _⟩ := getElem?_of_map_core _ _ p pit (hcore p hplt) hp
  obtain ⟨pari3, hpari3, hparty3, _, _, _, _, hparj3⟩ :=
    getElem?_of_map_core _ _ par pari (hcore par hparlt) hpari
  have hparent3 : parentOf t3.items S = some p := by
    simp only [parentOf, hS3, hpar3, hpar]
  have hlr3 : isLinkRoot t3 (some p) = some (decide (pit.type = ItemType.LinkRoot)) := by
    unfold isLinkRoot typeOf
    simp only [hp3, Option.map_some', hpty3]
  have hasl : asLinkTreeItem t3 (some S) = some (some S) := by
    unfold asLinkTreeItem isLink typeOf
    simp [hS3, hty3, hty]
  have hlen3 : t3.link_names_.length = t.link_names_.length + 1 := by
    rw [ht3]; simp [afterLinkSteps]
  have hm3 : getValidName "joint_" t3.joint_names_ = some m := by rw [ht3]; exact hm
  have hjs := joint_steps t3 par pj pari3 rootl pjd m pn n hm3 hpari3 (by
    rcases hcase with ⟨_, _, h3, h4, h5⟩ | ⟨_, _, _, h4, h5, h6, h7⟩
    · exact Or.inl ⟨by rw [hparty3]; exact h3, by rw [ht3]; exact h4, h5⟩
    · exact Or.inr ⟨by rw [hparty3]; exact h4, by rw [hparj3]; exact h5,
        by rw [ht3]; exact h6, h7⟩)
  obtain ⟨t4, h4, hjr4, h5⟩ := hjs
  have hemit : emit { t1 with
        items := pushChild t1.items
          { newItem ItemType.Link (urdf.Link.mk n [] []).name with
            link := some (urdf.Link.mk n [] []) } S,
        links_ := qmapInsert t1.links_ (urdf.Link.mk n [] []).name t1.items.length,
        link_names_ := t1.link_names_ ++ [(urdf.Link.mk n [] []).name] }
      Signal.linkAddition = t3 := by
    rw [ht3, ht1, insertModelLink_append _ _ _ hfresh hne]
    rfl
  have hlen31 : t3.items.length = t.items.length + 1 := by
    rw [ht3]; simp [afterLinkSteps, pushChild_length]
  have hmem3 : t3.memory = t.memory := by rw [ht3]; rfl
  unfold on_addActionTriggered
  rw [hA]
  simp only
  rw [hB]
  simp only
  rw [hemit, hparent3, hlr3, hlen3]
  have hname : (urdf.Link.mk n [] []).name = n := rfl
  rw [hname]
  have ht1len : t1.items.length = t.items.length := by rw [ht1]
  rcases hcase with ⟨h1, h2, _⟩ | ⟨h1, h2, h3, _⟩
  · have hd : decide (pit.type = ItemType.LinkRoot) = true := by simp [h1]
    rw [hd]
    have hf : (if t.link_names_.length + 1 > 2 then
        Option.map (fun b => !b) (some true) else some false) = some false := by
      split <;> rfl
    rw [hf]
    simp only
    have hs : (if t.link_names_.length + 1 = 2 then some true else some true) = some true := by
      split <;> rfl
    rw [hs]
    simp only
    rw [h4]
    simp only
    rw [hjr4]
    have hjr : t3.joint_root_ = par := by rw [ht3]; exact h2.symm
    rw [hjr, h5]
    subst ht3
    simp only [afterJointSteps, emit, ht1len]
  · have hd : decide (pit.type = ItemType.LinkRoot) = false := by simp [h1]
    rw [hd]
    have hlen : t.link_names_.length + 1 > 2 := by omega
    rw [if_pos hlen]
    simp only [Option.map_some', Bool.not_false]
    rw [hasl]
    simp only
    rw [hS3]
    simp only
    rw [h4]
    simp only
    rw [haj3, h3, h5]
    subst ht3
    simp only [afterJointSteps, emit, ht1len]

theorem on_add_first_eq (t : URDFPropertyTree) (r : Nat) (lri ri : QTreeWidgetItem)
    (n : String)
    (hlr : t.items[t.link_root_]? = some lri) (hpar : lri.par = some r)
    (hr : t.items[r]? = some ri) (hrty : ri.type ≠ ItemType.LinkRoot)
    (hn : getValidName "link_" t.link_names_ = some n)
    (hnames : t.link_names_ = []) (hlinks : t.model_.links_ = []) :
    on_addActionTriggered t.link_root_ t = some (afterFirstLink t n) := by
  have hSlt : t.link_root_ < t.items.length := (List.getElem?_eq_some.1 hlr).1
  have hplt : r < t.items.length := (List.getElem?_eq_some.1 hr).1
  obtain ⟨t1, ht1⟩ : ∃ t1 : URDFPropertyTree,
      t1 = { t with model_ := insertModelLink t.model_ n (urdf.Link.mk n [] []) } := ⟨_, rfl⟩
  have hA : addModelLink t = some (urdf.Link.mk n [] [], t1) := by
    rw [ht1]; exact addModelLink_some t n hn
  have hB := addLinkTreeItem_some t.link_root_ (urdf.Link.mk n [] []) t1 lri
    (by rw [ht1]; exact hlr)
  obtain ⟨t3, ht3⟩ : ∃ t3 : URDFPropertyTree, t3 = afterFirstLink t n := ⟨_, rfl⟩
  have hcore : ∀ i, i < t.items.length → (t3.items[i]?).map core = (t.items[i]?).map core := by
    intro i hi
    rw [ht3]
    exact pushChild_core t.items _ rfl t.link_root_ i hi
  obtain ⟨sit3, hS3, _, _, hpar3, _⟩ :=
    getElem?_of_map_core _ _ t.link_root_ lri (hcore _ hSlt) hlr
  obtain ⟨pit3, hp3, hpty3, _⟩ := getElem?_of_map_core _ _ r ri (hcore r hplt) hr
  have hparent3 : parentOf t3.items t.link_root_ = some r := by
    simp only [parentOf, hS3, hpar3, hpar]
  have hlr3 : isLinkRoot t3 (some r) = some false := by
    unfold isLinkRoot typeOf
    simp [hp3, hpty3, hrty]
  have hlen3 : t3.link_names_.length = 1 := by rw [ht3]; rfl
  have hins : insertModelLink t.model_ n (urdf.Link.mk n [] []) =
      { links_ := [(n, urdf.Link.mk n [] [])], joints_ := t.model_.joints_,
        root_link_ := some (urdf.Link.mk n [] []) } := by
    unfold insertModelLink
    rw [hlinks]
    rfl
  have hemit : emit { t1 with
        items := pushChild t1.items
          { newItem ItemType.Link (urdf.Link.mk n [] []).name with
            link := some (urdf.Link.mk n [] []) } t.link_root_,
        links_ := qmapInsert t1.links_ (urdf.Link.mk n [] []).name t1.items.length,
        link_names_ := t1.link_names_ ++ [(urdf.Link.mk n [] []).name] }
      Signal.linkAddition = t3 := by
    rw [ht3, ht1, hins]
    simp only [emit, afterFirstLink, hnames, List.nil_append]
    rfl
  unfold on_addActionTriggered
  rw [hA]
  simp only
  rw [hB]
  simp only
  rw [hemit, hparent3, hlr3, hlen3]
  simp [ht3]

/-- Old items keep their core fields through both push steps and the assignment. -/
theorem afterJointSteps_core (t : URDFPropertyTree) (S par : Nat) (n m pn : String)
    (i : Nat) (hi : i < t.items.length) :
    (((afterJointSteps (afterLinkSteps t S n) t.items.length par m pn n).items)[i]?).map core =
      (t.items[i]?).map core := by
  have hlen3 : (afterLinkSteps t S n).items.length = t.items.length + 1 := by
    simp [afterLinkSteps, pushChild_length]
  simp only [afterJointSteps]
  rw [assignJoint_other _ _ _ _ (by omega),
    pushChild_core _ _ rfl par i (by omega)]
  exact pushChild_core t.items _ rfl S i hi

theorem afterJointSteps_link (t : URDFPropertyTree) (S par : Nat) (n m pn : String)
    (hS : S < t.items.length) (hpar : par < t.items.length) :
    ∃ L, ((afterJointSteps (afterLinkSteps t S n) t.items.length par m pn n).items)[
        t.items.length]? = some L ∧ L.type = ItemType.Link ∧
      L.link = some (urdf.Link.mk n [] []) ∧ L.par = some S ∧ L.children = [] ∧
      L.assigned_joint = some (t.items.length + 1) := by
  have hlen3 : (afterLinkSteps t S n).items.length = t.items.length + 1 := by
    simp [afterLinkSteps, pushChild_length]
  have h3 : (afterLinkSteps t S n).items[t.items.length]? =
      some { { newItem ItemType.Link n with link := some (urdf.Link.mk n [] []) } with
        par := some S } := pushChild_new t.items _ rfl S hS
  have hc := pushChild_core (afterLinkSteps t S n).items
    { newItem ItemType.Joint m with joint := some (afterLinkSteps t S n).memory.length } rfl par
    t.items.length (by omega)
  obtain ⟨x, hx, hxty, _, hxpar, hxlink, _, _⟩ := getElem?_of_map_core _ _ _ _ hc h3
  have hch := pushChild_children (afterLinkSteps t S n).items
    { newItem ItemType.Joint m with joint := some (afterLinkSteps t S n).memory.length } rfl par
    (by omega) t.items.length (by omega)
  have hne : ¬ t.items.length = par := by omega
  rw [if_neg hne] at hch
  have hxch : x.children = [] := by
    have e1 : childrenOf (pushChild (afterLinkSteps t S n).items
      { newItem ItemType.Joint m with joint := some (afterLinkSteps t S n).memory.length } par)
      t.items.length = x.children := by
      simp only [childrenOf, hx]
    rw [← e1, hch]
    simp only [childrenOf, h3]
    rfl
  refine ⟨{ x with assigned_joint := some (t.items.length + 1) }, ?_, hxty, hxlink, hxpar,
    hxch, rfl⟩
  simp only [afterJointSteps]
  rw [hlen3]
  exact assignJoint_self _ _ _ x hx

theorem afterJointSteps_joint (t : URDFPropertyTree) (S par : Nat) (n m pn : String)
    (hpar : par < t.items.length) :
    ((afterJointSteps (afterLinkSteps t S n) t.items.length par m pn n).items)[
        t.items.length + 1]? =
      some { { newItem ItemType.Joint m with joint := some t.memory.length } with
        par := some par } := by
  have hlen3 : (afterLinkSteps t S n).items.length = t.items.length + 1 := by
    simp [afterLinkSteps, pushChild_length]
  simp only [afterJointSteps]
  rw [assignJoint_other _ _ _ _ (by omega)]
  have := pushChild_new (afterLinkSteps t S n).items
    { newItem ItemType.Joint m with joint := some (afterLinkSteps t S n).memory.length } rfl par
    (by omega)
  rw [hlen3] at this
  exact this

theorem afterJointSteps_length (t : URDFPropertyTree) (S par : Nat) (n m pn : String) :
    (afterJointSteps (afterLinkSteps t S n) t.items.length par m pn n).items.length =
      t.items.length + 2 := by
  simp [afterJointSteps, afterLinkSteps, length_assignJoint, pushChild_length]

theorem afterJointSteps_children (t : URDFPropertyTree) (S par : Nat) (n m pn : String)
    (hS : S < t.items.length) (hpar : par < t.items.length) (hne : par ≠ S) (x : Nat)
    (hx : x < t.items.length) :
    childrenOf (afterJointSteps (afterLinkSteps t S n) t.items.length par m pn n).items x =
      if x = S then childrenOf t.items S ++ [t.items.length]
      else if x = par then childrenOf t.items par ++ [t.items.length + 1]
      else childrenOf t.items x := by
  have hlen3 : (afterLinkSteps t S n).items.length = t.items.length + 1 := by
    simp [afterLinkSteps, pushChild_length]
  simp only [afterJointSteps]
  rw [childrenOf_assignJoint,
    pushChild_children _ _ rfl par (by omega) x (by omega), hlen3]
  have h3 : ∀ y, y < t.items.length → childrenOf (afterLinkSteps t S n).items y =
      if y = S then childrenOf t.items S ++ [t.items.length] else childrenOf t.items y := by
    intro y hy
    exact pushChild_children t.items _ rfl S hS y (by omega)
  rw [h3 x hx, h3 par hpar]
  by_cases hxS : x = S
  · subst hxS
    have : ¬ x = par := fun e => hne e.symm
    simp [this]
  · by_cases hxp : x = par
    · subst hxp
      simp [hxS]
    · simp [hxS, hxp]

theorem afterJointSteps_inv (t : URDFPropertyTree) (S par : Nat) (sit : QTreeWidgetItem)
    (n m pn : String) (hinv : AddInv t) (hS : t.items[S]? = some sit)
    (hty : sit.type = ItemType.Link) (hpar : par < t.items.length)
    (hres : on_addActionTriggered S t =
      some (afterJointSteps (afterLinkSteps t S n) t.items.length par m pn n)) :
    AddInv (afterJointSteps (afterLinkSteps t S n) t.items.length par m pn n) := by
  obtain ⟨hN, ⟨r, lr, jr, hr, hrty, hlr, hlrty, hlrpar, hjr, hjrty⟩, huniq, hlinks⟩ := hinv
  have hSlt : S < t.items.length := (List.getElem?_eq_some.1 hS).1
  have hcore := afterJointSteps_core t S par n m pn
  have hlen := afterJointSteps_length t S par n m pn
  obtain ⟨L, hL, hLty, hLlink, hLpar, _, hLaj⟩ := afterJointSteps_link t S par n m pn hSlt hpar
  have hJ := afterJointSteps_joint t S par n m pn hpar
  generalize ht' : afterJointSteps (afterLinkSteps t S n) t.items.length par m pn n = t' at *
  have hroot' : t'.root_ = t.root_ := by rw [← ht']; rfl
  have hlroot' : t'.link_root_ = t.link_root_ := by rw [← ht']; rfl
  have hjroot' : t'.joint_root_ = t.joint_root_ := by rw [← ht']; rfl
  have hnames' : t'.link_names_ = t.link_names_ ++ [n] := by rw [← ht']; rfl
  have hmem' : t'.memory = t.memory ++
      [{ name := m, parent_link_name := pn, child_link_name := n }] := by rw [← ht']; rfl
  have hgetroot' : t'.model_.getRoot = t.model_.getRoot := by rw [← ht']; rfl
  have old : ∀ (i : Nat) (it : QTreeWidgetItem), t.items[i]? = some it →
      ∃ it' : QTreeWidgetItem, t'.items[i]? = some it' ∧
      it'.type = it.type ∧ it'.text = it.text ∧ it'.par = it.par ∧ it'.link = it.link ∧
      it'.assigned_joint = it.assigned_joint ∧ it'.joint = it.joint := by
    intro i it hi
    exact getElem?_of_map_core _ _ i it (hcore i (List.getElem?_eq_some.1 hi).1) hi
  have cases3 : ∀ (i : Nat) (it' : QTreeWidgetItem), t'.items[i]? = some it' →
      (∃ it : QTreeWidgetItem, t.items[i]? = some it ∧ it'.type = it.type ∧ it'.par = it.par ∧
        it'.link = it.link ∧ it'.assigned_joint = it.assigned_joint) ∨
      (i = t.items.length ∧ it' = L) ∨ (i = t.items.length + 1 ∧ it'.type = ItemType.Joint) := by
    intro i it' hi
    have hilt : i < t.items.length + 2 := by
      rw [← hlen]; exact (List.getElem?_eq_some.1 hi).1
    by_cases h1 : i < t.items.length
    · obtain ⟨it, hit⟩ : ∃ it, t.items[i]? = some it :=
        ⟨_, List.getElem?_eq_getElem h1⟩
      obtain ⟨it2, hit2, e1, _, e3, e4, e5, _⟩ := old i it hit
      rw [hi] at hit2
      injection hit2 with hit2
      subst hit2
      exact Or.inl ⟨it, hit, e1, e3, e4, e5⟩
    · by_cases h2 : i = t.items.length
      · subst h2
        rw [hL] at hi
        injection hi with hi
        exact Or.inr (Or.inl ⟨rfl, hi.symm⟩)
      · have h3 : i = t.items.length + 1 := by omega
        subst h3
        rw [hJ] at hi
        injection hi with hi
        subst hi
        exact Or.inr (Or.inr ⟨rfl, rfl⟩)
  refine ⟨namesInv_add S t t' hN hres, ?_, ?_, ?_⟩
  · obtain ⟨r', hr', e1, _⟩ := old _ _ hr
    obtain ⟨lr', hlr', e2, _, e3, _⟩ := old _ _ hlr
    obtain ⟨jr', hjr', e4, _⟩ := old _ _ hjr
    refine ⟨r', lr', jr', by rw [hroot']; exact hr', by rw [e1]; exact hrty,
      by rw [hlroot']; exact hlr', by rw [e2]; exact hlrty,
      by rw [e3, hroot']; exact hlrpar, by rw [hjroot']; exact hjr', by rw [e4]; exact hjrty⟩
  · intro i it' hi hity
    rcases cases3 i it' hi with ⟨it, hit, e1, _⟩ | ⟨_, e⟩ | ⟨_, e⟩
    · rw [hlroot']
      exact huniq i it hit (by rw [← e1]; exact hity)
    · rw [e, hLty] at hity; cases hity
    · rw [e] at hity; cases hity
  · intro i it' hi hity
    rcases cases3 i it' hi with ⟨it, hit, e1, e2, e3, e4⟩ | ⟨_, e⟩ | ⟨_, e⟩
    · obtain ⟨data, p, pit, hdata, hmemb, hpar0, hp, hcase⟩ :=
        hlinks i it hit (by rw [← e1]; exact hity)
      obtain ⟨pit', hp', ept, _⟩ := old p pit hp
      refine ⟨data, p, pit', by rw [e3]; exact hdata, ?_, by rw [e2]; exact hpar0, hp', ?_⟩
      · rw [hnames']; exact List.mem_append_left _ hmemb
      · rcases hcase with ⟨c1, c2⟩ | ⟨c1, c2, aj, ajit, jp, jd, c3, c4, c5, c6, c7, c8⟩
        · exact Or.inl ⟨by rw [ept]; exact c1, by rw [hgetroot']; exact c2⟩
        · obtain ⟨ajit', haj', eaj, _, _, _, _, eajj⟩ := old aj ajit c4
          refine Or.inr ⟨by rw [ept]; exact c1, by rw [hnames']; simp; omega,
            aj, ajit', jp, jd, by rw [e4]; exact c3, haj', by rw [eaj]; exact c5,
            by rw [eajj]; exact c6, ?_, c8⟩
          rw [hmem', List.getElem?_append_left (List.getElem?_eq_some.1 c7).1]
          exact c7
    · subst e
      obtain ⟨sit', hS', est, _⟩ := old S sit hS
      have hne : t.link_names_ ≠ [] := by
        obtain ⟨data, _, _, _, hmemb, _⟩ := hlinks S sit hS hty
        intro h0; rw [h0] at hmemb; simp at hmemb
      have hlen2 : 1 ≤ t.link_names_.length := by
        cases hl : t.link_names_ with
        | nil => exact absurd hl hne
        | cons a b => simp
      refine ⟨urdf.Link.mk n [] [], S, sit', hLlink, ?_, hLpar, hS', Or.inr
        ⟨by rw [est, hty]; decide, by rw [hnames']; simp; omega,
         t.items.length + 1, _, t.memory.length,
         ({ name := m, parent_link_name := pn, child_link_name := n } : urdf.Joint),
         hLaj, hJ, rfl, rfl, ?_, rfl⟩⟩
      · rw [hnames']; simp [urdf.Link.name]
      · rw [hmem']; simp
    · rw [e] at hity; cases hity

theorem afterFirstLink_inv (t : URDFPropertyTree) (n : String) (hinv : AddInv t)
    (hnames : t.link_names_ = [])
    (hres : on_addActionTriggered t.link_root_ t = some (afterFirstLink t n)) :
    AddInv (afterFirstLink t n) := by
  obtain ⟨hN, ⟨r, lr, jr, hr, hrty, hlr, hlrty, hlrpar, hjr, hjrty⟩, huniq, hlinks⟩ := hinv
  have hlrlt : t.link_root_ < t.items.length := (List.getElem?_eq_some.1 hlr).1
  have hcore : ∀ i, i < t.items.length →
      (((afterFirstLink t n).items)[i]?).map core = (t.items[i]?).map core := by
    intro i hi
    exact pushChild_core t.items _ rfl t.link_root_ i hi
  have hL : (afterFirstLink t n).items[t.items.length]? =
      some { { newItem ItemType.Link n with link := some (urdf.Link.mk n [] []) } with
        par := some t.link_root_ } := pushChild_new t.items _ rfl t.link_root_ hlrlt
  have hlen : (afterFirstLink t n).items.length = t.items.length + 1 := by
    simp [afterFirstLink, pushChild_length]
  have old : ∀ (i : Nat) (it : QTreeWidgetItem), t.items[i]? = some it →
      ∃ it' : QTreeWidgetItem, (afterFirstLink t n).items[i]? = some it' ∧
      it'.type = it.type ∧ it'.text = it.text ∧ it'.par = it.par ∧ it'.link = it.link ∧
      it'.assigned_joint = it.assigned_joint ∧ it'.joint = it.joint := by
    intro i it hi
    exact getElem?_of_map_core _ _ i it (hcore i (List.getElem?_eq_some.1 hi).1) hi
  have cases2 : ∀ (i : Nat) (it' : QTreeWidgetItem),
      (afterFirstLink t n).items[i]? = some it' →
      (∃ it : QTreeWidgetItem, t.items[i]? = some it ∧ it'.type = it.type) ∨
      (i = t.items.length ∧ it' = { { newItem ItemType.Link n with
          link := some (urdf.Link.mk n [] []) } with par := some t.link_root_ }) := by
    intro i it' hi
    have hilt : i < t.items.length + 1 := by
      rw [← hlen]; exact (List.getElem?_eq_some.1 hi).1
    by_cases h1 : i < t.items.length
    · obtain ⟨it, hit⟩ : ∃ it, t.items[i]? = some it :=
        ⟨_, List.getElem?_eq_getElem h1⟩
      obtain ⟨it2, hit2, e1, _⟩ := old i it hit
      rw [hi] at hit2
      injection hit2 with hit2
      subst hit2
      exact Or.inl ⟨it, hit, e1⟩
    · have h2 : i = t.items.length := by omega
      subst h2
      rw [hL] at hi
      injection hi with hi
      exact Or.inr ⟨rfl, hi.symm⟩
  refine ⟨namesInv_add _ t _ hN hres, ?_, ?_, ?_⟩
  · obtain ⟨r', hr', e1, _⟩ := old _ _ hr
    obtain ⟨lr', hlr', e2, _, e3, _⟩ := old _ _ hlr
    obtain ⟨jr', hjr', e4, _⟩ := old _ _ hjr
    exact ⟨r', lr', jr', hr', by rw [e1]; exact hrty, hlr', by rw [e2]; exact hlrty,
      by rw [e3]; exact hlrpar, hjr', by rw [e4]; exact hjrty⟩
  · intro i it' hi hity
    rcases cases2 i it' hi with ⟨it, hit, e1⟩ | ⟨_, e⟩
    · exact huniq i it hit (by rw [← e1]; exact hity)
    · rw [e] at hity; cases hity
  · intro i it' hi hity
    rcases cases2 i it' hi with ⟨it, hit, e1⟩ | ⟨_, e⟩
    · obtain ⟨data, _, _, _, hmemb, _⟩ := hlinks i it hit (by rw [← e1]; exact hity)
      rw [hnames] at hmemb
      simp at hmemb
    · subst e
      obtain ⟨lr', hlr', e2, _⟩ := old _ _ hlr
      exact ⟨urdf.Link.mk n [] [], t.link_root_, lr', rfl, by simp [afterFirstLink, urdf.Link.name],
        rfl, hlr', Or.inl ⟨by rw [e2]; exact hlrty, rfl⟩⟩

theorem addInv_new : AddInv new := by
  refine ⟨namesInv_new, ⟨_, _, _, rfl, rfl, rfl, rfl, rfl, rfl, rfl⟩, ?_, ?_⟩
  · intro i it hi hty
    have hlt : i < 3 := (List.getElem?_eq_some.1 hi).1
    interval_cases i
    · simp [new, initializeItems, addChild, newItem] at hi; subst hi; cases hty
    · rfl
    · simp [new, initializeItems, addChild, newItem] at hi; subst hi; cases hty
  · intro i it hi hty
    have hlt : i < 3 := (List.getElem?_eq_some.1 hi).1
    interval_cases i <;>
      (simp [new, initializeItems, addChild, newItem] at hi; subst hi; cases hty)

/-- The add on the empty link-group root. -/
theorem add_first (t : URDFPropertyTree) (hinv : AddInv t) (hnames : t.link_names_ = []) :
    on_addActionTriggered t.link_root_ t = some (afterFirstLink t "link_1") ∧
      AddInv (afterFirstLink t "link_1") := by
  have hinv0 := hinv
  obtain ⟨hN, ⟨r, lr, jr, hr, hrty, hlr, hlrty, hlrpar, hjr, hjrty⟩, huniq, hlinks⟩ := hinv
  have hlinks0 : t.model_.links_ = [] := by
    have := hN.1
    unfold modelLinkNames at this
    rw [hnames] at this
    simpa using this
  have hn : getValidName "link_" t.link_names_ = some "link_1" := by rw [hnames]; rfl
  have hres := on_add_first_eq t t.root_ lr r "link_1" hlr hlrpar hr
    (by rw [hrty]; decide) hn hnames hlinks0
  exact ⟨hres, afterFirstLink_inv t "link_1" hinv0 hnames hres⟩

/-- The add on a link item. -/
theorem add_on_link (t : URDFPropertyTree) (S : Nat) (sit : QTreeWidgetItem)
    (hinv : AddInv t) (hS : t.items[S]? = some sit) (hty : sit.type = ItemType.Link) :
    ∃ t' data jp, sit.link = some data ∧ on_addActionTriggered S t = some t' ∧
      AddedLinkAndJoint t t' S data.name jp ∧
      ((isLinkRoot t sit.par = some true ∧ jp = t.joint_root_) ∨
       (isLinkRoot t sit.par = some false ∧ 2 ≤ t.link_names_.length ∧
          sit.assigned_joint = some jp)) ∧
      AddInv t' := by
  have hinv0 := hinv
  obtain ⟨hN, ⟨r, lr, jr, hr, hrty, hlr, hlrty, hlrpar, hjr, hjrty⟩, huniq, hlinks⟩ := hinv
  obtain ⟨data, p, pit, hdata, hmemb, hpar, hp, hcase⟩ := hlinks S sit hS hty
  obtain ⟨n, hn⟩ := getValidName_isSome "link_" t.link_names_
  obtain ⟨m, hm⟩ := getValidName_isSome "joint_" t.joint_names_
  obtain ⟨hk, _, hjk, _⟩ := hN
  have hfresh : n ∉ t.model_.links_.map (fun e => e.1) := by
    unfold modelLinkNames at hk; rw [hk]; exact getValidName_not_mem _ _ _ hn
  have hfreshj : m ∉ t.model_.joints_.map (fun e => e.1) := by
    unfold modelJointNames at hjk; rw [hjk]; exact getValidName_not_mem _ _ _ hm
  have hne : t.model_.links_ ≠ [] := by
    intro h0
    unfold modelLinkNames at hk
    rw [h0] at hk
    rw [← hk] at hmemb
    simp at hmemb
  have hSlt : S < t.items.length := (List.getElem?_eq_some.1 hS).1
  have key : ∀ (par pj : Nat) (pari : QTreeWidgetItem) (rootl : urdf.Link) (pjd : urdf.Joint)
      (pn : String), t.items[par]? = some pari → pari.type ≠ ItemType.Link → pn = data.name →
      ((pit.type = ItemType.LinkRoot ∧ par = t.joint_root_ ∧
        pari.type = ItemType.JointRoot ∧ t.model_.getRoot = some rootl ∧ pn = rootl.name) ∨
      (pit.type ≠ ItemType.LinkRoot ∧ 2 ≤ t.link_names_.length ∧
        sit.assigned_joint = some par ∧ pari.type = ItemType.Joint ∧ pari.joint = some pj ∧
        t.memory[pj]? = some pjd ∧ pn = pjd.child_link_name)) →
      ∃ t', on_addActionTriggered S t = some t' ∧ AddedLinkAndJoint t t' S data.name par ∧
        AddInv t' := by
    intro par pj pari rootl pjd pn hpari hparty hpn hc
    have hparlt : par < t.items.length := (List.getElem?_eq_some.1 hpari).1
    have hparne : par ≠ S := by
      intro e; subst e; rw [hS] at hpari; injection hpari with e; subst e; exact hparty hty
    have hres := on_add_link_eq t S p par pj sit pit pari rootl pjd n m pn hS hty hpar hp hn hm
      hfresh hne hpari hc
    refine ⟨_, hres, ?_, afterJointSteps_inv t S par sit n m pn hinv0 hS hty hparlt hres⟩
    refine ⟨n, m, hn, hm, rfl, rfl, ?_, ?_, ?_, afterJointSteps_length t S par n m pn,
      afterJointSteps_link t S par n m pn hSlt hparlt, ?_, ?_, ?_⟩
    · simp only [afterJointSteps, afterLinkSteps]
      exact stdInsert_fresh _ _ _ hfreshj
    · simp [afterJointSteps, afterLinkSteps]
    · simp [afterJointSteps, afterLinkSteps, hpn]
    · rw [afterJointSteps_children t S par n m pn hSlt hparlt hparne S hSlt]
      simp
    · exact ⟨_, afterJointSteps_joint t S par n m pn hparlt, rfl, rfl, rfl, rfl⟩
    · rw [afterJointSteps_children t S par n m pn hSlt hparlt hparne par hparlt]
      simp [hparne]
  rcases hcase with ⟨c1, c2⟩ | ⟨c1, c2, aj, ajit, jp, jd, c3, c4, c5, c6, c7, c8⟩
  · cases hroot : t.model_.getRoot with
    | none => rw [hroot] at c2; simp at c2
    | some rootl =>
      rw [hroot] at c2
      simp only [Option.map_some', Option.some.injEq] at c2
      obtain ⟨t', h1, h2, h3⟩ := key t.joint_root_ 0 jr rootl
        { name := "", parent_link_name := "", child_link_name := "" } data.name hjr
        (by rw [hjrty]; decide) rfl (Or.inl ⟨c1, rfl, hjrty, hroot, c2.symm⟩)
      refine ⟨t', data, t.joint_root_, hdata, h1, h2, Or.inl ⟨?_, rfl⟩, h3⟩
      simp [isLinkRoot, typeOf, hpar, hp, c1]
  · obtain ⟨t', h1, h2, h3⟩ := key aj jp ajit (urdf.Link.mk "" [] []) jd data.name c4
      (by rw [c5]; decide) rfl (Or.inr ⟨c1, c2, c3, c5, c6, c7, c8.symm⟩)
    refine ⟨t', data, aj, hdata, h1, h2, Or.inr ⟨?_, c2, c3⟩, h3⟩
    simp [isLinkRoot, typeOf, hpar, hp, c1]

theorem addInv_of_reachable (t : URDFPropertyTree) (h : AddReachable t) : AddInv t := by
  induction h with
  | init => exact addInv_new
  | step t t1 sel _ hoff hres ih =>
    unfold addOffered at hoff
    cases hsel : t.items[sel]? with
    | none => rw [hsel] at hoff; simp at hoff
    | some sit =>
      rw [hsel] at hoff
      simp only [Bool.or_eq_true, Bool.and_eq_true, decide_eq_true_eq,
        List.isEmpty_iff] at hoff
      rcases hoff with ⟨hlr, hnames⟩ | hlink
      · have hsel' : sel = t.link_root_ := ih.2.2.1 sel sit hsel hlr
        subst hsel'
        obtain ⟨h1, h2⟩ := add_first t ih hnames
        rw [h1] at hres
        injection hres with hres
        rw [← hres]; exact h2
      · obtain ⟨t', _, _, _, h1, _, _, h2⟩ := add_on_link t sel sit ih hsel hlink
        rw [h1] at hres
        injection hres with hres
        rw [← hres]; exact h2

theorem afterFirstLink_added (t : URDFPropertyTree) (lri : QTreeWidgetItem)
    (hlr : t.items[t.link_root_]? = some lri) :
    AddedFirstLink t (afterFirstLink t "link_1") := by
  have hlrlt : t.link_root_ < t.items.length := (List.getElem?_eq_some.1 hlr).1
  refine ⟨rfl, rfl, rfl, rfl, by simp [afterFirstLink, pushChild_length],
    ⟨_, pushChild_new t.items _ rfl t.link_root_ hlrlt, rfl, rfl, rfl, rfl⟩, ?_⟩
  have := pushChild_children t.items
    { newItem ItemType.Link "link_1" with link := some (urdf.Link.mk "link_1" [] []) } rfl
    t.link_root_ hlrlt t.link_root_ (by omega)
  simpa [afterFirstLink] using this

theorem oneLink_eq : on_addActionTriggered 1 new = some oneLink :=
  eq_some_getD _ new (by decide)

theorem twoLinks_eq : on_addActionTriggered 3 oneLink = some twoLinks :=
  eq_some_getD _ new (by decide)

theorem twoLinks_reachable : AddReachable twoLinks :=
  AddReachable.step oneLink twoLinks 3
    (AddReachable.step new oneLink 1 AddReachable.init (by decide) oneLink_eq)
    (by decide) twoLinks_eq

/-- C7: in every state reached from the constructor state by adds (on selections for which Add
is offered): the add on the empty link-group root completes and creates one link, the model's
root link, and no joint; the add on a link item `S` completes and creates one link under `S`
and one joint from `S`'s link to the new link, assigned to the new link item, whose item goes
under the joint-group root when `S` is top-level and under `S`'s assigned joint otherwise (and
then there were at least two links).  The three adds of the scenario give `link_1` (root, no
joint), `joint_1` (`link_1` to `link_2`) at the joint-group root, and `joint_2` (`link_2` to
`link_3`) under `joint_1`. -/
theorem addLink_creates_link_and_joint (t : URDFPropertyTree) (h : AddReachable t) :
    (t.link_names_ = [] →
      ∃ t', on_addActionTriggered t.link_root_ t = some t' ∧ AddedFirstLink t t') ∧
    (∀ (S : Nat) (sit : QTreeWidgetItem), t.items[S]? = some sit →
      sit.type = ItemType.Link →
      ∃ t' data jp, sit.link = some data ∧ on_addActionTriggered S t = some t' ∧
        AddedLinkAndJoint t t' S data.name jp ∧
        ((isLinkRoot t sit.par = some true ∧ jp = t.joint_root_) ∨
         (isLinkRoot t sit.par = some false ∧ 2 ≤ t.link_names_.length ∧
            sit.assigned_joint = some jp))) ∧
    ((on_addActionTriggered 1 new).map modelLinkNames = some ["link_1"] ∧
     (on_addActionTriggered 1 new).map (fun s => (s.model_.getRoot).map (fun r => r.name)) =
       some (some "link_1") ∧
     (on_addActionTriggered 1 new).map modelJointNames = some [] ∧
     (on_addActionTriggered 3 oneLink).map
         (fun s => s.memory.map (fun j => (j.name, j.parent_link_name, j.child_link_name))) =
       some [("joint_1", "link_1", "link_2")] ∧
     (on_addActionTriggered 3 oneLink).map (fun s => childrenOf s.items s.joint_root_) =
       some [5] ∧
     (on_addActionTriggered 3 oneLink).map (fun s => jointNameOf s 5) =
       some (some "joint_1") ∧
     (on_addActionTriggered 4 twoLinks).map
         (fun s => s.memory.map (fun j => (j.name, j.parent_link_name, j.child_link_name))) =
       some [("joint_1", "link_1", "link_2"), ("joint_2", "link_2", "link_3")] ∧
     (on_addActionTriggered 4 twoLinks).map (fun s => childrenOf s.items 5) = some [7] ∧
     (on_addActionTriggered 4 twoLinks).map (fun s => jointNameOf s 7) =
       some (some "joint_2") ∧
     (on_addActionTriggered 4 twoLinks).map (fun s => linkNodeNames s) =
       some ["link_1", "link_2", "link_3"]) := by
  have hinv := addInv_of_reachable t h
  refine ⟨?_, ?_, by decide⟩
  · intro hnames
    obtain ⟨_, ⟨_, lr, _, _, _, hlr, _⟩, _⟩ := hinv
    exact ⟨_, (add_first t (addInv_of_reachable t h) hnames).1, afterFirstLink_added t lr hlr⟩
  · intro S sit hS hty
    obtain ⟨t', data, jp, h1, h2, h3, h4, _⟩ := add_on_link t S sit hinv hS hty
    exact ⟨t', data, jp, h1, h2, h3, h4⟩

/-- C7 at the state after two adds, for the add on `link_2` (item 4). -/
theorem addLink_creates_link_and_joint_witness :
    AddReachable twoLinks ∧
    ∃ sit t' data jp, twoLinks.items[4]? = some sit ∧ sit.type = ItemType.Link ∧
      sit.link = some data ∧ on_addActionTriggered 4 twoLinks = some t' ∧
      AddedLinkAndJoint twoLinks t' 4 data.name jp := by
  refine ⟨twoLinks_reachable, ?_⟩
  have hsit : twoLinks.items[4]? = some (twoLinks.items[4]?.getD (newItem ItemType.Plain "")) :=
    eq_some_getD _ _ (by decide)
  have hty : (twoLinks.items[4]?.getD (newItem ItemType.Plain "")).type = ItemType.Link := by
    decide
  obtain ⟨t', data, jp, h1, h2, h3, _⟩ :=
    (addLink_creates_link_and_joint twoLinks twoLinks_reachable).2.1 4 _ hsit hty
  exact ⟨_, t', data, jp, hsit, hty, h1, h2, h3⟩

/-! ### Population from a model -/

/-- A walk from `r` only looks at the child lists of the items it meets. -/
theorem subtree_congr (items items' : List QTreeWidgetItem) (fuel : Nat) :
    ∀ r, (∀ x ∈ subtree items fuel r, childrenOf items' x = childrenOf items x) →
      subtree items' fuel r = subtree items fuel r := by
  induction fuel with
  | zero => intro r _; rfl
  | succ f ih =>
    intro r h
    have hr : childrenOf items' r = childrenOf items r := h r (by simp [subtree])
    simp only [subtree, hr]
    congr 1
    apply List.flatMap_congr
    intro c hc
    apply ih
    intro x hx
    apply h
    simp only [subtree, List.mem_cons, List.mem_flatMap]
    exact Or.inr ⟨c, hc, hx⟩

theorem linkNameOf_of_tag (t t1 : URDFPropertyTree) (i : Nat)
    (h : (t1.items[i]?).map tag = (t.items[i]?).map tag) :
    linkNameOf t1 i = linkNameOf t i := by
  unfold linkNameOf
  cases h1 : t1.items[i]? with
  | none =>
    rw [h1] at h
    cases h0 : t.items[i]? with
    | none => rfl
    | some b => rw [h0] at h; simp at h
  | some a =>
    rw [h1] at h
    cases h0 : t.items[i]? with
    | none => rw [h0] at h; simp at h
    | some b =>
      rw [h0] at h
      simp only [Option.map_some', Option.some.injEq, tag, Prod.mk.injEq] at h
      simp only [h.1, h.2.1]

theorem pushChild_tag (items : List QTreeWidgetItem) (nw : QTreeWidgetItem)
    (hn : nw.par = none) (p i : Nat) (hi : i < items.length) :
    ((pushChild items nw p)[i]?).map tag = (items[i]?).map tag :=
  pushChild_old tag (fun _ _ => rfl) (fun _ _ => rfl) items nw hn p i hi

theorem pushChild_children_new (items : List QTreeWidgetItem) (nw : QTreeWidgetItem)
    (hn : nw.par = none) (p : Nat) (hp : p < items.length) :
    childrenOf (pushChild items nw p) items.length = nw.children := by
  simp only [childrenOf, pushChild_new items nw hn p hp]

theorem lookup_qmapInsert (m : List (String × Nat)) (k : String) (v : Nat) (name : String)
    (h : name = k ∨ (m.lookup name).isSome = true) :
    ((qmapInsert m k v).lookup name).isSome = true := by
  unfold qmapInsert
  by_cases hk : name = k
  · subst hk; simp [List.lookup]
  · rcases h with h | h
    · exact absurd h hk
    · have hb : (name == k) = false := by simpa using hk
      simp only [List.lookup, hb]
      rw [lookup_isSome_iff] at h ⊢
      rcases List.mem_map.1 h with ⟨e, he, rfl⟩
      exact List.mem_map.2 ⟨e, List.mem_filter.2 ⟨he, by simpa using hk⟩, rfl⟩

theorem grown_trans (t t1 t2 : URDFPropertyTree) (p s1 s2 : Nat)
    (h1 : Grown t t1 p s1) (h2 : Grown t1 t2 p s2) : Grown t t2 p (s1 + s2) := by
  obtain ⟨a1, a2, a3⟩ := h1
  obtain ⟨b1, b2, b3⟩ := h2
  refine ⟨by omega, ?_, ?_⟩
  · intro i hi hne
    rw [b2 i (by omega) hne, a2 i hi hne]
  · intro i hi
    rw [b3 i (by omega), a3 i hi]

mutual
theorem linkPost (l : urdf.Link) (p : Nat) (t : URDFPropertyTree) (hp : p < t.items.length) :
    ∃ t1, addItemRecursivelyLink l p t = some t1 ∧ LinkPost t t1 p l := by
  match l with
  | urdf.Link.mk name cj cl =>
    obtain ⟨pit, hpit⟩ : ∃ pit, t.items[p]? = some pit := ⟨_, List.getElem?_eq_getElem hp⟩
    have hA := addLinkTreeItem_some p (urdf.Link.mk name cj cl) t pit hpit
    obtain ⟨t1, ht1⟩ : ∃ t1 : URDFPropertyTree, t1 = { t with
        items := pushChild t.items
          { newItem ItemType.Link (urdf.Link.mk name cj cl).name with
            link := some (urdf.Link.mk name cj cl) } p,
        links_ := qmapInsert t.links_ (urdf.Link.mk name cj cl).name t.items.length,
        link_names_ := t.link_names_ ++ [(urdf.Link.mk name cj cl).name] } := ⟨_, rfl⟩
    rw [← ht1] at hA
    have hlen1 : t1.items.length = t.items.length + 1 := by
      rw [ht1]; exact pushChild_length _ _ _
    obtain ⟨t2, hB, ⟨g1, g2, g3⟩, hrest, hmem, hjn, ⟨starts, hs1, hs2⟩, hnm, hln, hlk⟩ :=
      linksPost cl t.items.length t1 (by omega)
    refine ⟨t2, ?_, ⟨?_, ?_, ?_⟩, ?_, ?_, ?_, ?_, ?_, ?_, ?_, ?_⟩
    · unfold addItemRecursivelyLink
      rw [hA]
      exact hB
    · simp only [linkSize]; omega
    · intro i hi hne
      rw [g2 i (by omega) (by omega), ht1]
      simp only
      rw [pushChild_children _ _ rfl p hp i (by omega), if_neg hne]
    · intro i hi
      rw [g3 i (by omega), ht1]
      exact pushChild_tag _ _ rfl p i hi
    · obtain ⟨r1, r2, r3, r4⟩ := hrest
      exact ⟨by rw [r1, ht1], by rw [r2, ht1], by rw [r3, ht1], by rw [r4, ht1]⟩
    · rw [hmem, ht1]
    · rw [hjn, ht1]
    · rw [g2 p (by omega) (by omega), ht1]
      simp only
      rw [pushChild_children _ _ rfl p hp p (by omega), if_pos rfl]
    · intro f hf
      simp only [linkSize] at hf
      obtain ⟨f', rfl⟩ : ∃ f', f = f' + 1 := ⟨f - 1, by omega⟩
      have hnew : childrenOf t1.items t.items.length = [] := by
        rw [ht1]; exact pushChild_children_new _ _ rfl p hp
      simp only [subtree, hs1, hnew, List.nil_append, linkSize]
      rw [hs2 f' (by omega), hlen1, Nat.add_comm 1, List.range'_succ]
    · simp only [linkSize, linkNames]
      rw [Nat.add_comm 1, List.range'_succ]
      simp only [List.map_cons]
      rw [← hlen1, hnm]
      congr 1
      rw [linkNameOf_of_tag t1 t2 t.items.length (g3 t.items.length (by omega))]
      unfold linkNameOf
      rw [ht1]
      simp only
      rw [pushChild_new _ _ rfl p hp]
      rfl
    · rw [hln, ht1]
      simp [linkNames, urdf.Link.name]
    · intro nm hnm'
      apply hlk
      simp only [linkNames, List.mem_cons] at hnm'
      rcases hnm' with (h1 | h1) | h1
      · right
        rw [ht1]
        exact lookup_qmapInsert _ _ _ _ (Or.inl h1)
      · exact Or.inl h1
      · right
        rw [ht1]
        exact lookup_qmapInsert _ _ _ _ (Or.inr h1)
theorem linksPost (cl : List urdf.Link) (p : Nat) (t : URDFPropertyTree)
    (hp : p < t.items.length) :
    ∃ t1, addItemRecursivelyLinks cl p t = some t1 ∧ LinksPost t t1 p cl := by
  match cl with
  | [] =>
    refine ⟨t, by simp [addItemRecursivelyLinks], ⟨by simp [linkSizes], fun _ _ _ => rfl,
      fun _ _ => rfl⟩, ⟨rfl, rfl, rfl, rfl⟩, rfl, rfl, ⟨[], by simp, ?_⟩, ?_, ?_, ?_⟩
    · intro f _; simp [linkSizes]
    · simp [linkSizes, linkNamesList]
    · simp [linkNamesList]
    · intro nm h
      simp only [linkNamesList, List.not_mem_nil, false_or] at h
      exact h
  | c :: cs =>
    obtain ⟨t1, hA, hG1, hrest1, hmem1, hjn1, hch1, hsub1, hnm1, hln1, hlk1⟩ :=
      linkPost c p t hp
    have hlen1 : t1.items.length = t.items.length + linkSize c := hG1.1
    obtain ⟨t2, hB, hG2, hrest2, hmem2, hjn2, ⟨starts, hs1, hs2⟩, hnm2, hln2, hlk2⟩ :=
      linksPost cs p t1 (by omega)
    refine ⟨t2, ?_, ?_, ?_, ?_, ?_, ⟨t.items.length :: starts, ?_, ?_⟩, ?_, ?_, ?_⟩
    · rw [addItemRecursivelyLinks, hA]
      exact hB
    · simp only [linkSizes]
      exact grown_trans t t1 t2 p _ _ hG1 hG2
    · obtain ⟨r1, r2, r3, r4⟩ := hrest1
      obtain ⟨q1, q2, q3, q4⟩ := hrest2
      exact ⟨by rw [q1, r1], by rw [q2, r2], by rw [q3, r3], by rw [q4, r4]⟩
    · rw [hmem2, hmem1]
    · rw [hjn2, hjn1]
    · rw [hs1, hch1]; simp
    · intro f hf
      simp only [linkSizes] at hf
      simp only [List.flatMap_cons, linkSizes]
      rw [hs2 f (by omega), hlen1]
      have hfr : subtree t2.items f t.items.length = subtree t1.items f t.items.length := by
        apply subtree_congr
        intro x hx
        rw [hsub1 f (by omega)] at hx
        rw [List.mem_range'_1] at hx
        exact hG2.2.1 x (by omega) (by omega)
      rw [hfr, hsub1 f (by omega), Nat.add_comm (linkSize c), ← List.range'_append_1]
    · simp only [linkSizes, linkNamesList, List.map_append]
      rw [Nat.add_comm (linkSize c), ← List.range'_append_1, List.map_append, ← hlen1, hnm2]
      congr 1
      rw [← hnm1]
      apply List.map_congr_left
      intro i hi
      rw [List.mem_range'_1] at hi
      exact linkNameOf_of_tag t1 t2 i (hG2.2.2 i (by omega))
    · rw [hln2, hln1]
      simp [linkNamesList]
    · intro nm h
      apply hlk2
      simp only [linkNamesList, List.mem_append] at h
      rcases h with (h | h) | h
      · exact Or.inr (hlk1 nm (Or.inl h))
      · exact Or.inl h
      · exact Or.inr (hlk1 nm (Or.inr h))
end

theorem jointNameOf_of_tag (t t1 : URDFPropertyTree) (i : Nat)
    (h : (t1.items[i]?).map tag = (t.items[i]?).map tag) (hmem : t1.memory = t.memory) :
    jointNameOf t1 i = jointNameOf t i := by
  unfold jointNameOf
  rw [hmem]
  cases h1 : t1.items[i]? with
  | none =>
    rw [h1] at h
    cases h0 : t.items[i]? with
    | none => rfl
    | some b => rw [h0] at h; simp at h
  | some a =>
    rw [h1] at h
    cases h0 : t.items[i]? with
    | none => rw [h0] at h; simp at h
    | some b =>
      rw [h0] at h
      simp only [Option.map_some', Option.some.injEq, tag, Prod.mk.injEq] at h
      simp only [h.1, h.2.2]

theorem writeParentLinkName_same (mem : List urdf.Joint) (j : Nat) (jd : urdf.Joint)
    (h : mem[j]? = some jd) : writeParentLinkName mem j jd.parent_link_name = mem := by
  unfold writeParentLinkName
  apply List.ext_getElem?
  intro i
  rw [List.getElem?_modify]
  by_cases hji : j = i
  · subst hji
    rw [h]
    simp
  · simp [hji]

theorem assignJoint_tag (items : List QTreeWidgetItem) (l j i : Nat) :
    ((assignJoint items l j)[i]?).map tag = (items[i]?).map tag :=
  assignJoint_field tag (fun _ _ => rfl) items l j i

theorem lookup_of_isSome {α : Type} (m : List (String × α)) (k : String)
    (h : (m.lookup k).isSome = true) : ∃ v, m.lookup k = some v :=
  Option.isSome_iff_exists.1 h

theorem range'_split (n a b : Nat) :
    List.range' n (a + b) = List.range' n a ++ List.range' (n + a) b := by
  rw [Nat.add_comm a b, List.range'_append_1]

theorem jointsBelowList_cons_length (j : Nat) (js : List Nat) (c : urdf.Link)
    (cs : List urdf.Link) :
    (jointsBelowList (j :: js) (c :: cs)).length =
      (j :: jointsBelow c).length + (jointsBelowList js cs).length := by
  simp [jointsBelowList]; omega

mutual
theorem jointPost (c : urdf.Link) (j par fuel : Nat) (jd : urdf.Joint) (t : URDFPropertyTree)
    (hvalid : ValidLink t.memory t.model_ c) (hj : t.memory[j]? = some jd)
    (hchild : jd.child_link_name = c.name) (hpar : ParentOK t par jd.parent_link_name)
    (hlinks : ∀ name ∈ linkNames c, (t.links_.lookup name).isSome = true)
    (hfuel : linkSize c ≤ fuel) :
    ∃ t1, addItemRecursivelyJoint fuel j (some par) t = some t1 ∧
      JointPost t t1 par (j :: jointsBelow c) := by
  match c with
  | urdf.Link.mk cname cj cl =>
    simp only [linkSize] at hfuel
    obtain ⟨f', rfl⟩ : ∃ f', fuel = f' + 1 := ⟨fuel - 1, by omega⟩
    simp only [ValidLink] at hvalid
    obtain ⟨hget, hkids⟩ := hvalid
    have hcname : (urdf.Link.mk cname cj cl).name = cname := rfl
    rw [hcname] at hchild
    obtain ⟨pari, hpari, hpcase⟩ := hpar
    have hparlt : par < t.items.length := (List.getElem?_eq_some.1 hpari).1
    -- the item step
    obtain ⟨t1, ht1⟩ : ∃ t1 : URDFPropertyTree, t1 = { t with
        items := pushChild t.items
          { newItem ItemType.Joint jd.name with joint := some j } par,
        joints_ := qmapInsert t.joints_ jd.name t.items.length,
        joint_names_ := t.joint_names_ ++ [jd.name] } := ⟨_, rfl⟩
    have hA : addJointTreeItem (some par) j t = some (t.items.length, t1) := by
      rcases hpcase with ⟨hty, rootl, hroot, hrn⟩ | ⟨hty, pj, pjd, hpj, hpjd, hpn⟩
      · rw [addJointTreeItem_root t par j pari jd rootl hpari hty hroot hj, hrn,
          writeParentLinkName_same _ _ _ hj, ht1]
      · rw [addJointTreeItem_under t par j pj pari jd pjd hpari hty hpj hpjd hj, hpn,
          writeParentLinkName_same _ _ _ hj, ht1]
    obtain ⟨li, hli⟩ := lookup_of_isSome _ _ (hlinks cname (by simp [linkNames]))
    obtain ⟨t2, ht2⟩ : ∃ t2 : URDFPropertyTree,
        t2 = { t1 with items := assignJoint t1.items li t.items.length } := ⟨_, rfl⟩
    have hlen1 : t1.items.length = t.items.length + 1 := by
      rw [ht1]; exact pushChild_length _ _ _
    have hlen2 : t2.items.length = t.items.length + 1 := by
      rw [ht2]; simp only; rw [length_assignJoint, hlen1]
    have hmem2 : t2.memory = t.memory := by rw [ht2, ht1]
    have hmodel2 : t2.model_ = t.model_ := by rw [ht2, ht1]
    have hlinks2 : t2.links_ = t.links_ := by rw [ht2, ht1]
    have htag2 : ∀ i : Nat, (t2.items[i]?).map tag = (t1.items[i]?).map tag := by
      intro i; rw [ht2]; exact assignJoint_tag _ _ _ _
    have hch2 : ∀ i, childrenOf t2.items i = childrenOf t1.items i := by
      intro i; rw [ht2]; exact childrenOf_assignJoint _ _ _ _
    have hnew1 : t1.items[t.items.length]? =
        some { { newItem ItemType.Joint jd.name with joint := some j } with
          par := some par } := by
      rw [ht1]; exact pushChild_new t.items _ rfl par hparlt
    obtain ⟨nit, hnit, hnty, hnj⟩ : ∃ nit, t2.items[t.items.length]? = some nit ∧
        nit.type = ItemType.Joint ∧ nit.joint = some j := by
      have h := htag2 t.items.length
      rw [hnew1] at h
      cases h2 : t2.items[t.items.length]? with
      | none => rw [h2] at h; simp at h
      | some nit =>
        rw [h2] at h
        simp only [Option.map_some', Option.some.injEq, tag, Prod.mk.injEq] at h
        exact ⟨nit, rfl, h.1, h.2.2⟩
    have hG12 : Grown t t2 par 1 := by
      refine ⟨hlen2, ?_, ?_⟩
      · intro i hi hne
        rw [hch2, ht1]
        simp only
        rw [pushChild_children _ _ rfl par hparlt i (by omega), if_neg hne]
      · intro i hi
        rw [htag2, ht1]
        exact pushChild_tag _ _ rfl par i hi
    have hvalid2 : ValidChildren t2.memory t2.model_ cname cj cl := by
      rw [hmem2, hmodel2]; exact hkids
    have hpar2 : ParentOK t2 t.items.length cname :=
      ⟨nit, hnit, Or.inr ⟨hnty, j, jd, hnj, by rw [hmem2]; exact hj, hchild⟩⟩
    obtain ⟨t3, hB, hG3, hrest3, hmem3, hln3, hlk3, ⟨starts, hs1, hs2⟩, hnm3, hjn3, hno3⟩ :=
      jointsPost cj cl cname (fun _ => t.items.length) t.items.length f' t2 hvalid2 hpar2
        (fun _ _ => rfl)
        (by
          intro nm hnm
          rw [hlinks2]
          exact hlinks nm (by simp [linkNames, hnm]))
        (by omega)
    have hgetc : t.model_.getLink jd.child_link_name = some (urdf.Link.mk cname cj cl) := by
      rw [hchild]; exact hget
    have hcjs : (urdf.Link.mk cname cj cl).child_joints = cj := rfl
    have hne1 : childrenOf t2.items t.items.length = [] := by
      rw [hch2, ht1]; exact pushChild_children_new _ _ rfl par hparlt
    refine ⟨t3, ?_, ?_, ?_, ?_, ?_, ?_, ?_, ?_, ?_, ?_, ?_⟩
    · simp only [addItemRecursivelyJoint, hj, hgetc, hA]
      have hli1 : t1.links_.lookup jd.child_link_name = some li := by
        rw [ht1, hchild]; exact hli
      simp only [hli1, hcjs]
      rw [← ht2]
      exact hB
    · refine ⟨?_, ?_, ?_⟩
      · simp only [jointsBelow, List.length_cons]
        rw [hG3.1, hlen2]
        omega
      · intro i hi hne
        rw [hG3.2.1 i (by omega) (by omega), hG12.2.1 i hi hne]
      · intro i hi
        rw [hG3.2.2 i (by omega), hG12.2.2 i hi]
    · obtain ⟨r1, r2, r3, r4⟩ := hrest3
      exact ⟨by rw [r1, hmodel2], by rw [r2, ht2, ht1], by rw [r3, ht2, ht1],
        by rw [r4, ht2, ht1]⟩
    · rw [hmem3, hmem2]
    · rw [hln3, ht2, ht1]
    · rw [hlk3, hlinks2]
    · rw [hG3.2.1 par (by omega) (by omega), hch2, ht1]
      simp only
      rw [pushChild_children _ _ rfl par hparlt par (by omega), if_pos rfl]
    · intro f hf
      simp only [jointsBelow, List.length_cons] at hf ⊢
      obtain ⟨f2, rfl⟩ : ∃ f2, f = f2 + 1 := ⟨f - 1, by omega⟩
      simp only [subtree, hs1, hne1, List.nil_append]
      rw [hs2 f2 (by omega), hlen2, List.range'_succ]
    · simp only [jointsBelow, List.length_cons, List.map_cons]
      rw [List.range'_succ, List.map_cons, ← hlen2, hnm3, hmem2]
      congr 1
      rw [jointNameOf_of_tag t2 t3 t.items.length (hG3.2.2 _ (by omega)) hmem3]
      unfold jointNameOf
      rw [hnit]
      simp [hnty, hnj, hmem2, hj]
    · rw [hjn3, hmem2, ht2, ht1]
      simp only [jointsBelow, jointNamesOf, List.filterMap_cons, hj, Option.map_some',
        List.append_assoc, List.singleton_append]
    · intro i hi1 hi2
      simp only [jointsBelow, List.length_cons] at hi2
      by_cases hin : i = t.items.length
      · subst hin
        rw [linkNameOf_of_tag t2 t3 t.items.length (hG3.2.2 _ (by omega))]
        unfold linkNameOf
        rw [hnit]
        simp [hnty]
      · exact hno3 i (by omega) (by omega)
theorem jointsPost (cj : List Nat) (cl : List urdf.Link) (pname : String)
    (sel : URDFPropertyTree → Nat) (par fuel : Nat) (t : URDFPropertyTree)
    (hvalid : ValidChildren t.memory t.model_ pname cj cl) (hpar : ParentOK t par pname)
    (hsel : ∀ s, s.joint_root_ = t.joint_root_ → sel s = par)
    (hlinks : ∀ name ∈ linkNamesList cl, (t.links_.lookup name).isSome = true)
    (hfuel : linkSizes cl ≤ fuel) :
    ∃ t1, forJoints (fun x s => addItemRecursivelyJoint fuel x (some (sel s)) s) cj t =
        some t1 ∧ JointsPost t t1 par (jointsBelowList cj cl) := by
  match cj, cl with
  | [], [] =>
    refine ⟨t, by simp [forJoints], ⟨by simp [jointsBelowList], fun _ _ _ => rfl,
      fun _ _ => rfl⟩, ⟨rfl, rfl, rfl, rfl⟩, rfl, rfl, rfl, ⟨[], by simp, ?_⟩, ?_, ?_, ?_⟩
    · intro f _; simp [jointsBelowList]
    · simp [jointsBelowList]
    · simp [jointsBelowList, jointNamesOf]
    · intro i h1 h2
      simp only [jointsBelowList, List.length_nil] at h2
      omega
  | [], _ :: _ => simp [ValidChildren] at hvalid
  | _ :: _, [] => simp [ValidChildren] at hvalid
  | j :: js, c :: cs =>
    simp only [ValidChildren] at hvalid
    obtain ⟨⟨jd, hj, hpn, hcn, _⟩, hvc, hvs⟩ := hvalid
    simp only [linkSizes] at hfuel
    obtain ⟨t1, hA, hG1, hrest1, hmem1, hln1, hlk1, hch1, hsub1, hnm1, hjn1, hno1⟩ :=
      jointPost c j par fuel jd t hvc hj hcn (by rw [hpn]; exact hpar)
        (fun nm hnm => hlinks nm (by simp [linkNamesList, hnm])) (by omega)
    have hlen1 : t1.items.length = t.items.length + (j :: jointsBelow c).length := hG1.1
    obtain ⟨pari, hpari, hpcase⟩ := hpar
    have hparlt : par < t.items.length := (List.getElem?_eq_some.1 hpari).1
    have hpar1 : ParentOK t1 par pname := by
      have htg := hG1.2.2 par hparlt
      rw [hpari] at htg
      cases h1 : t1.items[par]? with
      | none => rw [h1] at htg; simp at htg
      | some pari1 =>
        rw [h1] at htg
        simp only [Option.map_some', Option.some.injEq, tag, Prod.mk.injEq] at htg
        refine ⟨pari1, h1, ?_⟩
        rcases hpcase with ⟨hty, hr⟩ | ⟨hty, pj, pjd, h2, h3, h4⟩
        · exact Or.inl ⟨by rw [htg.1]; exact hty, by rw [hrest1.1]; exact hr⟩
        · exact Or.inr ⟨by rw [htg.1]; exact hty, pj, pjd, by rw [htg.2.2]; exact h2,
            by rw [hmem1]; exact h3, h4⟩
    obtain ⟨t2, hB, hG2, hrest2, hmem2, hln2, hlk2, ⟨starts, hs1, hs2⟩, hnm2, hjn2, hno2⟩ :=
      jointsPost js cs pname sel par fuel t1
        (by rw [hmem1, hrest1.1]; exact hvs) hpar1
        (fun s hs => hsel s (by rw [hs, hrest1.2.2.2]))
        (fun nm hnm => by rw [hlk1]; exact hlinks nm (by simp [linkNamesList, hnm]))
        (by omega)
    refine ⟨t2, ?_, ?_, ?_, ?_, ?_, ?_, ⟨t.items.length :: starts, ?_, ?_⟩, ?_, ?_, ?_⟩
    · simp only [forJoints]
      rw [hsel t rfl, hA]
      exact hB
    · have := grown_trans t t1 t2 par _ _ hG1 hG2
      simp only [jointsBelowList, List.length_cons, List.length_append] at this ⊢
      rw [show (jointsBelow c).length + (jointsBelowList js cs).length + 1 =
        (jointsBelow c).length + 1 + (jointsBelowList js cs).length by omega]
      exact this
    · obtain ⟨r1, r2, r3, r4⟩ := hrest1
      obtain ⟨q1, q2, q3, q4⟩ := hrest2
      exact ⟨by rw [q1, r1], by rw [q2, r2], by rw [q3, r3], by rw [q4, r4]⟩
    · rw [hmem2, hmem1]
    · rw [hln2, hln1]
    · rw [hlk2, hlk1]
    · rw [hs1, hch1]; simp
    · intro f hf
      rw [jointsBelowList_cons_length] at hf ⊢
      simp only [List.flatMap_cons]
      rw [hs2 f (by omega), hlen1]
      have hfr : subtree t2.items f t.items.length = subtree t1.items f t.items.length := by
        apply subtree_congr
        intro x hx
        rw [hsub1 f (by omega)] at hx
        rw [List.mem_range'_1] at hx
        exact hG2.2.1 x (by omega) (by omega)
      rw [hfr, hsub1 f (by omega), range'_split]
    · rw [jointsBelowList_cons_length, range'_split, List.map_append, ← hlen1, hnm2, hmem1]
      have e1 : (List.range' t.items.length (j :: jointsBelow c).length).map (jointNameOf t2)
          = (List.range' t.items.length (j :: jointsBelow c).length).map (jointNameOf t1) := by
        apply List.map_congr_left
        intro i hi
        rw [List.mem_range'_1] at hi
        exact jointNameOf_of_tag t1 t2 i (hG2.2.2 i (by omega)) hmem2
      rw [e1, hnm1]
      simp [jointsBelowList]
    · rw [hjn2, hjn1, hmem1]
      simp only [jointsBelowList, jointNamesOf, List.append_assoc]
      rw [← List.filterMap_append]
      rfl
    · intro i hi1 hi2
      rw [jointsBelowList_cons_length] at hi2
      by_cases hin : i < t1.items.length
      · rw [linkNameOf_of_tag t1 t2 i (hG2.2.2 i hin)]
        exact hno1 i hi1 (by omega)
      · exact hno2 i (by omega) (by omega)
end

theorem childrenOf_takeChild (items : List QTreeWidgetItem) (p i x : Nat) :
    childrenOf (takeChild items p (some i)).2 x =
      if x = p then (childrenOf items p).eraseIdx i else childrenOf items x := by
  unfold takeChild
  simp only
  cases hc : (childrenOf items p)[i]? with
  | none =>
    simp only
    by_cases hxp : x = p
    · subst hxp
      rw [if_pos rfl, List.eraseIdx_of_length_le]
      exact Nat.le_of_not_lt (fun hlt => by
        rw [List.getElem?_eq_getElem hlt] at hc; simp at hc)
    · rw [if_neg hxp]
  | some c =>
    simp only
    rw [childrenOf_modify]
    by_cases hcx : c = x
    · subst hcx
      simp only [if_true]
      rw [List.getElem?_modify]
      by_cases hpc : p = c
      · subst hpc
        simp only [if_true]
        unfold childrenOf
        cases items[p]? <;> simp
      · have hcp : ¬ c = p := fun e => hpc e.symm
        simp only [hpc, if_false, hcp]
        unfold childrenOf
        cases items[c]? <;> simp
    · simp only [hcx, if_false]
      rw [childrenOf_modify]
      by_cases hpx : p = x
      · subst hpx
        simp only [if_true]
        unfold childrenOf
        cases items[p]? <;> simp
      · have hxp : ¬ x = p := fun e => hpx e.symm
        simp only [hpx, hxp, if_false]

theorem takeChild_tag (items : List QTreeWidgetItem) (p : Nat) (idx : Option Nat) (i : Nat) :
    (((takeChild items p idx).2)[i]?).map tag = (items[i]?).map tag :=
  takeChild_field tag (fun _ _ => rfl) (fun _ _ => rfl) items p idx i

theorem clearLoop_spec (fuel : Nat) :
    ∀ (items : List QTreeWidgetItem) (node : Nat), (childrenOf items node).length ≤ fuel →
      childrenOf (clearLoop fuel node items) node = [] ∧
      (∀ x, x ≠ node → childrenOf (clearLoop fuel node items) x = childrenOf items x) ∧
      (∀ i : Nat, ((clearLoop fuel node items)[i]?).map tag = (items[i]?).map tag) ∧
      (clearLoop fuel node items).length = items.length := by
  induction fuel with
  | zero =>
    intro items node h
    have : childrenOf items node = [] := List.length_eq_zero.1 (by omega)
    exact ⟨this, fun _ _ => rfl, fun _ => rfl, rfl⟩
  | succ f ih =>
    intro items node h
    unfold clearLoop child
    cases hcs : childrenOf items node with
    | nil => simp [hcs]
    | cons c rest =>
      simp only [List.getElem?_cons_zero]
      have hidx : indexOfChild items node c = some 0 := by
        unfold indexOfChild
        simp [hcs]
      have hrm : ∀ x, childrenOf (removeChild items node c) x =
          if x = node then rest else childrenOf items x := by
        intro x
        unfold removeChild
        rw [hidx, childrenOf_takeChild, hcs]
        rfl
      have hlen : (childrenOf (removeChild items node c) node).length ≤ f := by
        rw [hrm, if_pos rfl]
        rw [hcs] at h
        simp at h
        omega
      obtain ⟨h1, h2, h3, h4⟩ := ih (removeChild items node c) node hlen
      refine ⟨h1, ?_, ?_, ?_⟩
      · intro x hx
        rw [h2 x hx, hrm, if_neg hx]
      · intro i
        rw [h3 i]
        unfold removeChild
        exact takeChild_tag _ _ _ _
      · rw [h4]
        unfold removeChild
        exact length_takeChild _ _ _

theorem clear_spec (t : URDFPropertyTree) (hne : t.link_root_ ≠ t.joint_root_) :
    childrenOf (clear t).items t.link_root_ = [] ∧
    childrenOf (clear t).items t.joint_root_ = [] ∧
    (∀ x, x ≠ t.link_root_ → x ≠ t.joint_root_ →
      childrenOf (clear t).items x = childrenOf t.items x) ∧
    (∀ i : Nat, ((clear t).items[i]?).map tag = (t.items[i]?).map tag) ∧
    (clear t).items.length = t.items.length := by
  obtain ⟨a1, a2, a3, a4⟩ := clearLoop_spec (childCount t.items t.link_root_) t.items
    t.link_root_ (Nat.le_refl _)
  obtain ⟨b1, b2, b3, b4⟩ := clearLoop_spec
    (childCount (clearLoop (childCount t.items t.link_root_) t.link_root_ t.items)
      t.joint_root_)
    (clearLoop (childCount t.items t.link_root_) t.link_root_ t.items)
    t.joint_root_ (Nat.le_refl _)
  simp only [clear]
  refine ⟨?_, b1, ?_, ?_, ?_⟩
  · rw [b2 _ hne, a1]
  · intro x h1 h2
    rw [b2 x h2, a2 x h1]
  · intro i
    rw [b3 i, a3 i]
  · rw [b4, a4]

theorem linkNames_length (l : urdf.Link) : (linkNames l).length = linkSize l := by
  have key : (∀ l : urdf.Link, (linkNames l).length = linkSize l) := by
    intro l
    induction l using urdf.Link.rec
      (motive_2 := fun cl => (linkNamesList cl).length = linkSizes cl) with
    | mk n cj cl ih => simp [linkNames, linkSize, ih]; omega
    | nil => simp [linkNamesList, linkSizes]
    | cons c cs ih1 ih2 => simp [linkNamesList, linkSizes, ih1, ih2]
  exact key l

theorem nameOf_none_of_type (t : URDFPropertyTree) (i : Nat) (ty : ItemType)
    (h : (t.items[i]?).map (fun it => it.type) = some ty) (h1 : ty ≠ ItemType.Link)
    (h2 : ty ≠ ItemType.Joint) : linkNameOf t i = none ∧ jointNameOf t i = none := by
  unfold linkNameOf jointNameOf
  cases hi : t.items[i]? with
  | none => simp
  | some it =>
    rw [hi] at h
    simp only [Option.map_some', Option.some.injEq] at h
    subst h
    simp [h1, h2]

theorem jointNameOf_none_of_linkNameOf (t : URDFPropertyTree) (i : Nat) (n : String)
    (h : linkNameOf t i = some n) : jointNameOf t i = none := by
  unfold linkNameOf at h
  unfold jointNameOf
  cases hi : t.items[i]? with
  | none => rfl
  | some it =>
    rw [hi] at h
    simp only at h ⊢
    by_cases hty : it.type = ItemType.Link
    · rw [if_neg (by rw [hty]; decide)]
    · rw [if_neg hty] at h; cases h

theorem type_of_tag (items items' : List QTreeWidgetItem) (i : Nat)
    (h : (items'[i]?).map tag = (items[i]?).map tag) :
    (items'[i]?).map (fun it => it.type) = (items[i]?).map (fun it => it.type) := by
  have := congrArg (Option.map (fun x : ItemType × Option urdf.Link × Option Nat => x.1)) h
  simpa [Option.map_map, Function.comp, tag] using this

theorem filterMap_map_some {α β : Type} (f : α → Option β) (l : List α) (g : List β)
    (h : l.map f = g.map some) : l.filterMap f = g := by
  induction l generalizing g with
  | nil =>
    cases g with
    | nil => rfl
    | cons b g => simp at h
  | cons a l ih =>
    cases g with
    | nil => simp at h
    | cons b g =>
      simp only [List.map_cons, List.cons.injEq] at h
      rw [List.filterMap_cons, h.1]
      simp only
      rw [ih g h.2]

theorem filterMap_none {α β : Type} (f : α → Option β) (l : List α)
    (h : ∀ x ∈ l, f x = none) : l.filterMap f = [] := by
  induction l with
  | nil => rfl
  | cons a l ih =>
    rw [List.filterMap_cons, h a (List.mem_cons_self _ _)]
    exact ih (fun x hx => h x (List.mem_cons_of_mem _ hx))

theorem lt_length_of_map_some {α : Type} (items : List QTreeWidgetItem) (i : Nat)
    (f : QTreeWidgetItem → α) (a : α) (h : (items[i]?).map f = some a) :
    i < items.length := by
  cases hi : items[i]? with
  | none => rw [hi] at h; simp at h
  | some it => exact (List.getElem?_eq_some.1 hi).1

theorem filterMap_congr_map {α β γ : Type} (f : α → Option γ) (g : β → Option γ)
    (l : List α) (js : List β) (h : l.map f = js.map g) :
    l.filterMap f = js.filterMap g := by
  induction l generalizing js with
  | nil =>
    cases js with
    | nil => rfl
    | cons b js => simp at h
  | cons a l ih =>
    cases js with
    | nil => simp at h
    | cons b js =>
      simp only [List.map_cons, List.cons.injEq] at h
      rw [List.filterMap_cons, List.filterMap_cons, h.1, ih js h.2]

/-- Population of a valid hierarchy from a state with the three fixed items in place. -/
theorem populate_spec (t : URDFPropertyTree) (fuel : Nat) (root : urdf.Link)
    (hshell : Shell t) (hroot : t.model_.root_link_ = some root)
    (hvl : ValidLink t.memory t.model_ root) (hfuel : linkSize root ≤ fuel) :
    ∃ t', populateFromRobotModel fuel t = some (true, t') ∧
      linkNodeNames t' = linkNames root ∧ t'.link_names_ = linkNames root ∧
      jointNodeNames t' = jointNamesOf t.memory (jointsBelow root) ∧
      t'.joint_names_ = jointNamesOf t.memory (jointsBelow root) ∧
      t'.model_ = t.model_ ∧ t'.memory = t.memory := by
  match root with
  | urdf.Link.mk n cj cl =>
    obtain ⟨s1, s2, s3, s4, s5, s6, s7⟩ := hshell
    simp only [ValidLink] at hvl
    obtain ⟨hget, hkids⟩ := hvl
    obtain ⟨c1, c2, c3, c4, c5⟩ := clear_spec t s3
    have hlr : t.link_root_ < (clear t).items.length := by
      rw [c5]; exact lt_length_of_map_some _ _ _ _ s6
    have hjr : t.joint_root_ < (clear t).items.length := by
      rw [c5]; exact lt_length_of_map_some _ _ _ _ s7
    have hr : t.root_ < (clear t).items.length := by
      rw [c5]; exact lt_length_of_map_some _ _ _ _ s5
    obtain ⟨t1, hA, hG1, hrest1, hmem1, hjn1, hch1, hsub1, hnm1, hln1, hlk1⟩ :=
      linkPost (urdf.Link.mk n cj cl) t.link_root_ (clear t) hlr
    have hlen1 : t1.items.length = (clear t).items.length + linkSize (urdf.Link.mk n cj cl) :=
      hG1.1
    have htype1 : ∀ i, i < (clear t).items.length →
        (t1.items[i]?).map (fun it => it.type) = (t.items[i]?).map (fun it => it.type) := by
      intro i hi
      rw [type_of_tag _ _ i (hG1.2.2 i hi), type_of_tag _ _ i (c4 i)]
    have hpar1 : ParentOK t1 t.joint_root_ n := by
      have h := htype1 t.joint_root_ hjr
      rw [s7] at h
      cases hi : t1.items[t.joint_root_]? with
      | none => rw [hi] at h; simp at h
      | some it =>
        rw [hi] at h
        simp only [Option.map_some', Option.some.injEq] at h
        exact ⟨it, hi, Or.inl ⟨h, urdf.Link.mk n cj cl, by
          rw [hrest1.1]; exact hroot, rfl⟩⟩
    obtain ⟨t2, hB, hG2, hrest2, hmem2, hln2, hlk2, ⟨starts, hs1, hs2⟩, hnm2, hjn2, hno2⟩ :=
      jointsPost cj cl n (fun s => s.joint_root_) t.joint_root_ fuel t1
        (by rw [hmem1, hrest1.1]; exact hkids) hpar1
        (fun s hs => by simp only; rw [hs, hrest1.2.2.2]; rfl)
        (fun nm hnm => hlk1 nm (Or.inl (by simp [linkNames, hnm])))
        (by simp only [linkSize] at hfuel; omega)
    have hlen2 : t2.items.length = t1.items.length + (jointsBelowList cj cl).length := hG2.1
    have htype2 : ∀ i, i < (clear t).items.length →
        (t2.items[i]?).map (fun it => it.type) = (t.items[i]?).map (fun it => it.type) := by
      intro i hi
      rw [type_of_tag _ _ i (hG2.2.2 i (by omega)), htype1 i hi]
    refine ⟨t2, ?_, ?_, ?_, ?_, ?_, ?_, ?_⟩
    · unfold populateFromRobotModel
      have e1 : (clear t).model_.getRoot = some (urdf.Link.mk n cj cl) := hroot
      have e2 : (clear t).model_.getLink (urdf.Link.mk n cj cl).name =
          some (urdf.Link.mk n cj cl) := hget
      have e3 : URDFPropertyTree.link_root_ (clear t) = t.link_root_ := rfl
      simp only [e1, e2, e3, hA]
      have e4 : (urdf.Link.mk n cj cl).child_joints = cj := rfl
      rw [e4, hB]
    all_goals
      have hroot2 : t2.root_ = t.root_ := by rw [hrest2.2.1, hrest1.2.1]; rfl
      have hchr : childrenOf t2.items t.root_ = [t.link_root_, t.joint_root_] := by
        rw [hG2.2.1 _ (by omega) s2, hG1.2.1 _ hr s1, c3 _ s1 s2, s4]
      have hchl : childrenOf t2.items t.link_root_ = [(clear t).items.length] := by
        rw [hG2.2.1 _ (by omega) s3, hch1, c1]
        rfl
      have hchj : childrenOf t2.items t.joint_root_ = starts := by
        rw [hs1, hG1.2.1 _ hjr (Ne.symm s3), c2]
        rfl
      have hblock1 : ∀ f, linkSize (urdf.Link.mk n cj cl) ≤ f →
          subtree t2.items f (clear t).items.length =
            List.range' (clear t).items.length (linkSize (urdf.Link.mk n cj cl)) := by
        intro f hf
        rw [← hsub1 f hf]
        apply subtree_congr
        intro x hx
        rw [hsub1 f hf, List.mem_range'_1] at hx
        exact hG2.2.1 x (by omega) (by omega)
      have hreach : reachable t2 = t.root_ :: t.link_root_ ::
          (List.range' (clear t).items.length (linkSize (urdf.Link.mk n cj cl)) ++
            t.joint_root_ :: List.range' t1.items.length (jointsBelowList cj cl).length) := by
        unfold reachable
        rw [hroot2]
        obtain ⟨f, hf⟩ : ∃ f, t2.items.length = f + 2 := ⟨t2.items.length - 2, by omega⟩
        have hf1 : linkSize (urdf.Link.mk n cj cl) ≤ f := by omega
        have hf2 : (jointsBelowList cj cl).length ≤ f := by omega
        rw [hf]
        simp only [subtree, hchr, hchl, hchj, List.flatMap_cons, List.flatMap_nil,
          List.append_nil, hblock1 f hf1, hs2 f hf2, List.cons_append]
      have hfix : ∀ i, i < (clear t).items.length → ∀ ty,
          (t.items[i]?).map (fun it => it.type) = some ty → ty ≠ ItemType.Link →
          ty ≠ ItemType.Joint → linkNameOf t2 i = none ∧ jointNameOf t2 i = none := by
        intro i hi ty hty h1 h2
        exact nameOf_none_of_type t2 i ty (by rw [htype2 i hi]; exact hty) h1 h2
      have hf_r := hfix t.root_ hr _ s5 (by decide) (by decide)
      have hf_l := hfix t.link_root_ hlr _ s6 (by decide) (by decide)
      have hf_j := hfix t.joint_root_ hjr _ s7 (by decide) (by decide)
      have hlinkblock : (List.range' (clear t).items.length
          (linkSize (urdf.Link.mk n cj cl))).map (linkNameOf t2) =
          (linkNames (urdf.Link.mk n cj cl)).map some := by
        rw [← hnm1]
        apply List.map_congr_left
        intro i hi
        rw [List.mem_range'_1] at hi
        exact linkNameOf_of_tag t1 t2 i (hG2.2.2 i (by omega))
    · unfold linkNodeNames
      rw [hreach]
      simp only [List.filterMap_cons, hf_r.1, hf_l.1, hf_j.1, List.filterMap_append]
      rw [filterMap_map_some _ _ _ hlinkblock,
        filterMap_none _ _ (fun i hi => by
          rw [List.mem_range'_1] at hi
          exact hno2 i hi.1 hi.2)]
      simp
    · rw [hln2, hln1]
      rfl
    · unfold jointNodeNames
      rw [hreach]
      simp only [List.filterMap_cons, hf_r.2, hf_l.2, hf_j.2, List.filterMap_append]
      rw [filterMap_none _ (List.range' (clear t).items.length _) (fun i hi => by
          have h1 := hlinkblock
          have : ∃ nm, linkNameOf t2 i = some nm := by
            have hmem : linkNameOf t2 i ∈ (List.range' (clear t).items.length
                (linkSize (urdf.Link.mk n cj cl))).map (linkNameOf t2) :=
              List.mem_map.2 ⟨i, hi, rfl⟩
            rw [h1] at hmem
            rcases List.mem_map.1 hmem with ⟨nm, _, hnm⟩
            exact ⟨nm, hnm.symm⟩
          obtain ⟨nm, hnm⟩ := this
          exact jointNameOf_none_of_linkNameOf t2 i nm hnm)]
      simp only [List.nil_append]
      rw [filterMap_congr_map _ _ _ _ hnm2, hmem1]
      rfl
    · rw [hjn2, hjn1, hmem1]
      simp only [jointsBelow]
      exact List.nil_append _
    · rw [hrest2.1, hrest1.1]; rfl
    · rw [hmem2, hmem1]; rfl

theorem shell_sampleStart : Shell sampleStart := by
  unfold Shell
  decide

theorem validModel_sample : ValidModel sampleStart.memory sampleModel := by
  refine ⟨urdf.Link.mk "base" [0, 1] [urdf.Link.mk "arm" [] [], urdf.Link.mk "leg" [] []],
    rfl, ?_, by decide, by decide, by decide, by decide⟩
  simp only [ValidLink, ValidChildren, and_true]
  exact ⟨rfl, ⟨{ name := "shoulder", parent_link_name := "base", child_link_name := "arm" },
      rfl, rfl, rfl, rfl⟩, rfl,
    ⟨{ name := "hip", parent_link_name := "base", child_link_name := "leg" },
      rfl, rfl, rfl, rfl⟩, rfl⟩

/-- C5: for a model whose links and joints form a valid tree, loading it into a widget with
the three fixed items in place completes (with fuel at least the number of links) and yields a
tree whose reachable link items carry exactly the link names of the model and whose reachable
joint items carry exactly its joint names, each once; `link_names_` and `joint_names_` hold
the same names. -/
theorem populate_round_trip (t : URDFPropertyTree) (M : urdf.ModelInterface) (fuel : Nat)
    (hshell : Shell t) (hvalid : ValidModel t.memory M) (hfuel : M.links_.length ≤ fuel) :
    ∃ t', loadRobotModel fuel (some M) t = some (true, t') ∧
      (linkNodeNames t').Perm (M.links_.map (fun e => e.1)) ∧ (linkNodeNames t').Nodup ∧
      (jointNodeNames t').Perm (M.joints_.map (fun e => e.1)) ∧ (jointNodeNames t').Nodup ∧
      t'.link_names_ = linkNodeNames t' ∧ t'.joint_names_ = jointNodeNames t' := by
  obtain ⟨root, hroot, hvl, hnd, hperm, hjnd, hjperm⟩ := hvalid
  have hsize : linkSize root ≤ fuel := by
    rw [← linkNames_length, hperm.length_eq]
    simpa using hfuel
  obtain ⟨t', h1, h2, h3, h4, h5, _, _⟩ :=
    populate_spec { t with model_ := M } fuel root hshell hroot hvl hsize
  refine ⟨t', h1, ?_, ?_, ?_, ?_, ?_, ?_⟩
  · rw [h2]; exact hperm
  · rw [h2]; exact hnd
  · rw [h4]; exact hjperm
  · rw [h4]; exact hjnd
  · rw [h2, h3]
  · rw [h4, h5]

/-- C5 at `sampleModel`, loaded into a freshly constructed widget. -/
theorem populate_round_trip_witness :
    Shell sampleStart ∧ ValidModel sampleStart.memory sampleModel ∧
    ∃ t', loadRobotModel 3 (some sampleModel) sampleStart = some (true, t') ∧
      (linkNodeNames t').Perm ["arm", "base", "leg"] ∧
      (jointNodeNames t').Perm ["hip", "shoulder"] :=
  ⟨shell_sampleStart, validModel_sample,
    (populate_round_trip sampleStart sampleModel 3 shell_sampleStart validModel_sample
      (by decide)).imp (fun _ h => ⟨h.1, h.2.1, h.2.2.2.1⟩)⟩

/-! ### Walking down and climbing up -/

theorem childrenOf_nil_of_ge (items : List QTreeWidgetItem) (p : Nat)
    (h : items.length ≤ p) : childrenOf items p = [] := by
  unfold childrenOf
  rw [List.getElem?_eq_none h]

theorem parentOf_none_of_ge (items : List QTreeWidgetItem) (c : Nat)
    (h : items.length ≤ c) : parentOf items c = none := by
  unfold parentOf
  rw [List.getElem?_eq_none h]

theorem wf_nodup (items : List QTreeWidgetItem) (h : WF items) (p : Nat) :
    (childrenOf items p).Nodup := by
  by_cases hp : p < items.length
  · exact h.1 p hp
  · rw [childrenOf_nil_of_ge items p (by omega)]; exact List.nodup_nil

theorem wf_child_parent (items : List QTreeWidgetItem) (h : WF items) (p c : Nat)
    (hc : c ∈ childrenOf items p) : parentOf items c = some p := by
  by_cases hp : p < items.length
  · exact h.2.1 p hp c hc
  · rw [childrenOf_nil_of_ge items p (by omega)] at hc; simp at hc

theorem wf_parent_child (items : List QTreeWidgetItem) (h : WF items) (p c : Nat)
    (hc : parentOf items c = some p) : c ∈ childrenOf items p := by
  by_cases hlt : c < items.length
  · exact h.2.2 c hlt p (by rw [hc]; simp)
  · rw [parentOf_none_of_ge items c (by omega)] at hc; cases hc

theorem climb_succ_last (items : List QTreeWidgetItem) (k : Nat) :
    ∀ x y p, climb items k x = some y → parentOf items y = some p →
      climb items (k + 1) x = some p := by
  induction k with
  | zero =>
    intro x y p h hp
    simp only [climb] at h
    injection h with h
    subst h
    simp [climb, hp]
  | succ k ih =>
    intro x y p h hp
    simp only [climb] at h ⊢
    cases hx : parentOf items x with
    | none => rw [hx] at h; cases h
    | some q =>
      rw [hx] at h
      simp only at h ⊢
      have := ih q y p h hp
      simpa [climb] using this

theorem climb_trans (items : List QTreeWidgetItem) (a : Nat) :
    ∀ b x y z, climb items a x = some y → climb items b y = some z →
      climb items (a + b) x = some z := by
  induction a with
  | zero =>
    intro b x y z h1 h2
    simp only [climb] at h1
    injection h1 with h1
    subst h1
    simpa using h2
  | succ a ih =>
    intro b x y z h1 h2
    simp only [climb] at h1
    cases hx : parentOf items x with
    | none => rw [hx] at h1; cases h1
    | some q =>
      rw [hx] at h1
      simp only at h1
      have := ih b q y z h1 h2
      rw [show a + 1 + b = (a + b) + 1 by omega]
      simp only [climb, hx]
      exact this

theorem climb_split (items : List QTreeWidgetItem) (a : Nat) :
    ∀ b x z, climb items (a + b) x = some z →
      ∃ y, climb items a x = some y ∧ climb items b y = some z := by
  induction a with
  | zero =>
    intro b x z h
    exact ⟨x, rfl, by simpa using h⟩
  | succ a ih =>
    intro b x z h
    rw [show a + 1 + b = (a + b) + 1 by omega] at h
    simp only [climb] at h ⊢
    cases hx : parentOf items x with
    | none => rw [hx] at h; cases h
    | some q =>
      rw [hx] at h
      simp only at h ⊢
      exact ih b q z h

theorem mem_subtree_child (items : List QTreeWidgetItem) (f : Nat) :
    ∀ r p c, p ∈ subtree items f r → c ∈ childrenOf items p →
      c ∈ subtree items (f + 1) r := by
  induction f with
  | zero => intro r p c h; simp [subtree] at h
  | succ f ih =>
    intro r p c hp hc
    rw [subtree] at hp ⊢
    rcases List.mem_cons.1 hp with h | h
    · subst h
      refine List.mem_cons_of_mem _ (List.mem_flatMap.2 ⟨c, hc, ?_⟩)
      rw [subtree]
      exact List.mem_cons_self _ _
    · rcases List.mem_flatMap.1 h with ⟨d, hd, hpd⟩
      exact List.mem_cons_of_mem _ (List.mem_flatMap.2 ⟨d, hd, ih d p c hpd hc⟩)

/-- What a walk down from `r` meets climbs up to `r`. -/
theorem climb_of_mem_subtree (items : List QTreeWidgetItem) (hwf : WF items) (f : Nat) :
    ∀ r x, x ∈ subtree items f r → ∃ k, k < f ∧ climb items k x = some r := by
  induction f with
  | zero => intro r x h; simp [subtree] at h
  | succ f ih =>
    intro r x h
    rw [subtree] at h
    rcases List.mem_cons.1 h with h | h
    · subst h; exact ⟨0, by omega, rfl⟩
    · rcases List.mem_flatMap.1 h with ⟨c, hc, hx⟩
      obtain ⟨k, hk, hcl⟩ := ih c x hx
      exact ⟨k + 1, by omega,
        climb_succ_last items k x c r hcl (wf_child_parent items hwf r c hc)⟩

/-- What climbs up to `r` in fewer than `f` steps is met by a walk down from `r`. -/
theorem mem_subtree_of_climb (items : List QTreeWidgetItem) (hwf : WF items) (k : Nat) :
    ∀ f r x, k < f → climb items k x = some r → x ∈ subtree items f r := by
  induction k with
  | zero =>
    intro f r x hf h
    simp only [climb] at h
    injection h with h
    subst h
    obtain ⟨f', rfl⟩ : ∃ f', f = f' + 1 := ⟨f - 1, by omega⟩
    rw [subtree]
    exact List.mem_cons_self _ _
  | succ k ih =>
    intro f r x hf h
    simp only [climb] at h
    cases hx : parentOf items x with
    | none => rw [hx] at h; cases h
    | some p =>
      rw [hx] at h
      simp only at h
      obtain ⟨f', rfl⟩ : ∃ f', f = f' + 1 := ⟨f - 1, by omega⟩
      exact mem_subtree_child items f' r p x (ih f' r p (by omega) h)
        (wf_parent_child items hwf p x hx)

theorem climb_lt (items : List QTreeWidgetItem) (k : Nat) (x y : Nat)
    (h : climb items (k + 1) x = some y) : x < items.length := by
  by_contra hx
  simp only [climb] at h
  rw [parentOf_none_of_ge items x (by omega)] at h
  cases h

/-- A climb from `x` to `y` can be cut down to fewer steps than there are items. -/
theorem climb_shorten (items : List QTreeWidgetItem) (x y : Nat) (hy : y < items.length)
    (h : ∃ k, climb items k x = some y) :
    ∃ k, k < items.length ∧ climb items k x = some y := by
  classical
  refine ⟨Nat.find h, ?_, Nat.find_spec h⟩
  have hk := Nat.find_spec h
  have hmin : ∀ m, m < Nat.find h → climb items m x ≠ some y := fun m hm => Nat.find_min h hm
  generalize Nat.find h = k at hk hmin
  have hsome : ∀ i, i ≤ k → ∃ v, climb items i x = some v ∧ v < items.length ∧
      climb items (k - i) v = some y := by
    intro i hi
    have hk2 : climb items (i + (k - i)) x = some y := by
      rw [show i + (k - i) = k by omega]; exact hk
    obtain ⟨v, hv1, hv2⟩ := climb_split items i (k - i) x y hk2
    refine ⟨v, hv1, ?_, hv2⟩
    by_cases hik : i = k
    · subst hik
      rw [hk] at hv1; injection hv1 with hv1; omega
    · obtain ⟨d, hd⟩ : ∃ d, k - i = d + 1 := ⟨k - i - 1, by omega⟩
      rw [hd] at hv2
      exact climb_lt items d v y hv2
  have hnd : ((List.range (k + 1)).map (fun i => climb items i x)).Nodup := by
    refine List.Nodup.map_on ?_ (List.nodup_range _)
    intro a ha b hb hab
    have ha2 : a ≤ k := by have := List.mem_range.1 ha; omega
    have hb2 : b ≤ k := by have := List.mem_range.1 hb; omega
    by_contra hne
    have key : ∀ a b, a ≤ k → b ≤ k → a < b → climb items a x = climb items b x → False := by
      intro a b ha hb hlt hab
      obtain ⟨v, hv1, _, hv2⟩ := hsome b hb
      rw [hv1] at hab
      have := climb_trans items a (k - b) x v y hab hv2
      exact hmin (a + (k - b)) (by omega) this
    rcases Nat.lt_or_gt_of_ne hne with hlt | hlt
    · exact key a b ha2 hb2 hlt hab
    · exact key b a hb2 ha2 hlt hab.symm
  have hsub : ((List.range (k + 1)).map (fun i => climb items i x)) ⊆
      (List.range items.length).map some := by
    intro o ho
    obtain ⟨i, hi, rfl⟩ := List.mem_map.1 ho
    have hi2 : i ≤ k := by have := List.mem_range.1 hi; omega
    obtain ⟨v, hv1, hv2, _⟩ := hsome i hi2
    rw [hv1]
    exact List.mem_map.2 ⟨v, List.mem_range.2 hv2, rfl⟩
  have hlen := (List.subperm_of_subset hnd hsub).length_le
  simp only [List.length_map, List.length_range] at hlen
  omega

theorem noCycleAt_of_root (items : List QTreeWidgetItem) (r : Nat)
    (h : parentOf items r = none) : NoCycleAt items r := by
  intro k hk
  simp [climb, h] at hk

theorem noCycleAt_child (items : List QTreeWidgetItem) (hwf : WF items) (r c : Nat)
    (hr : NoCycleAt items r) (hc : c ∈ childrenOf items r) : NoCycleAt items c := by
  intro k hk
  have hp := wf_child_parent items hwf r c hc
  simp only [climb, hp] at hk
  exact hr k (climb_succ_last items k r c r hk hp)

/-- A walk down from an item that is on no cycle meets no item twice. -/
theorem subtree_nodup (items : List QTreeWidgetItem) (hwf : WF items) (f : Nat) :
    ∀ r, NoCycleAt items r → (subtree items f r).Nodup := by
  induction f with
  | zero => intro r _; simp [subtree]
  | succ f ih =>
    intro r hr
    rw [subtree]
    refine List.nodup_cons.2 ⟨?_, ?_⟩
    · intro hmem
      rcases List.mem_flatMap.1 hmem with ⟨c, hc, hrc⟩
      obtain ⟨k, _, hk⟩ := climb_of_mem_subtree items hwf f c r hrc
      exact hr k (climb_succ_last items k r c r hk (wf_child_parent items hwf r c hc))
    · refine List.nodup_flatMap.2 ⟨fun c hc => ih c (noCycleAt_child items hwf r c hr hc), ?_⟩
      refine List.Pairwise.imp_of_mem ?_ (wf_nodup items hwf r)
      intro c1 c2 h1 h2 hne
      have key : ∀ c1 c2, c1 ∈ childrenOf items r → c2 ∈ childrenOf items r → c1 ≠ c2 →
          ∀ x k1 k2, k1 ≤ k2 → climb items k1 x = some c1 → climb items k2 x = some c2 →
            False := by
        intro c1 c2 h1 h2 hne x k1 k2 hle hk1 hk2
        rw [show k2 = k1 + (k2 - k1) by omega] at hk2
        obtain ⟨v, hv1, hv2⟩ := climb_split items k1 (k2 - k1) x c2 hk2
        rw [hk1] at hv1; injection hv1 with hv1; subst hv1
        by_cases hd : k2 - k1 = 0
        · rw [hd] at hv2; simp only [climb] at hv2; injection hv2 with hv2; exact hne hv2
        · obtain ⟨d, hd⟩ : ∃ d, k2 - k1 = d + 1 := ⟨k2 - k1 - 1, by omega⟩
          rw [hd] at hv2
          have hp1 := wf_child_parent items hwf r c1 h1
          simp only [climb, hp1] at hv2
          exact hr d (climb_succ_last items d r c2 r hv2 (wf_child_parent items hwf r c2 h2))
      intro x hx1 hx2
      obtain ⟨k1, _, hk1⟩ := climb_of_mem_subtree items hwf f c1 x hx1
      obtain ⟨k2, _, hk2⟩ := climb_of_mem_subtree items hwf f c2 x hx2
      rcases Nat.le_total k1 k2 with hle | hle
      · exact key c1 c2 h1 h2 hne x k1 k2 hle hk1 hk2
      · exact key c2 c1 h2 h1 (Ne.symm hne) x k2 k1 hle hk2 hk1

/-! ### Moving an item -/

theorem parentOf_takeChild (items : List QTreeWidgetItem) (p i c x : Nat)
    (hc : (childrenOf items p)[i]? = some c) :
    parentOf (takeChild items p (some i)).2 x =
      if x = c then none else parentOf items x := by
  simp only [takeChild, hc]
  rw [parentOf_modify, parentOf_modify]
  by_cases hxc : x = c
  · subst hxc
    simp only [if_true]
    cases h : (List.modify (fun it => { it with children := it.children.eraseIdx i }) p items)[x]? with
    | none => rfl
    | some it => rfl
  · rw [if_neg (Ne.symm hxc), if_neg hxc]
    by_cases hpx : p = x
    · subst hpx
      simp only [if_true, parentOf]
    · rw [if_neg hpx]

theorem indexOfChild_of_mem (items : List QTreeWidgetItem) (q c : Nat)
    (h : c ∈ childrenOf items q) :
    indexOfChild items q c = some ((childrenOf items q).indexOf c) ∧
    (childrenOf items q)[(childrenOf items q).indexOf c]? = some c := by
  have hlt : (childrenOf items q).indexOf c < (childrenOf items q).length :=
    List.indexOf_lt_length.2 h
  refine ⟨by simp [indexOfChild, hlt], ?_⟩
  rw [List.getElem?_eq_getElem hlt]
  simp

theorem moveItem_spec (items : List QTreeWidgetItem) (hwf : WF items) (c q n : Nat)
    (hq : parentOf items c = some q) (hn : n < items.length) :
    (moveItem items c q n).length = items.length ∧
    (∀ x, parentOf (moveItem items c q n) x = if x = c then some n else parentOf items x) ∧
    (∀ x, childrenOf (moveItem items c q n) x =
      if x = n then (if n = q then (childrenOf items q).erase c else childrenOf items n) ++ [c]
      else if x = q then (childrenOf items q).erase c else childrenOf items x) := by
  have hmem := wf_parent_child items hwf q c hq
  obtain ⟨hidx, hget⟩ := indexOfChild_of_mem items q c hmem
  have h1 : (takeChild items q (some ((childrenOf items q).indexOf c))).1 = some c := by
    simp only [takeChild, hget]
  have hclt : c < items.length := by
    by_contra hge
    rw [parentOf_none_of_ge items c (by omega)] at hq; cases hq
  have hlen1 := length_takeChild items q (some ((childrenOf items q).indexOf c))
  have hpar1 := parentOf_takeChild items q _ c c hget
  rw [if_pos rfl] at hpar1
  obtain ⟨ci, hci⟩ : ∃ ci, (takeChild items q (some ((childrenOf items q).indexOf c))).2[c]? =
      some ci := by
    have : c < (takeChild items q (some ((childrenOf items q).indexOf c))).2.length := by
      rw [hlen1]; exact hclt
    exact ⟨_, List.getElem?_eq_getElem this⟩
  have hcipar : ci.par = none := by
    simpa [parentOf, hci] using hpar1
  unfold moveItem
  rw [hidx, h1]
  refine ⟨by rw [length_addChild, hlen1], ?_, ?_⟩
  · intro x
    rw [parentOf_addChild _ n c ci hci hcipar x]
    by_cases hxc : x = c
    · rw [if_pos hxc, if_pos hxc]
    · rw [if_neg hxc, if_neg hxc, parentOf_takeChild items q _ c x hget, if_neg hxc]
  · intro x
    rw [childrenOf_addChild _ n c ci hci hcipar x, hlen1, if_pos hn]
    rw [childrenOf_takeChild, childrenOf_takeChild, List.eraseIdx_indexOf_eq_erase]

theorem moveItem_wf (items : List QTreeWidgetItem) (hwf : WF items) (c q n : Nat)
    (hq : parentOf items c = some q) (hn : n < items.length) :
    WF (moveItem items c q n) := by
  obtain ⟨hlen, hpar, hch⟩ := moveItem_spec items hwf c q n hq hn
  have hcq := wf_parent_child items hwf q c hq
  have hmemold : ∀ p x, x ∈ childrenOf (moveItem items c q n) p → x ≠ c →
      x ∈ childrenOf items p := by
    intro p x hx hxc
    rw [hch p] at hx
    by_cases hpn : p = n
    · rw [if_pos hpn] at hx
      rcases List.mem_append.1 hx with h | h
      · by_cases hnq : n = q
        · rw [if_pos hnq] at h; rw [hpn, hnq]; exact List.mem_of_mem_erase h
        · rw [if_neg hnq] at h; rw [hpn]; exact h
      · simp at h; exact absurd h hxc
    · rw [if_neg hpn] at hx
      by_cases hpq : p = q
      · rw [if_pos hpq] at hx; rw [hpq]; exact List.mem_of_mem_erase hx
      · rw [if_neg hpq] at hx; exact hx
  have hmemc : ∀ p, c ∈ childrenOf (moveItem items c q n) p → p = n := by
    intro p hx
    rw [hch p] at hx
    by_contra hpn
    rw [if_neg hpn] at hx
    by_cases hpq : p = q
    · rw [if_pos hpq] at hx
      exact absurd hx (List.Nodup.not_mem_erase (wf_nodup items hwf q))
    · rw [if_neg hpq] at hx
      have := wf_child_parent items hwf p c hx
      rw [hq] at this; injection this with this; exact hpq this.symm
  refine ⟨?_, ?_, ?_⟩
  · intro p _
    rw [hch p]
    by_cases hpn : p = n
    · rw [if_pos hpn]
      refine List.Nodup.append ?_ (List.nodup_singleton c) ?_
      · by_cases hnq : n = q
        · rw [if_pos hnq]; exact (wf_nodup items hwf q).erase c
        · rw [if_neg hnq]; exact wf_nodup items hwf n
      · intro x hx hxc
        simp at hxc
        subst hxc
        by_cases hnq : n = q
        · rw [if_pos hnq] at hx
          exact absurd hx (List.Nodup.not_mem_erase (wf_nodup items hwf q))
        · rw [if_neg hnq] at hx
          have := wf_child_parent items hwf n x hx
          rw [hq] at this; injection this with this; exact hnq this.symm
    · rw [if_neg hpn]
      by_cases hpq : p = q
      · rw [if_pos hpq]; exact (wf_nodup items hwf q).erase c
      · rw [if_neg hpq]; exact wf_nodup items hwf p
  · intro p _ x hx
    rw [hpar x]
    by_cases hxc : x = c
    · rw [if_pos hxc]; rw [hxc] at hx; rw [hmemc p hx]
    · rw [if_neg hxc]
      exact wf_child_parent items hwf p x (hmemold p x hx hxc)
  · intro x _ p hp
    rw [hpar x] at hp
    rw [hch p]
    by_cases hxc : x = c
    · rw [if_pos hxc] at hp
      simp at hp
      subst hp
      rw [if_pos rfl, hxc]
      exact List.mem_append_right _ (List.mem_singleton_self c)
    · rw [if_neg hxc] at hp
      have hp2 : parentOf items x = some p := by
        cases h : parentOf items x with
        | none => rw [h] at hp; simp at hp
        | some p2 => rw [h] at hp; simp at hp; rw [hp]
      have hold := wf_parent_child items hwf p x hp2
      have herase : ∀ l : List Nat, x ∈ l → x ∈ l.erase c := fun l hl =>
        (List.mem_erase_of_ne hxc).2 hl
      by_cases hpn : p = n
      · rw [if_pos hpn]
        refine List.mem_append_left _ ?_
        by_cases hnq : n = q
        · rw [if_pos hnq]; rw [hpn, hnq] at hold; exact herase _ hold
        · rw [if_neg hnq]; rw [hpn] at hold; exact hold
      · rw [if_neg hpn]
        by_cases hpq : p = q
        · rw [if_pos hpq]; rw [hpq] at hold; exact herase _ hold
        · rw [if_neg hpq]; exact hold

/-- A climb that never meets the moved item is the same climb after the move. -/
theorem climb_same_of_avoid (items items2 : List QTreeWidgetItem) (c n : Nat)
    (hpar : ∀ x, parentOf items2 x = if x = c then some n else parentOf items x) (k : Nat) :
    ∀ x, (∀ m, climb items m x ≠ some c) → climb items2 k x = climb items k x := by
  induction k with
  | zero => intro x _; rfl
  | succ k ih =>
    intro x hx
    have hxc : x ≠ c := fun h => hx 0 (by simp [climb, h])
    simp only [climb]
    rw [hpar x, if_neg hxc]
    cases hp : parentOf items x with
    | none => rfl
    | some p =>
      simp only
      refine ih p ?_
      intro m hm
      refine hx (m + 1) ?_
      simp only [climb, hp]
      exact hm

/-- What was below the moved item is still below it. -/
theorem climb_to_moved (items items2 : List QTreeWidgetItem) (c n : Nat)
    (hpar : ∀ x, parentOf items2 x = if x = c then some n else parentOf items x) (k : Nat) :
    ∀ x, climb items k x = some c → ∃ m, climb items2 m x = some c := by
  induction k with
  | zero =>
    intro x h
    exact ⟨0, h⟩
  | succ k ih =>
    intro x h
    by_cases hxc : x = c
    · exact ⟨0, by simp [climb, hxc]⟩
    · simp only [climb] at h
      cases hp : parentOf items x with
      | none => rw [hp] at h; cases h
      | some p =>
        rw [hp] at h
        simp only at h
        obtain ⟨m, hm⟩ := ih p h
        refine ⟨m + 1, ?_⟩
        simp only [climb]
        rw [hpar x, if_neg hxc, hp]
        exact hm

/-- Moving `c` under `n`, where `n` is not `c` or below it and `n` climbs to `r`: what climbed
to `r` still does. -/
theorem climb_after_move (items items2 : List QTreeWidgetItem) (c n r : Nat)
    (hpar : ∀ x, parentOf items2 x = if x = c then some n else parentOf items x)
    (hn : ∀ m, climb items m n ≠ some c) (hnr : ∃ k, climb items k n = some r)
    (x : Nat) (hx : ∃ k, climb items k x = some r) : ∃ k, climb items2 k x = some r := by
  by_cases hxc : ∃ m, climb items m x = some c
  · obtain ⟨m, hm⟩ := hxc
    obtain ⟨m2, hm2⟩ := climb_to_moved items items2 c n hpar m x hm
    obtain ⟨k, hk⟩ := hnr
    have hk2 : climb items2 k n = some r := by
      rw [climb_same_of_avoid items items2 c n hpar k n hn]; exact hk
    have hc1 : climb items2 1 c = some n := by
      simp [climb, hpar c]
    have := climb_trans items2 m2 1 x c n hm2 hc1
    exact ⟨m2 + 1 + k, climb_trans items2 (m2 + 1) k x n r this hk2⟩
  · obtain ⟨k, hk⟩ := hx
    refine ⟨k, ?_⟩
    rw [climb_same_of_avoid items items2 c n hpar k x (fun m hm => hxc ⟨m, hm⟩)]
    exact hk

/-! ### The reparent slot as two moves -/

theorem on_jointParentLinkChanged_eq (t : URDFPropertyTree) (j P L N jq : Nat)
    (htgt : reparentTarget j t = some (P, L, N)) (hjq : parentOf t.items j = some jq) :
    on_jointParentLinkChanged j t =
      match parentOf (moveItem t.items j jq N) L with
      | none => none
      | some cpar =>
        some { t with items := moveItem (moveItem t.items j jq N) L cpar P } := by
  unfold reparentTarget at htgt
  unfold on_jointParentLinkChanged
  cases hji : t.items[j]? with
  | none => rw [hji] at htgt; cases htgt
  | some ji =>
    rw [hji] at htgt
    simp only at htgt ⊢
    cases hjp : ji.joint with
    | none => rw [hjp] at htgt; cases htgt
    | some jp =>
      rw [hjp] at htgt
      simp only at htgt ⊢
      cases hjd : t.memory[jp]? with
      | none => rw [hjd] at htgt; cases htgt
      | some jd =>
        rw [hjd] at htgt
        simp only at htgt ⊢
        cases hpl : t.links_.lookup jd.parent_link_name with
        | none => rw [hpl] at htgt; cases htgt
        | some pl =>
          cases hcl : t.links_.lookup jd.child_link_name with
          | none => rw [hpl, hcl] at htgt; cases htgt
          | some cl =>
            rw [hpl, hcl] at htgt
            simp only at htgt ⊢
            cases hpli : t.items[pl]? with
            | none => rw [hpli] at htgt; cases htgt
            | some pli =>
              rw [hpli] at htgt
              simp only at htgt ⊢
              have hpar : ji.par = some jq := by
                simpa [parentOf, hji] using hjq
              rw [hpar]
              simp only [Option.some.injEq, Prod.mk.injEq] at htgt
              obtain ⟨h1, h2, h3⟩ := htgt
              subst h1; subst h2; subst h3
              rfl

theorem lt_of_climb_root (items : List QTreeWidgetItem) (r x k : Nat) (hr : r < items.length)
    (h : climb items k x = some r) : x < items.length := by
  cases k with
  | zero => simp only [climb] at h; injection h with h; omega
  | succ k => exact climb_lt items k x r h

theorem not_climb_of_not_mem (items : List QTreeWidgetItem) (hwf : WF items) (a x : Nat)
    (ha : a < items.length) (h : x ∉ subtree items items.length a) :
    ∀ m, climb items m x ≠ some a := by
  intro m hm
  obtain ⟨k, hk, hk2⟩ := climb_shorten items x a ha ⟨m, hm⟩
  exact h (mem_subtree_of_climb items hwf k items.length a x hk hk2)

theorem mem_reachable_iff (t : URDFPropertyTree) (hwf : WF t.items)
    (hrlt : t.root_ < t.items.length) (x : Nat) :
    x ∈ reachable t ↔ ∃ k, climb t.items k x = some t.root_ := by
  constructor
  · intro h
    obtain ⟨k, _, hk⟩ := climb_of_mem_subtree t.items hwf t.items.length t.root_ x h
    exact ⟨k, hk⟩
  · intro h
    obtain ⟨k, hk, hk2⟩ := climb_shorten t.items x t.root_ hrlt h
    exact mem_subtree_of_climb t.items hwf k t.items.length t.root_ x hk hk2

theorem reachable_nodup (t : URDFPropertyTree) (hwf : WF t.items)
    (hroot : parentOf t.items t.root_ = none) : (reachable t).Nodup :=
  subtree_nodup t.items hwf t.items.length t.root_ (noCycleAt_of_root t.items t.root_ hroot)

/-- The reparent slot on a well-formed arena, away from the joint's own subtree: it returns,
the arena stays well formed, and what climbed to the root still does. -/
theorem reparent_spec (t : URDFPropertyTree) (j P L N jq lq : Nat)
    (hwf : WF t.items) (hroot : parentOf t.items t.root_ = none)
    (hrlt : t.root_ < t.items.length)
    (htgt : reparentTarget j t = some (P, L, N))
    (hjq : parentOf t.items j = some jq) (hlq : parentOf t.items L = some lq)
    (hP : P ∈ reachable t) (hN : N ∈ reachable t)
    (h1 : N ∉ subtree t.items t.items.length j)
    (h2 : P ∉ subtree t.items t.items.length j)
    (h3 : P ∉ subtree t.items t.items.length L) :
    ∃ t2, on_jointParentLinkChanged j t = some t2 ∧
      t2.root_ = t.root_ ∧ t2.items.length = t.items.length ∧
      WF t2.items ∧ parentOf t2.items t2.root_ = none ∧
      (∀ x, x ∈ reachable t → x ∈ reachable t2) := by
  have hreach := mem_reachable_iff t hwf hrlt
  obtain ⟨kP, hkP⟩ := (hreach P).1 hP
  obtain ⟨kN, hkN⟩ := (hreach N).1 hN
  have hPlt := lt_of_climb_root t.items t.root_ P kP hrlt hkP
  have hNlt := lt_of_climb_root t.items t.root_ N kN hrlt hkN
  have hjlt : j < t.items.length := by
    by_contra hge
    rw [parentOf_none_of_ge t.items j (by omega)] at hjq; cases hjq
  have hLlt : L < t.items.length := by
    by_contra hge
    rw [parentOf_none_of_ge t.items L (by omega)] at hlq; cases hlq
  -- first move: the joint item
  obtain ⟨hlen1, hpar1, _⟩ := moveItem_spec t.items hwf j jq N hjq hNlt
  have hwf1 := moveItem_wf t.items hwf j jq N hjq hNlt
  have hNj := not_climb_of_not_mem t.items hwf j N hjlt h1
  have hPj := not_climb_of_not_mem t.items hwf j P hjlt h2
  have hPL := not_climb_of_not_mem t.items hwf L P hLlt h3
  have hlq1 : ∃ lq1, parentOf (moveItem t.items j jq N) L = some lq1 := by
    rw [hpar1 L]
    by_cases hLj : L = j
    · exact ⟨N, by rw [if_pos hLj]⟩
    · exact ⟨lq, by rw [if_neg hLj]; exact hlq⟩
  obtain ⟨lq1, hlq1⟩ := hlq1
  have hPlt1 : P < (moveItem t.items j jq N).length := by rw [hlen1]; exact hPlt
  -- second move: the child link item
  obtain ⟨hlen2, hpar2, _⟩ := moveItem_spec _ hwf1 L lq1 P hlq1 hPlt1
  have hwf2 := moveItem_wf _ hwf1 L lq1 P hlq1 hPlt1
  have hPL1 : ∀ m, climb (moveItem t.items j jq N) m P ≠ some L := by
    intro m
    rw [climb_same_of_avoid t.items _ j N hpar1 m P hPj]
    exact hPL m
  have hkP1 : ∃ k, climb (moveItem t.items j jq N) k P = some t.root_ :=
    climb_after_move t.items _ j N t.root_ hpar1 hNj ⟨kN, hkN⟩ P ⟨kP, hkP⟩
  have hrj : t.root_ ≠ j := by
    intro h; rw [h, hjq] at hroot; cases hroot
  have hroot1 : parentOf (moveItem t.items j jq N) t.root_ = none := by
    rw [hpar1, if_neg hrj]; exact hroot
  have hrL : t.root_ ≠ L := by
    intro h; rw [h, hlq1] at hroot1; cases hroot1
  have hroot2 : parentOf (moveItem (moveItem t.items j jq N) L lq1 P) t.root_ = none := by
    rw [hpar2, if_neg hrL]; exact hroot1
  refine ⟨{ t with items := moveItem (moveItem t.items j jq N) L lq1 P }, ?_, rfl, ?_,
    hwf2, hroot2, ?_⟩
  · rw [on_jointParentLinkChanged_eq t j P L N jq htgt hjq, hlq1]
  · show (moveItem (moveItem t.items j jq N) L lq1 P).length = t.items.length
    rw [hlen2, hlen1]
  · intro x hx
    obtain ⟨k, hk⟩ := (hreach x).1 hx
    have hx1 := climb_after_move t.items _ j N t.root_ hpar1 hNj ⟨kN, hkN⟩ x ⟨k, hk⟩
    have hx2 := climb_after_move _ _ L P t.root_ hpar2 hPL1 hkP1 x hx1
    refine (mem_reachable_iff { t with items := moveItem (moveItem t.items j jq N) L lq1 P }
      hwf2 ?_ x).2 hx2
    show t.root_ < (moveItem (moveItem t.items j jq N) L lq1 P).length
    rw [hlen2, hlen1]; exact hrlt

/-- C9, as the code has it: after three adds (`link_1`, `link_2`, `link_3` in a chain), setting
the parent link of `joint_1` (item 5) to its own child link `link_2` makes the slot put item 5
under itself and item 4 under itself; setting it to `link_3`, below the child link, closes the
cycles 5-7 and 4-6.  Either way the slot returns and the items of `link_2`, `link_3`, `joint_1`
and `joint_2` (4, 6, 5, 7), reachable before, are no longer reachable from the root. -/
theorem reparent_under_own_child_orphans :
    reachable chainSelfParent = [0, 1, 3, 4, 6, 2, 5, 7] ∧
    reparentTarget 5 chainSelfParent = some (4, 4, 5) ∧
    (on_jointParentLinkChanged 5 chainSelfParent).map reachable = some [0, 1, 3, 2] ∧
    (on_jointParentLinkChanged 5 chainSelfParent).map (fun s => parentOf s.items 5) =
      some (some 5) ∧
    (on_jointParentLinkChanged 5 chainSelfParent).map (fun s => parentOf s.items 4) =
      some (some 4) ∧
    reachable chainBelowParent = [0, 1, 3, 4, 6, 2, 5, 7] ∧
    reparentTarget 5 chainBelowParent = some (6, 4, 7) ∧
    (on_jointParentLinkChanged 5 chainBelowParent).map reachable = some [0, 1, 3, 2] := by
  refine ⟨?_, ?_, ?_, ?_, ?_, ?_, ?_, ?_⟩ <;> decide

/-- C9, amended: in a tree whose child lists and parent pointers agree (`WF`) and whose root has
no parent, let the slot run on a joint item `j` that has a parent, with `L` the item of its
child link (which has a parent), `P` the item of the chosen parent link and `N` the item `j`
goes under (`P`'s assigned joint, or the joint-group root).  If `P` and `N` are reachable from
the root, `N` is not `j` or below it, and `P` is neither below `j` nor `L` or below `L`, then
the slot returns, and every item reachable from the root before is reachable exactly once
afterwards. -/
theorem reparent_keeps_every_node (t : URDFPropertyTree) (j P L N jq lq : Nat)
    (hwf : WF t.items) (hroot : parentOf t.items t.root_ = none)
    (hrlt : t.root_ < t.items.length)
    (htgt : reparentTarget j t = some (P, L, N))
    (hjq : parentOf t.items j = some jq) (hlq : parentOf t.items L = some lq)
    (hP : P ∈ reachable t) (hN : N ∈ reachable t)
    (h1 : N ∉ subtree t.items t.items.length j)
    (h2 : P ∉ subtree t.items t.items.length j)
    (h3 : P ∉ subtree t.items t.items.length L) :
    ∃ t2, on_jointParentLinkChanged j t = some t2 ∧
      ∀ x, x ∈ reachable t → (reachable t2).count x = 1 := by
  obtain ⟨t2, hres, _, _, hwf2, hroot2, hmem⟩ :=
    reparent_spec t j P L N jq lq hwf hroot hrlt htgt hjq hlq hP hN h1 h2 h3
  exact ⟨t2, hres, fun x hx =>
    List.count_eq_one_of_mem (reachable_nodup t2 hwf2 hroot2) (hmem x hx)⟩

/-- C9, amended, at the state after four adds for `joint_3` (item 9, child link item 8) moved
from `link_2` to `link_3` (item 6, assigned joint item 7). -/
theorem reparent_keeps_every_node_witness :
    WF fanRewired.items ∧ parentOf fanRewired.items fanRewired.root_ = none ∧
    reparentTarget 9 fanRewired = some (6, 8, 7) ∧
    parentOf fanRewired.items 9 = some 5 ∧ parentOf fanRewired.items 8 = some 4 ∧
    6 ∈ reachable fanRewired ∧ 7 ∈ reachable fanRewired ∧
    7 ∉ subtree fanRewired.items fanRewired.items.length 9 ∧
    6 ∉ subtree fanRewired.items fanRewired.items.length 9 ∧
    6 ∉ subtree fanRewired.items fanRewired.items.length 8 ∧
    ∃ t2, on_jointParentLinkChanged 9 fanRewired = some t2 ∧
      ∀ x, x ∈ reachable fanRewired → (reachable t2).count x = 1 := by
  have hwf : WF fanRewired.items := by unfold WF; decide
  exact ⟨hwf, by decide, by decide, by decide, by decide, by decide, by decide, by decide,
    by decide, by decide,
    reparent_keeps_every_node fanRewired 9 6 8 7 5 4 hwf (by decide) (by decide) (by decide)
      (by decide) (by decide) (by decide) (by decide) (by decide) (by decide) (by decide)⟩

/-! ### Pushing a new leaf -/

theorem pushChild_parentOf (items : List QTreeWidgetItem) (nw : QTreeWidgetItem)
    (hn : nw.par = none) (p : Nat) (hp : p < items.length) (x : Nat) :
    parentOf (pushChild items nw p) x =
      if x = items.length then some p else parentOf items x := by
  by_cases hx : x = items.length
  · rw [if_pos hx, hx]
    simp only [parentOf, pushChild_new items nw hn p hp]
  · rw [if_neg hx]
    by_cases hlt : x < items.length
    · rw [parentOf_eq_map, parentOf_eq_map,
        pushChild_old (fun it => it.par) (fun _ _ => rfl) (fun _ _ => rfl) items nw hn p x hlt]
    · rw [parentOf_none_of_ge items x (by omega),
        parentOf_none_of_ge _ x (by rw [pushChild_length]; omega)]

theorem pushChild_childrenOf (items : List QTreeWidgetItem) (nw : QTreeWidgetItem)
    (hn : nw.par = none) (hc : nw.children = []) (p : Nat) (hp : p < items.length) (x : Nat) :
    childrenOf (pushChild items nw p) x =
      if x = p then childrenOf items p ++ [items.length] else childrenOf items x := by
  by_cases hx : x = items.length
  · have hxp : ¬ x = p := by omega
    rw [if_neg hxp, hx, pushChild_children_new items nw hn p hp, hc,
      childrenOf_nil_of_ge items _ (Nat.le_refl _)]
  · exact pushChild_children items nw hn p hp x hx

theorem mem_childrenOf_lt (items : List QTreeWidgetItem) (hwf : WF items) (p c : Nat)
    (h : c ∈ childrenOf items p) : c < items.length ∧ p < items.length := by
  have hp := wf_child_parent items hwf p c h
  constructor
  · by_contra hge
    rw [parentOf_none_of_ge items c (by omega)] at hp; cases hp
  · by_contra hge
    rw [childrenOf_nil_of_ge items p (by omega)] at h; simp at h

theorem pushChild_wf (items : List QTreeWidgetItem) (hwf : WF items) (nw : QTreeWidgetItem)
    (hn : nw.par = none) (hc : nw.children = []) (p : Nat) (hp : p < items.length) :
    WF (pushChild items nw p) := by
  have hpar := pushChild_parentOf items nw hn p hp
  have hch := pushChild_childrenOf items nw hn hc p hp
  refine ⟨?_, ?_, ?_⟩
  · intro q _
    rw [hch q]
    by_cases hq : q = p
    · rw [if_pos hq]
      refine List.Nodup.append (wf_nodup items hwf p) (List.nodup_singleton _) ?_
      intro x hx hx2
      simp at hx2
      have := (mem_childrenOf_lt items hwf p x hx).1
      omega
    · rw [if_neg hq]; exact wf_nodup items hwf q
  · intro q _ c hcq
    rw [hch q] at hcq
    rw [hpar c]
    by_cases hq : q = p
    · rw [if_pos hq] at hcq
      rcases List.mem_append.1 hcq with h | h
      · have := (mem_childrenOf_lt items hwf p c h).1
        rw [if_neg (by omega), hq]
        exact wf_child_parent items hwf p c h
      · simp at h
        rw [if_pos h, hq]
    · rw [if_neg hq] at hcq
      have := (mem_childrenOf_lt items hwf q c hcq).1
      rw [if_neg (by omega)]
      exact wf_child_parent items hwf q c hcq
  · intro c _ q hq
    rw [hpar c] at hq
    rw [hch q]
    by_cases hcl : c = items.length
    · rw [if_pos hcl] at hq
      simp at hq
      subst hq
      rw [if_pos rfl, hcl]
      exact List.mem_append_right _ (List.mem_singleton_self _)
    · rw [if_neg hcl] at hq
      have hq2 : parentOf items c = some q := by
        cases h : parentOf items c with
        | none => rw [h] at hq; simp at hq
        | some q2 => rw [h] at hq; simp at hq; rw [hq]
      have hold := wf_parent_child items hwf q c hq2
      by_cases hqp : q = p
      · rw [if_pos hqp]; rw [hqp] at hold; exact List.mem_append_left _ hold
      · rw [if_neg hqp]; exact hold

/-- Climbs from old items are the same after a push. -/
theorem pushChild_climb (items : List QTreeWidgetItem) (hwf : WF items) (nw : QTreeWidgetItem)
    (hn : nw.par = none) (p : Nat) (hp : p < items.length) (k : Nat) :
    ∀ x, x < items.length → climb (pushChild items nw p) k x = climb items k x := by
  induction k with
  | zero => intro x _; rfl
  | succ k ih =>
    intro x hx
    simp only [climb]
    rw [pushChild_parentOf items nw hn p hp x, if_neg (by omega)]
    cases hq : parentOf items x with
    | none => rfl
    | some q =>
      simp only
      exact ih q (mem_childrenOf_lt items hwf q x (wf_parent_child items hwf q x hq)).2

theorem mem_subtree_iff (items : List QTreeWidgetItem) (hwf : WF items) (r : Nat)
    (hr : r < items.length) (x : Nat) :
    x ∈ subtree items items.length r ↔ ∃ k, climb items k x = some r := by
  constructor
  · intro h
    obtain ⟨k, _, hk⟩ := climb_of_mem_subtree items hwf items.length r x h
    exact ⟨k, hk⟩
  · intro h
    obtain ⟨k, hk, hk2⟩ := climb_shorten items x r hr h
    exact mem_subtree_of_climb items hwf k items.length r x hk hk2

theorem mem_subtree_lt (items : List QTreeWidgetItem) (hwf : WF items) (r : Nat)
    (hr : r < items.length) (x : Nat) (h : x ∈ subtree items items.length r) :
    x < items.length := by
  obtain ⟨k, hk⟩ := (mem_subtree_iff items hwf r hr x).1 h
  exact lt_of_climb_root items r x k hr hk

/-- What a walk from `r` meets after a push under `p`: what it met before, and the new item
when `p` was met. -/
theorem pushChild_mem_subtree (items : List QTreeWidgetItem) (hwf : WF items)
    (nw : QTreeWidgetItem) (hn : nw.par = none) (hc : nw.children = []) (p r : Nat)
    (hp : p < items.length) (hr : r < items.length) (x : Nat) :
    x ∈ subtree (pushChild items nw p) (items.length + 1) r ↔
      x ∈ subtree items items.length r ∨
        (x = items.length ∧ p ∈ subtree items items.length r) := by
  have hwf2 := pushChild_wf items hwf nw hn hc p hp
  have hlen := pushChild_length items nw p
  have h2 := mem_subtree_iff (pushChild items nw p) hwf2 r (by rw [hlen]; omega) x
  rw [hlen] at h2
  rw [h2, mem_subtree_iff items hwf r hr x, mem_subtree_iff items hwf r hr p]
  constructor
  · rintro ⟨k, hk⟩
    by_cases hx : x < items.length
    · left; exact ⟨k, by rw [← pushChild_climb items hwf nw hn p hp k x hx]; exact hk⟩
    · right
      cases k with
      | zero => simp only [climb] at hk; injection hk with hk; omega
      | succ k =>
        simp only [climb] at hk
        rw [pushChild_parentOf items nw hn p hp x] at hk
        by_cases hxl : x = items.length
        · rw [if_pos hxl] at hk
          simp only at hk
          rw [pushChild_climb items hwf nw hn p hp k p hp] at hk
          exact ⟨hxl, k, hk⟩
        · rw [if_neg hxl, parentOf_none_of_ge items x (by omega)] at hk
          cases hk
  · rintro (⟨k, hk⟩ | ⟨hxl, k, hk⟩)
    · have hx := lt_of_climb_root items r x k hr hk
      exact ⟨k, by rw [pushChild_climb items hwf nw hn p hp k x hx]; exact hk⟩
    · refine ⟨k + 1, ?_⟩
      simp only [climb]
      rw [pushChild_parentOf items nw hn p hp x, if_pos hxl]
      simp only
      rw [pushChild_climb items hwf nw hn p hp k p hp]
      exact hk

/-- The walk from a parentless `r` after a push under an item the walk meets: the old walk and
the new item, up to order. -/
theorem pushChild_subtree_perm (items : List QTreeWidgetItem) (hwf : WF items)
    (nw : QTreeWidgetItem) (hn : nw.par = none) (hc : nw.children = []) (p r : Nat)
    (hr : r < items.length) (hroot : parentOf items r = none)
    (hp : p ∈ subtree items items.length r) :
    (subtree (pushChild items nw p) (items.length + 1) r).Perm
      (subtree items items.length r ++ [items.length]) := by
  have hplt := mem_subtree_lt items hwf r hr p hp
  have hwf2 := pushChild_wf items hwf nw hn hc p hplt
  have hroot2 : parentOf (pushChild items nw p) r = none := by
    rw [pushChild_parentOf items nw hn p hplt r, if_neg (by omega)]; exact hroot
  have hnd1 := subtree_nodup items hwf items.length r (noCycleAt_of_root items r hroot)
  have hnd2 := subtree_nodup _ hwf2 (items.length + 1) r (noCycleAt_of_root _ r hroot2)
  have hnew : items.length ∉ subtree items items.length r := fun h =>
    absurd (mem_subtree_lt items hwf r hr _ h) (by omega)
  refine (List.perm_ext_iff_of_nodup hnd2 ?_).2 ?_
  · refine List.Nodup.append hnd1 (List.nodup_singleton _) ?_
    intro x hx hx2
    simp at hx2
    subst hx2
    exact hnew hx
  · intro x
    rw [pushChild_mem_subtree items hwf nw hn hc p r hplt hr x]
    simp only [List.mem_append, List.mem_singleton]
    constructor
    · rintro (h | ⟨h, _⟩)
      · exact Or.inl h
      · exact Or.inr h
    · rintro (h | h)
      · exact Or.inl h
      · exact Or.inr ⟨h, hp⟩

/-- Well-formedness only looks at lengths, child lists and parent pointers. -/
theorem wf_congr (items items2 : List QTreeWidgetItem) (hlen : items2.length = items.length)
    (hch : ∀ x, childrenOf items2 x = childrenOf items x)
    (hpar : ∀ x, parentOf items2 x = parentOf items x) (h : WF items) : WF items2 := by
  refine ⟨?_, ?_, ?_⟩
  · intro p hp; rw [hch p]; exact h.1 p (by omega)
  · intro p hp c hc; rw [hch p] at hc; rw [hpar c]; exact h.2.1 p (by omega) c hc
  · intro c hc p hp; rw [hpar c] at hp; rw [hch p]; exact h.2.2 c (by omega) p hp

theorem subtree_congr_all (items items2 : List QTreeWidgetItem)
    (hch : ∀ x, childrenOf items2 x = childrenOf items x) (fuel r : Nat) :
    subtree items2 fuel r = subtree items fuel r :=
  subtree_congr items items2 fuel r (fun x _ => hch x)

theorem filterMap_perm_push {α : Type} (f g : Nat → Option α) (l l2 : List Nat) (n : Nat)
    (hperm : l2.Perm (l ++ [n])) (hfg : ∀ x ∈ l, g x = f x) :
    (l2.filterMap g).Perm (l.filterMap f ++ (g n).toList) := by
  refine (hperm.filterMap g).trans ?_
  rw [List.filterMap_append, List.filterMap_congr hfg]
  refine List.Perm.append_left _ ?_
  cases h : g n <;> simp [List.filterMap_cons, h]

/-- A state whose arena is the old one with a new leaf under a reachable item: it is well
formed, and its walk from the root is the old walk and the new item, up to order. -/
theorem pushed_spec (t t1 : URDFPropertyTree) (p : Nat) (hwf : WF t.items)
    (hroot : parentOf t.items t.root_ = none) (hr : t.root_ < t.items.length)
    (hp : p ∈ reachable t) (h : Pushed t t1 p) :
    WF t1.items ∧ parentOf t1.items t1.root_ = none ∧ t1.root_ < t1.items.length ∧
    (reachable t1).Perm (reachable t ++ [t.items.length]) := by
  obtain ⟨h1, h2, h3, h4, _⟩ := h
  have hplt := mem_subtree_lt t.items hwf t.root_ hr p hp
  have hn : (newItem ItemType.Plain "").par = none := rfl
  have hc : (newItem ItemType.Plain "").children = [] := rfl
  have hlenX := pushChild_length t.items (newItem ItemType.Plain "") p
  have hchX : ∀ x, childrenOf t1.items x =
      childrenOf (pushChild t.items (newItem ItemType.Plain "") p) x := by
    intro x; rw [h3 x, pushChild_childrenOf t.items _ hn hc p hplt x]
  have hparX : ∀ x, parentOf t1.items x =
      parentOf (pushChild t.items (newItem ItemType.Plain "") p) x := by
    intro x; rw [h4 x, pushChild_parentOf t.items _ hn p hplt x]
  refine ⟨wf_congr _ _ (by rw [h2, hlenX]) hchX hparX
      (pushChild_wf t.items hwf _ hn hc p hplt), ?_, by rw [h1, h2]; omega, ?_⟩
  · rw [h1, h4 t.root_, if_neg (by omega)]; exact hroot
  · unfold reachable
    rw [h1, h2, subtree_congr_all _ _ hchX]
    exact pushChild_subtree_perm t.items hwf _ hn hc p t.root_ hr hroot hp

theorem mem_reachable_pushed (t t1 : URDFPropertyTree)
    (hperm : (reachable t1).Perm (reachable t ++ [t.items.length])) (x : Nat) :
    x ∈ reachable t1 ↔ x ∈ reachable t ∨ x = t.items.length := by
  rw [hperm.mem_iff]; simp

theorem pushed_of_pushChild (t t1 : URDFPropertyTree) (nw : QTreeWidgetItem) (p : Nat)
    (hn : nw.par = none) (hc : nw.children = []) (hp : p < t.items.length)
    (hitems : t1.items = pushChild t.items nw p) (hroot : t1.root_ = t.root_) :
    Pushed t t1 p := by
  refine ⟨hroot, ?_, ?_, ?_, ?_⟩
  · rw [hitems, pushChild_length]
  · intro x; rw [hitems]; exact pushChild_childrenOf t.items nw hn hc p hp x
  · intro x; rw [hitems]; exact pushChild_parentOf t.items nw hn p hp x
  · intro x hx; rw [hitems]; exact pushChild_tag t.items nw hn p x hx

theorem mem_qmapInsert (m : List (String × Nat)) (k : String) (v : Nat) (e : String × Nat)
    (h : e ∈ qmapInsert m k v) : e = (k, v) ∨ e ∈ m := by
  unfold qmapInsert at h
  rcases List.mem_cons.1 h with h | h
  · exact Or.inl h
  · exact Or.inr (List.mem_filter.1 h).1

/-- The assigned joint of a link item only depends on the item's type and its field. -/
theorem assignedJointOf_congr (t t1 : URDFPropertyTree) (x : Nat)
    (h : (t1.items[x]?).map (fun it => (it.type, it.assigned_joint)) =
      (t.items[x]?).map (fun it => (it.type, it.assigned_joint))) :
    assignedJointOf t1 x = assignedJointOf t x := by
  unfold assignedJointOf
  cases ha : t1.items[x]? <;> cases hb : t.items[x]? <;> rw [ha, hb] at h <;>
    simp at h ⊢
  rw [h.1, h.2]

theorem assignedJointOf_of_core (t t1 : URDFPropertyTree) (x : Nat)
    (h : (t1.items[x]?).map core = (t.items[x]?).map core) :
    assignedJointOf t1 x = assignedJointOf t x := by
  refine assignedJointOf_congr t t1 x ?_
  have := congrArg (Option.map (fun c : ItemType × String × Option Nat × Option urdf.Link ×
    Option Nat × Option Nat => (c.1, c.2.2.2.2.1))) h
  simpa [Option.map_map, core, Function.comp] using this

theorem jointPointerOf_of_tag (t t1 : URDFPropertyTree) (x : Nat)
    (h : (t1.items[x]?).map tag = (t.items[x]?).map tag) :
    jointPointerOf t1 x = jointPointerOf t x := by
  unfold jointPointerOf
  cases ha : t1.items[x]? <;> cases hb : t.items[x]? <;> rw [ha, hb] at h <;>
    simp [tag] at h ⊢
  rw [h.1, h.2.2]

theorem type_of_tag_eq (t t1 : URDFPropertyTree) (x : Nat)
    (h : (t1.items[x]?).map tag = (t.items[x]?).map tag) :
    (t1.items[x]?).map (fun it => it.type) = (t.items[x]?).map (fun it => it.type) :=
  type_of_tag t.items t1.items x h

/-- Adding a link item under a reachable item keeps the tree side of the invariant. -/
theorem treeCore_addLinkTreeItem (t t2 : URDFPropertyTree) (sel : Nat) (l : urdf.Link)
    (nl : Nat) (hcore : TreeCore t) (hsel : sel ∈ reachable t)
    (h2 : addLinkTreeItem sel l t = some (nl, t2)) :
    TreeCore t2 ∧ nl = t.items.length ∧
      (reachable t2).Perm (reachable t ++ [t.items.length]) ∧
      t2.joint_root_ = t.joint_root_ ∧ t2.memory = t.memory ∧ t2.model_ = t.model_ ∧
      t2.link_names_ = t.link_names_ ++ [l.name] ∧ t2.joint_names_ = t.joint_names_ ∧
      (∀ x, x < t.items.length → (t2.items[x]?).map core = (t.items[x]?).map core) := by
  obtain ⟨hwf, hroot, hrlt, hjr, haj, hjx, hlinks, hln, hjn⟩ := hcore
  obtain ⟨_, hnl, ht2⟩ := addLinkTreeItem_inv sel l t t2 nl h2
  have hsellt := mem_subtree_lt t.items hwf t.root_ hrlt sel hsel
  obtain ⟨nw, hnw⟩ : ∃ nw : QTreeWidgetItem,
      nw = { newItem ItemType.Link l.name with link := some l } := ⟨_, rfl⟩
  have hnwp : nw.par = none := by rw [hnw]; rfl
  have hnwc : nw.children = [] := by rw [hnw]; rfl
  have hitems : t2.items = pushChild t.items nw sel := by
    rw [ht2, hnw]; rfl
  have hroot2 : t2.root_ = t.root_ := by rw [ht2]
  have hpushed := pushed_of_pushChild t t2 nw sel hnwp hnwc hsellt hitems hroot2
  obtain ⟨hwf2, hrp2, hrlt2, hperm⟩ := pushed_spec t t2 sel hwf hroot hrlt hsel hpushed
  have hmem := mem_reachable_pushed t t2 hperm
  have hnew : t2.items[t.items.length]? = some { nw with par := some sel } := by
    rw [hitems]; exact pushChild_new t.items _ hnwp sel hsellt
  have hmem2 : t2.memory = t.memory := by rw [ht2]
  have hcorep : ∀ x, x < t.items.length →
      (t2.items[x]?).map core = (t.items[x]?).map core := by
    intro x hx; rw [hitems]; exact pushChild_core t.items _ hnwp sel x hx
  have hlt : ∀ x, x ∈ reachable t → x < t.items.length :=
    fun x hx => mem_subtree_lt t.items hwf t.root_ hrlt x hx
  have hnames : t2.link_names_ = t.link_names_ ++ [l.name] := by rw [ht2]
  have hjnames : t2.joint_names_ = t.joint_names_ := by rw [ht2]
  refine ⟨⟨hwf2, hrp2, hrlt2, ?_, ?_, ?_, ?_, ?_, ?_⟩, hnl, hperm, by rw [ht2], hmem2,
    by rw [ht2], hnames, hjnames, hcorep⟩
  · have : t2.joint_root_ = t.joint_root_ := by rw [ht2]
    rw [this]; exact (hmem _).2 (Or.inl hjr)
  · intro x hx aj hajx
    rcases (hmem x).1 hx with hx | hx
    · rw [assignedJointOf_of_core t t2 x (hcorep x (hlt x hx))] at hajx
      exact (hmem aj).2 (Or.inl (haj x hx aj hajx))
    · rw [hx] at hajx
      simp [assignedJointOf, hnew, hnw, newItem] at hajx
  · intro x hx jx hjxx
    rw [hmem2]
    rcases (hmem x).1 hx with hx | hx
    · rw [jointPointerOf_of_tag t t2 x (hpushed.2.2.2.2 x (hlt x hx))] at hjxx
      exact hjx x hx jx hjxx
    · rw [hx] at hjxx
      simp [jointPointerOf, hnew, hnw, newItem] at hjxx
  · intro e he
    have hl2 : t2.links_ = qmapInsert t.links_ l.name t.items.length := by rw [ht2]
    rw [hl2] at he
    rcases mem_qmapInsert _ _ _ e he with h | h
    · rw [h]
      refine ⟨(hmem _).2 (Or.inr rfl), ?_⟩
      show (t2.items[t.items.length]?).map (fun it => it.type) = _
      rw [hnew, hnw]; rfl
    · obtain ⟨h1, h3⟩ := hlinks e h
      refine ⟨(hmem _).2 (Or.inl h1), ?_⟩
      rw [type_of_tag_eq t t2 e.2 (hpushed.2.2.2.2 e.2 (hlt _ h1))]
      exact h3
  · rw [hnames]
    have hp := filterMap_perm_push (linkNameOf t) (linkNameOf t2) (reachable t) (reachable t2)
      t.items.length hperm (fun x hx => linkNameOf_of_tag t t2 x
        (hpushed.2.2.2.2 x (hlt x hx)))
    have hnewname : linkNameOf t2 t.items.length = some l.name := by
      simp [linkNameOf, hnew, hnw, newItem]
    rw [hnewname] at hp
    exact hp.trans (List.Perm.append_right _ hln)
  · rw [hjnames]
    have hp := filterMap_perm_push (jointNameOf t) (jointNameOf t2) (reachable t)
      (reachable t2) t.items.length hperm (fun x hx => jointNameOf_of_tag t t2 x
        (hpushed.2.2.2.2 x (hlt x hx)) hmem2)
    have hnewname : jointNameOf t2 t.items.length = none := by
      simp [jointNameOf, hnew, hnw, newItem]
    rw [hnewname] at hp
    simp only [Option.toList, List.append_nil] at hp
    exact hp.trans hjn

mutual
theorem treeCore_link (l : urdf.Link) (p : Nat) (t t1 : URDFPropertyTree)
    (hcore : TreeCore t) (hp : p ∈ reachable t)
    (h : addItemRecursivelyLink l p t = some t1) :
    TreeCore t1 ∧ (∀ x, x ∈ reachable t → x ∈ reachable t1) ∧
      t1.joint_root_ = t.joint_root_ := by
  match l with
  | urdf.Link.mk name cj cl =>
    unfold addItemRecursivelyLink at h
    cases hA : addLinkTreeItem p (urdf.Link.mk name cj cl) t with
    | none => rw [hA] at h; cases h
    | some r =>
      rw [hA] at h
      simp only at h
      obtain ⟨nl, s2⟩ := r
      obtain ⟨hcore2, hnl, hperm, hjr, _⟩ :=
        treeCore_addLinkTreeItem t s2 p (urdf.Link.mk name cj cl) nl hcore hp hA
      have hmem := mem_reachable_pushed t s2 hperm
      obtain ⟨g1, g2, g3⟩ := treeCore_linkList cl nl s2 t1 hcore2
        ((hmem nl).2 (Or.inr hnl)) h
      exact ⟨g1, fun x hx => g2 x ((hmem x).2 (Or.inl hx)), g3.trans hjr⟩
theorem treeCore_linkList (cl : List urdf.Link) (p : Nat) (t t1 : URDFPropertyTree)
    (hcore : TreeCore t) (hp : p ∈ reachable t)
    (h : addItemRecursivelyLinks cl p t = some t1) :
    TreeCore t1 ∧ (∀ x, x ∈ reachable t → x ∈ reachable t1) ∧
      t1.joint_root_ = t.joint_root_ := by
  match cl with
  | [] =>
    unfold addItemRecursivelyLinks at h
    injection h with h
    subst h
    exact ⟨hcore, fun _ hx => hx, rfl⟩
  | c :: cs =>
    unfold addItemRecursivelyLinks at h
    cases hA : addItemRecursivelyLink c p t with
    | none => rw [hA] at h; cases h
    | some s1 =>
      rw [hA] at h
      simp only at h
      obtain ⟨a1, a2, a3⟩ := treeCore_link c p t s1 hcore hp hA
      obtain ⟨b1, b2, b3⟩ := treeCore_linkList cs p s1 t1 a1 (a2 p hp) h
      exact ⟨b1, fun x hx => b2 x (a2 x hx), b3.trans a3⟩
end

/-- Every valid model loads into a newly constructed widget, and the tree that results is a
tree rebuilt from a valid model in the sense of `LoadedFromValidModel`. -/
theorem loaded_on_new_widget (mem : List urdf.Joint) (M : urdf.ModelInterface) (fuel : Nat)
    (hvalid : ValidModel mem M) (hfuel : M.links_.length ≤ fuel) :
    ∃ s, loadRobotModel fuel (some M) { new with memory := mem } = some (true, s) ∧
      LoadedFromValidModel s := by
  have hshell0 : Shell new := by unfold Shell; decide
  have hshell : Shell { new with memory := mem } := hshell0
  have hwf0 : WF new.items := by unfold WF; decide
  have hroot0 : parentOf new.items new.root_ = none := by decide
  obtain ⟨root, hrootl, hvl, _, hperm, _, _⟩ := id hvalid
  have hsize : linkSize root ≤ fuel := by
    rw [← linkNames_length, hperm.length_eq]
    simpa using hfuel
  obtain ⟨s, hpop, _⟩ :=
    populate_spec { { new with memory := mem } with model_ := M } fuel root hshell hrootl hvl
      hsize
  exact ⟨s, hpop, { new with memory := mem }, M, fuel, hshell, hwf0, hroot0, hvalid, hfuel,
    hpop⟩

theorem threeLinks_eq : on_addActionTriggered 4 twoLinks = some threeLinks :=
  eq_some_getD _ new (by decide)

theorem contextMenu_eq (t : URDFPropertyTree) (s : Nat) (it : QTreeWidgetItem)
    (h : t.items[s]? = some it) :
    on_contextMenuRequested (some s) t =
      if (decide (it.type = ItemType.LinkRoot) && t.link_names_.isEmpty) ||
          decide (it.type = ItemType.Link) then
        some { t with add_enabled := true, remove_enabled := decide (it.type = ItemType.Link),
                      expand_enabled := true, collapse_enabled := true }
      else if decide (it.type = ItemType.JointRoot) || decide (it.type = ItemType.Joint) ||
          (decide (it.type = ItemType.LinkRoot) && !t.link_names_.isEmpty) then
        some { t with add_enabled := false, remove_enabled := false, expand_enabled := true,
                      collapse_enabled := true }
      else some t := by
  simp only [on_contextMenuRequested, isLinkRoot, isLink, isJointRoot, isJoint, typeOf, h,
    Option.map_some']

/-- C11, as the code has it: with the root item `RobotModel` selected in a freshly constructed
widget, whose actions are enabled, the slot changes nothing: Add and Remove stay enabled. -/
theorem context_menu_on_root_keeps_enabled :
    typeOf new (some new.root_) = some ItemType.Plain ∧
    new.add_enabled = true ∧ new.remove_enabled = true ∧
    (on_contextMenuRequested (some new.root_) new).map
      (fun s => (s.add_enabled, s.remove_enabled)) = some (true, true) := by
  refine ⟨?_, ?_, ?_, ?_⟩ <;> decide

/-- C11, amended: for every state and every selected item, the slot returns; for a link item it
enables Add and Remove; for the link-group root while no links exist it enables Add and
disables Remove; for a joint item, the joint-group root, or the link-group root while links
exist it disables both; for an item of no special type (the root item) it leaves the state as
it was.  So for every selection other than the root item, Add or Remove is enabled afterwards
only if the selection is a link item or the link-group root while no links exist. -/
theorem context_menu_enables (t : URDFPropertyTree) (s : Nat) (it : QTreeWidgetItem)
    (h : t.items[s]? = some it) :
    ∃ t2, on_contextMenuRequested (some s) t = some t2 ∧
      (it.type = ItemType.Link → t2.add_enabled = true ∧ t2.remove_enabled = true) ∧
      (it.type = ItemType.LinkRoot → t.link_names_ = [] →
        t2.add_enabled = true ∧ t2.remove_enabled = false) ∧
      (it.type = ItemType.Joint ∨ it.type = ItemType.JointRoot ∨
          (it.type = ItemType.LinkRoot ∧ t.link_names_ ≠ []) →
        t2.add_enabled = false ∧ t2.remove_enabled = false) ∧
      (it.type = ItemType.Plain → t2 = t) ∧
      (it.type ≠ ItemType.Plain → (t2.add_enabled = true ∨ t2.remove_enabled = true) →
        it.type = ItemType.Link ∨ (it.type = ItemType.LinkRoot ∧ t.link_names_ = [])) := by
  rw [contextMenu_eq t s it h]
  cases hty : it.type <;> cases hn : t.link_names_ <;>
    simp [List.isEmpty]

/-- C11, amended, at the state after three adds, for `link_2` (item 4). -/
theorem context_menu_enables_witness :
    ∃ it, chainFinal.items[4]? = some it ∧ it.type = ItemType.Link ∧
      ∃ t2, on_contextMenuRequested (some 4) chainFinal = some t2 ∧
        t2.add_enabled = true ∧ t2.remove_enabled = true := by
  have hsit : chainFinal.items[4]? =
      some (chainFinal.items[4]?.getD (newItem ItemType.Plain "")) :=
    eq_some_getD _ _ (by decide)
  have hty : (chainFinal.items[4]?.getD (newItem ItemType.Plain "")).type = ItemType.Link := by
    decide
  obtain ⟨t2, h1, h2, _⟩ := context_menu_enables chainFinal 4 _ hsit
  exact ⟨_, hsit, hty, t2, h1, h2 hty⟩

/-! ### Drag and drop -/

/-- C12, as the code has it: after three adds, with the root link `link_1` (item 3) pressed and
dropped on `link_2` (item 4), both items are link items, the dragged one has no assigned joint,
and `dropEvent` dereferences the null `getAssignedJoint()`: it does not complete.  Dragging
`link_3` (item 6) onto `link_1` completes and sets the parent link of `joint_2` to `link_1`. -/
theorem drop_root_link_dereferences_null :
    isLink (on_itemPressed 3 chainFinal) (on_itemPressed 3 chainFinal).drag_item_ = some true ∧
    isLink (on_itemPressed 3 chainFinal) (some 4) = some true ∧
    (chainFinal.model_.getRoot).map (fun l => l.name) = some "link_1" ∧
    linkNameOf chainFinal 3 = some "link_1" ∧
    (chainFinal.items[3]?).map (fun x => x.assigned_joint) = some none ∧
    (dropEvent (some 4) DropIndicatorPosition.OnItem (on_itemPressed 3 chainFinal)).isNone
      = true ∧
    (dropEvent (some 3) DropIndicatorPosition.OnItem (on_itemPressed 6 chainFinal)).map
        (fun s => s.memory.map (fun j => (j.name, j.parent_link_name))) =
      some [("joint_1", "link_1"), ("joint_2", "link_1")] := by
  refine ⟨?_, ?_, ?_, ?_, ?_, ?_, ?_⟩ <;> decide

/-! ### What removal leaves alone -/

theorem on_jointParentLinkChanged_frame (j : Nat) (t t2 : URDFPropertyTree)
    (h : on_jointParentLinkChanged j t = some t2) :
    t2.model_ = t.model_ ∧ t2.emitted = t.emitted ∧ t2.memory = t.memory ∧
    t2.links_ = t.links_ ∧ t2.joints_ = t.joints_ ∧ t2.link_names_ = t.link_names_ ∧
    t2.joint_names_ = t.joint_names_ := by
  unfold on_jointParentLinkChanged at h
  dsimp only at h
  repeat' split at h
  all_goals first
    | (injection h with h; subst h; exact ⟨rfl, rfl, rfl, rfl, rfl, rfl, rfl⟩)
    | cases h

theorem setParentLinkName_frame (j : Nat) (name : String) (t t2 : URDFPropertyTree)
    (h : setParentLinkName j name t = some t2) :
    t2.model_ = t.model_ ∧ t2.emitted = t.emitted ∧
    t2.links_ = t.links_ ∧ t2.joints_ = t.joints_ ∧ t2.link_names_ = t.link_names_ ∧
    t2.joint_names_ = t.joint_names_ := by
  unfold setParentLinkName at h
  repeat' split at h
  all_goals first
    | cases h
    | (obtain ⟨h1, h2, _, h4, h5, h6, h7⟩ := on_jointParentLinkChanged_frame j _ t2 h
       exact ⟨h1, h2, h4, h5, h6, h7⟩)

theorem reparentChildrenLoop_frame (fuel : Nat) :
    ∀ (i item : Nat) (npn : String) (t t2 : URDFPropertyTree),
      reparentChildrenLoop fuel i item npn t = some t2 →
      t2.model_ = t.model_ ∧ t2.emitted = t.emitted ∧
      t2.links_ = t.links_ ∧ t2.joints_ = t.joints_ ∧ t2.link_names_ = t.link_names_ ∧
      t2.joint_names_ = t.joint_names_ := by
  induction fuel with
  | zero => intro i item npn t t2 h; simp [reparentChildrenLoop] at h
  | succ f ih =>
    intro i item npn t t2 h
    unfold reparentChildrenLoop at h
    split at h
    · split at h
      · split at h
        · cases h
        · rename_i t1 hset
          obtain ⟨a1, a2, a3, a4, a5, a6⟩ := setParentLinkName_frame _ npn t t1 hset
          obtain ⟨b1, b2, b3, b4, b5, b6⟩ := ih (i + 1) item npn t1 t2 h
          exact ⟨b1.trans a1, b2.trans a2, b3.trans a3, b4.trans a4, b5.trans a5,
            b6.trans a6⟩
      · cases h
    · injection h with h
      subst h
      exact ⟨rfl, rfl, rfl, rfl, rfl, rfl⟩

theorem removeJointTreeItem_frame (item : Option Nat) (t t2 : URDFPropertyTree)
    (h : removeJointTreeItem item t = some t2) :
    t2.model_ = t.model_ ∧ t2.emitted = t.emitted ∧ t2.joints_ = t.joints_ ∧
    t2.link_names_ = t.link_names_ := by
  unfold removeJointTreeItem at h
  repeat' first
    | split at h
    | (dsimp only at h; split at h)
  all_goals first
    | (cases h; done)
    | (injection h with h
       subst h
       rename_i t1 hloop
       obtain ⟨a1, a2, _, a4, a5, _⟩ := reparentChildrenLoop_frame _ _ _ _ _ t1 hloop
       exact ⟨a1, a2, a4, a5⟩)

theorem removeModelLink_frame (l : urdf.Link) (t t2 : URDFPropertyTree)
    (h : removeModelLink l t = some t2) :
    t2.model_.root_link_ = t.model_.root_link_ ∧ t2.model_.joints_ = t.model_.joints_ ∧
    stdErase t.model_.links_ l.name = some t2.model_.links_ ∧
    t2.emitted = t.emitted ∧ t2.memory = t.memory ∧ t2.items = t.items := by
  unfold removeModelLink at h
  split at h
  · cases h
  · rename_i ls hls
    injection h with h
    subst h
    exact ⟨rfl, rfl, hls, rfl, rfl, rfl⟩

theorem removeModelJoint_frame (j : Nat) (t t2 : URDFPropertyTree)
    (h : removeModelJoint j t = some t2) :
    t2.model_.root_link_ = t.model_.root_link_ ∧ t2.model_.links_ = t.model_.links_ ∧
    t2.emitted = t.emitted ∧ t2.memory = t.memory ∧ t2.items = t.items := by
  unfold removeModelJoint at h
  split at h
  · cases h
  · split at h
    · cases h
    · injection h with h
      subst h
      exact ⟨rfl, rfl, rfl, rfl, rfl⟩

theorem removeLinkTreeItem_frame (item : Nat) (t t2 : URDFPropertyTree)
    (h : removeLinkTreeItem item t = some t2) :
    t2.model_ = t.model_ ∧ t2.emitted = t.emitted ∧ t2.memory = t.memory := by
  unfold removeLinkTreeItem at h
  dsimp only at h
  repeat' split at h
  all_goals first
    | (cases h; done)
    | (injection h with h
       subst h
       exact ⟨rfl, rfl, rfl⟩)

/-- What a completed remove does: the link steps and the link signal, then, when the removed
link item has an assigned joint, the joint steps and the joint signal. -/
theorem on_removeActionTriggered_steps (sel : Nat) (t t2 : URDFPropertyTree)
    (h : on_removeActionTriggered sel t = some t2) :
    ∃ data s1 s2, removeModelLink data t = some s1 ∧ removeLinkTreeItem sel s1 = some s2 ∧
      (((s2.items[sel]?).map (fun it => it.assigned_joint) = some none ∧
          t2 = emit s2 Signal.linkDeletion) ∨
       ∃ aj jp s4 s5, (s2.items[sel]?).map (fun it => it.assigned_joint) = some (some aj) ∧
         removeModelJoint jp (emit s2 Signal.linkDeletion) = some s4 ∧
         removeJointTreeItem (some aj) s4 = some s5 ∧
         t2 = emit s5 Signal.jointDeletion) := by
  unfold on_removeActionTriggered at h
  split at h
  · rename_i s hs
    have hsel : s = sel := by
      unfold asLinkTreeItem at hs
      cases hl : isLink t (some sel) with
      | none => rw [hl] at hs; cases hs
      | some b =>
        rw [hl] at hs
        cases b <;> simp at hs
        exact hs.symm
    subst hsel
    split at h
    · cases h
    · split at h
      · cases h
      · rename_i data _
        split at h
        · cases h
        · rename_i s1 h1
          split at h
          · cases h
          · rename_i s2 h2
            refine ⟨data, s1, s2, h1, h2, ?_⟩
            dsimp only at h
            split at h
            · cases h
            · rename_i haj
              injection h with h
              exact Or.inl ⟨haj, h.symm⟩
            · rename_i aj haj
              split at h
              · cases h
              · split at h
                · cases h
                · rename_i jp _
                  split at h
                  · cases h
                  · rename_i s4 h4
                    split at h
                    · cases h
                    · rename_i s5 h5
                      injection h with h
                      exact Or.inr ⟨aj, jp, s4, s5, haj, h4, h5, h.symm⟩
  · cases h

/-! ### The designated root link -/

theorem on_add_model (sel : Nat) (t t2 : URDFPropertyTree)
    (h : on_addActionTriggered sel t = some t2) :
    ∃ n, getValidName "link_" t.link_names_ = some n ∧
      t2.model_.links_ = (insertModelLink t.model_ n (urdf.Link.mk n [] [])).links_ ∧
      t2.model_.root_link_ = (insertModelLink t.model_ n (urdf.Link.mk n [] [])).root_link_ := by
  obtain ⟨link, t1, new_link, s2, h1, h2, hrest⟩ := on_addActionTriggered_steps sel t t2 h
  obtain ⟨n, hn, hl, ht1⟩ := addModelLink_inv t t1 link h1
  obtain ⟨_, _, hs2⟩ := addLinkTreeItem_inv sel link t1 s2 new_link h2
  refine ⟨n, hn, ?_⟩
  rcases hrest with ⟨ht2, _, _⟩ | ⟨par, joint, t4, new_joint, t5, h3, h4, ht2, _⟩
  · rw [ht2, hs2, ht1, hl]; exact ⟨rfl, rfl⟩
  · obtain ⟨_, _, _, ht4⟩ := addModelJoint_inv link.name _ t4 joint h3
    obtain ⟨_, _, _, _, _, _, ht5⟩ := addJointTreeItem_inv par joint t4 t5 new_joint h4
    rw [ht2, ht5, ht4, hs2, ht1, hl]; exact ⟨rfl, rfl⟩

theorem on_remove_root (sel : Nat) (t t2 : URDFPropertyTree)
    (h : on_removeActionTriggered sel t = some t2) :
    t2.model_.root_link_ = t.model_.root_link_ := by
  obtain ⟨data, s1, s2, h1, h2, hrest⟩ := on_removeActionTriggered_steps sel t t2 h
  obtain ⟨a1, _⟩ := removeModelLink_frame data t s1 h1
  obtain ⟨b1, _⟩ := removeLinkTreeItem_frame sel s1 s2 h2
  rcases hrest with ⟨_, ht2⟩ | ⟨aj, jp, s4, s5, _, h4, h5, ht2⟩
  · rw [ht2]
    show s2.model_.root_link_ = _
    rw [b1, a1]
  · obtain ⟨c1, _⟩ := removeModelJoint_frame jp _ s4 h4
    obtain ⟨d1, _⟩ := removeJointTreeItem_frame (some aj) s4 s5 h5
    rw [ht2]
    show s5.model_.root_link_ = _
    rw [d1, c1]
    show s2.model_.root_link_ = _
    rw [b1, a1]

/-- C13, as the code has it: the tree is loaded from a model whose only link `base` is the root
link; `base` is removed, which leaves `root_link_` as it was; the next add, on the link-group
root, makes the link map hold one link again and designates the new `link_1` as root link. -/
theorem add_after_emptying_redesignates_root :
    (runAll [fun t => (loadRobotModel 1 (some singleModel) t).map (fun r => r.2)] new).map
        (fun t => (t.model_.getRoot).map (fun l => l.name)) = some (some "base") ∧
    (runAll [fun t => (loadRobotModel 1 (some singleModel) t).map (fun r => r.2),
        on_removeActionTriggered 3] new).map
        (fun t => ((t.model_.getRoot).map (fun l => l.name), modelLinkNames t)) =
      some (some "base", []) ∧
    (runAll [fun t => (loadRobotModel 1 (some singleModel) t).map (fun r => r.2),
        on_removeActionTriggered 3, on_addActionTriggered 1] new).map
        (fun t => ((t.model_.getRoot).map (fun l => l.name), modelLinkNames t)) =
      some (some "link_1", ["link_1"]) := by
  refine ⟨?_, ?_, ?_⟩ <;> decide

/-- C13, amended: in any sequence of completed removes and of completed adds that leave more
than one link in the model's link map, the designated root link stays the one of the start; and
a completed add that leaves exactly one link in the link map designates the link it created. -/
theorem root_link_kept (s t : URDFPropertyTree) (h : LinkEdits s t) :
    t.model_.root_link_ = s.model_.root_link_ ∧
    ∀ sel t1, on_addActionTriggered sel t = some t1 → t1.model_.links_.length = 1 →
      ∃ n, getValidName "link_" t.link_names_ = some n ∧
        t1.model_.root_link_ = some (urdf.Link.mk n [] []) := by
  constructor
  · induction h with
    | start => rfl
    | add t t1 sel _ hadd hlen ih =>
      obtain ⟨n, _, hl, hr⟩ := on_add_model sel t t1 hadd
      rw [hr, ← ih]
      rw [hl] at hlen
      unfold insertModelLink at hlen ⊢
      split
      · rename_i hc
        rw [if_pos hc] at hlen
        exact absurd hc hlen
      · rfl
    | remove t t1 sel _ hrem ih => rw [on_remove_root sel t t1 hrem, ih]
  · intro sel t1 hadd hlen
    obtain ⟨n, hn, hl, hr⟩ := on_add_model sel t t1 hadd
    refine ⟨n, hn, ?_⟩
    rw [hr]
    rw [hl] at hlen
    unfold insertModelLink at hlen ⊢
    split
    · rfl
    · rename_i hc
      rw [if_neg hc] at hlen
      exact absurd hlen hc

theorem chainCut_eq : on_removeActionTriggered 4 threeLinks = some chainCut :=
  eq_some_getD _ new (by decide)

/-- C13, amended, at the sequence add, add, remove of `link_2` after the first add. -/
theorem root_link_kept_witness :
    LinkEdits oneLink chainCut ∧
    chainCut.model_.root_link_ = oneLink.model_.root_link_ ∧
    (oneLink.model_.getRoot).map (fun l => l.name) = some "link_1" :=
  have h : LinkEdits oneLink chainCut :=
    LinkEdits.remove threeLinks chainCut 4
      (LinkEdits.add twoLinks threeLinks 4
        (LinkEdits.add oneLink twoLinks 3 LinkEdits.start twoLinks_eq (by decide))
        threeLinks_eq (by decide))
      chainCut_eq
  ⟨h, (root_link_kept oneLink chainCut h).1, by decide⟩

/-! ### Joints and the links they name -/

/-- C14, as the code has it: from the empty tree, two adds (`link_1`, then `link_2` with
`joint_1` from `link_1` to `link_2`) and the remove of the root link `link_1` (item 3) all
complete; the selected link has no assigned joint, so no joint step runs, and `joint_1` stays
in the model with the parent link name `link_1`, which is no longer a key of the link map. -/
theorem remove_root_link_leaves_dangling_parent :
    (runAll [on_addActionTriggered 1, on_addActionTriggered 3, on_removeActionTriggered 3]
        new).map (fun t => (modelLinkNames t, t.model_.joints_,
          t.memory.map (fun j => (j.name, j.parent_link_name, j.child_link_name)))) =
      some (["link_2"], [("joint_1", 0)], [("joint_1", "link_1", "link_2")]) := by
  decide

/-! ### Joints whose child link does not resolve -/

/-- C15: when the child link name of a joint does not resolve to a link of the model,
`addItemRecursively(joint, parent)` returns with the state as it was (no item, no name
recorded, nothing below the joint visited, the model untouched), and the loop over the joints
goes on with the remaining ones. -/
theorem unresolved_child_link_skips_joint (fuel joint : Nat) (parent : Option Nat)
    (t : URDFPropertyTree) (jd : urdf.Joint) (hjd : t.memory[joint]? = some jd)
    (hnone : t.model_.getLink jd.child_link_name = none) :
    addItemRecursivelyJoint (fuel + 1) joint parent t = some t ∧
    ∀ js, forJoints (fun j s => addItemRecursivelyJoint (fuel + 1) j parent s) (joint :: js) t =
      forJoints (fun j s => addItemRecursivelyJoint (fuel + 1) j parent s) js t := by
  have h : addItemRecursivelyJoint (fuel + 1) joint parent t = some t := by
    simp only [addItemRecursivelyJoint, hjd, hnone]
  refine ⟨h, fun js => ?_⟩
  simp only [forJoints, h]

/-- C15 at `looseModel`: the joint `ghost` is skipped, and the population creates the item of
`hip` only, while both joints stay in the model's joint map. -/
theorem unresolved_child_link_skips_joint_witness :
    looseStart.memory[0]? =
      some { name := "ghost", parent_link_name := "base", child_link_name := "phantom" } ∧
    looseStart.model_.getLink "phantom" = none ∧
    addItemRecursivelyJoint 2 0 (some looseStart.joint_root_) looseStart = some looseStart ∧
    (populateFromRobotModel 2 looseStart).map
        (fun r => (r.1, jointNodeNames r.2, r.2.joint_names_, modelJointNames r.2,
          linkNodeNames r.2)) =
      some (true, ["hip"], ["hip"], ["ghost", "hip"], ["base", "leg"]) :=
  ⟨by decide, rfl,
    (unresolved_child_link_skips_joint 1 0 (some looseStart.joint_root_) looseStart
      { name := "ghost", parent_link_name := "base", child_link_name := "phantom" }
      (by decide) rfl).1,
    by decide⟩

/-! ### The order of the signals -/

/-- C17: for a widget with the three fixed items in place that holds a model whose links and
joints form a valid tree, `populateFromRobotModel` completes (with fuel at least the number of
links) and leaves the model and every joint object as they were: each parent link name written
by `addJointTreeItem` is the one the joint had, and the link and joint maps are untouched. -/
theorem populate_leaves_model_unchanged (t : URDFPropertyTree) (fuel : Nat)
    (hshell : Shell t) (hvalid : ValidModel t.memory t.model_)
    (hfuel : t.model_.links_.length ≤ fuel) :
    ∃ t2, populateFromRobotModel fuel t = some (true, t2) ∧
      t2.model_ = t.model_ ∧ t2.memory = t.memory := by
  obtain ⟨root, hroot, hvl, _, hperm, _, _⟩ := hvalid
  have hsize : linkSize root ≤ fuel := by
    rw [← linkNames_length, hperm.length_eq]
    simpa using hfuel
  obtain ⟨t2, h1, _, _, _, _, h6, h7⟩ := populate_spec t fuel root hshell hroot hvl hsize
  exact ⟨t2, h1, h6, h7⟩

/-- C17 at `sampleModel`. -/
theorem populate_leaves_model_unchanged_witness :
    Shell sampleHolding ∧ ValidModel sampleHolding.memory sampleHolding.model_ ∧
    ∃ t2, populateFromRobotModel 3 sampleHolding = some (true, t2) ∧
      t2.model_ = sampleModel ∧ t2.memory = sampleMemory :=
  ⟨shell_sampleStart, validModel_sample,
    populate_leaves_model_unchanged sampleHolding 3 shell_sampleStart validModel_sample
      (by decide)⟩

/-! ### The name indexes under removal -/

/-- C18, as the code has it: `removeJointTreeItem` calls `links_.remove(name)` where the joint
index was meant.  After three adds, removing the item of `joint_2` (item 7) takes its name out
of `joint_names_` but leaves it a key of `joints_`; and in the tree rebuilt from `clashModel`,
where a link and its joint are both named `arm`, removing the joint item (item 5) takes the
link `arm` out of `links_` while the link item stays in the tree and in `link_names_`. -/
theorem joint_removal_edits_link_index :
    (removeJointTreeItem (some 7) threeLinks).map
        (fun t => (t.joints_, t.joint_names_, t.links_)) =
      some ([("joint_2", 7), ("joint_1", 5)], ["joint_1"],
        [("link_3", 6), ("link_2", 4), ("link_1", 3)]) ∧
    clashLoaded.links_ = [("arm", 4), ("base", 3)] ∧
    (removeJointTreeItem (some 5) clashLoaded).map
        (fun t => (t.joints_, t.joint_names_, t.links_, t.link_names_, linkNodeNames t)) =
      some ([("arm", 5)], [], [("base", 3)], ["base", "arm"], ["base", "arm"]) := by
  refine ⟨?_, ?_, ?_⟩ <;> decide

/-! ### Loading a model -/

/-- C19, as the code has it: with a null model `loadRobotModel` returns false and changes
nothing; with the freshly constructed model, which has no links and no root link,
`populateFromRobotModel` dereferences the null `getRoot()` and does not complete, whatever the
fuel and the state; the same happens when the root link's name is not a key of the link map,
as in a model holding only a root link pointer. -/
theorem load_model_without_root_dereferences_null :
    (∀ (fuel : Nat) (t : URDFPropertyTree), loadRobotModel fuel none t = some (false, t)) ∧
    (∀ (fuel : Nat) (t : URDFPropertyTree),
      loadRobotModel fuel (some urdf.ModelInterface.empty) t = none) ∧
    (∀ (fuel : Nat) (t : URDFPropertyTree),
      loadRobotModel fuel
        (some { links_ := [], joints_ := [], root_link_ := some (urdf.Link.mk "base" [] []) })
        t = none) := by
  refine ⟨fun _ _ => rfl, fun _ _ => rfl, fun _ _ => rfl⟩
end urdf_editor
